import Mathlib

/-!
Verification of the signature-parsing / wrapper-synthesis generator
(`scripts/gen.py`).  Python strings are embedded as `List Char`; lark
parse trees as the inductive `Node` (tokens carry 1-based `column` /
`end_column` spans, as lark produces for single-line input); fallible
Python code (asserts, raised exceptions) returns `Option` / `Except`.
-/

set_option maxRecDepth 10000

abbrev Str := List Char

/-- Python slice `s[a:b]` for the non-negative indices the generator uses.
(`StringEmit` only slices with `0 ≤ a ≤ b`.) -/
def pySlice (s : Str) (a b : Int) : Str :=
  ((s.drop a.toNat).take (b - a).toNat)

/-- Python `s.find(pat) >= 0`, i.e. substring containment. -/
def pyContains (s pat : Str) : Bool :=
  if pat.isPrefixOf s then true
  else
    match s with
    | [] => false
    | _ :: t => pyContains t pat

/-- A lark lexer token: terminal name, matched text, and its 1-based
column span on the source line (`end_column` is one past the last char). -/
structure Tok where
  ttype : Str
  value : Str
  column : Nat
  endColumn : Nat

/-- A lark parse tree: interior nodes carry the rule name (`data`),
leaves are tokens.  With `keep_all_tokens` every literal token appears. -/
inductive Node where
  | token : Tok → Node
  | tree : Str → List Node → Node

/-- lark structural equality: `Tree.__eq__` compares rule name and
children; `Token` is a `str` subclass, so tokens compare by text only. -/
def pyEq : Node → Node → Bool
  | .token a, .token b => a.value == b.value
  | .tree d cs, .tree e ds => d == e && pyEqList cs ds
  | _, _ => false
where pyEqList : List Node → List Node → Bool
  | [], [] => true
  | a :: as', b :: bs => pyEq a b && pyEqList as' bs
  | _, _ => false

/-- `first_match`: start (0-based) of the leftmost token under `t`. -/
def first_match : Node → Int
  | .token t => (t.column : Int) - 1
  | .tree _ [] => 0
  | .tree _ (c :: _) => first_match c

mutual
/-- `last_match`: end (0-based) of the rightmost token under `t`.
(Python indexes `children[-1]`; grammar trees are never childless.) -/
def last_match : Node → Int
  | .token t => (t.endColumn : Int) - 1
  | .tree _ cs => lastOfList cs

/-- `last_match` of the final element of a children list (0 if empty). -/
def lastOfList : List Node → Int
  | [] => 0
  | [c] => last_match c
  | _ :: c :: cs => lastOfList (c :: cs)
end

/-- The in-order token sequence of a tree (`for_every_token` visits it). -/
def nodeTokens : Node → List Tok
  | .token t => [t]
  | .tree _ cs => nodeTokensList cs
where nodeTokensList : List Node → List Tok
  | [] => []
  | c :: cs => nodeTokens c ++ nodeTokensList cs

/-- `StringEmit`: regenerates text from a token tree against the original
source `sref`, keeping a cursor `pos` (−1 = "no gap pending"). -/
structure StringEmit where
  sref : Str
  sval : Str
  pos : Int

def StringEmit.advance (e : StringEmit) (t : Tok) : StringEmit :=
  let start : Int := (t.column : Int) - 1
  let stop : Int := (t.endColumn : Int) - 1
  let pos : Int := if e.pos ≥ 0 then e.pos else start
  let sval := if start > pos then e.sval ++ pySlice e.sref pos start else e.sval
  { e with sval := sval ++ t.value, pos := stop }

def StringEmit.skip (e : StringEmit) (t : Node) : StringEmit :=
  { e with pos := if e.pos ≥ 0 then last_match t else -1 }

def StringEmit.append (e : StringEmit) (s : Str) : StringEmit :=
  { e with sval := e.sval ++ s, pos := -1 }

/-- `for_every_token(t, emit.advance)`, i.e. advance over every token. -/
def advanceAll (e : StringEmit) (ts : List Tok) : StringEmit :=
  ts.foldl StringEmit.advance e

/-- `emit_string`: policy `emit_fn` yields >0 = copy all tokens below,
0 = recurse (tokens advance), <0 = skip the node's span. -/
def emit_string (emit_fn : Node → Int) : Node → StringEmit → StringEmit
  | t, e =>
    let status := emit_fn t
    if status > 0 then advanceAll e (nodeTokens t)
    else if status = 0 then
      match t with
      | .token tk => e.advance tk
      | .tree d cs => emit_list emit_fn d cs e
    else e.skip t
where emit_list (emit_fn : Node → Int) (d : Str) : List Node → StringEmit → StringEmit
  | [], e => e
  | c :: cs, e => emit_list emit_fn d cs (emit_string emit_fn c e)

/-- `rewrite_sig(tree, orig_sig, emit_fn)`. -/
def rewrite_sig (tree : Node) (orig_sig : Str) (emit_fn : Node → Int) : Str :=
  (emit_string emit_fn tree { sref := orig_sig, sval := [], pos := -1 }).sval

/-- The default identity policy (`lambda x: 0`). -/
def idPolicy : Node → Int := fun _ => 0

/-- In-place token rewriting (`for_every_token(xtree, rewrite)` mutates
token values; we map over the tree instead). -/
def mapTokens (f : Tok → Tok) : Node → Node
  | .token t => .token (f t)
  | .tree d cs => .tree d (mapTokensList f cs)
where mapTokensList (f : Tok → Tok) : List Node → List Node
  | [] => []
  | c :: cs => mapTokens f c :: mapTokensList f cs

/-- `typed_child(t, n, ttype)` (Python asserts become `Option`). -/
def typed_child (t : Node) (n : Nat) (ttype : Str) : Option Node :=
  match t with
  | .token _ => none
  | .tree _ cs =>
    match cs.get? n with
    | some (.tree d cs') => if d = ttype then some (.tree d cs') else none
    | _ => none

/-! ## Static configuration tables of `gen.py` -/

/-- `_FN_BLACKLIST` (exact names). -/
def FN_BLACKLIST : List Str :=
  (["toBackend", "toScalarType", "backward", "set_data", "tensorFromBlob",
    "tensorWithAllocator", "storageFromBlob", "storageWithAllocator",
    "unsafeStorageFromTH", "unsafeTensorFromTH", "ones_like", "zeros_like"]).map
    String.data

/-- `re.match(r'[^(]*cudnn', s)`: some prefix of non-`(` characters followed
by the literal text `cudnn`, anchored at the start of `s`. -/
def matchCudnn (s : Str) : Bool :=
  if ("cudnn".data).isPrefixOf s then true
  else
    match s with
    | [] => false
    | c :: t => if c = '(' then false else matchCudnn t

/-- `_FN_BLACKLIST_REGEX` (one pattern, transcribed as `matchCudnn`). -/
def FN_BLACKLIST_REGEX : List (Str → Bool) := [matchCudnn]

/-- `_TYPE_NSMAP`. -/
def TYPE_NSMAP : List (Str × Str) :=
  [("Tensor", "at::Tensor"), ("TensorList", "at::TensorList"),
   ("Scalar", "at::Scalar"), ("Storage", "at::Storage"),
   ("IntList", "at::IntList"), ("IntArrayRef", "at::IntArrayRef"),
   ("Generator", "at::Generator"), ("ScalarType", "at::ScalarType"),
   ("TensorOptions", "at::TensorOptions"),
   ("SparseTensorRef", "at::SparseTensorRef"), ("Device", "c10::Device"),
   ("optional", "at::optional")].map fun p => (p.1.data, p.2.data)

/-- `FuncOpts` (only the `ref_param` field is ever set, to a name). -/
structure FuncOpts where
  ref_param : Str

/-- `_FUNCTION_OPTIONS`, keyed by canonical map signature. -/
def FUNCTION_OPTIONS : List (Str × FuncOpts) :=
  [("to(Tensor, TensorOptions, bool, bool) -> Tensor", "options"),
   ("to(Tensor, Device, ScalarType, bool, bool) -> Tensor", "device"),
   ("to(Tensor, Tensor, bool, bool) -> Tensor", "other")].map
    fun p => (p.1.data, { ref_param := p.2.data })

/-- `_XLA_FUNCTIONS` (empty in the source). -/
def XLA_FUNCTIONS : List (Str × Str) := []

/-- `_CTOR_FUNCTIONS`. -/
def CTOR_FUNCTIONS : List (Str × Str) :=
  [("empty", ".device(at::DeviceType::CPU)"),
   ("linspace", ".device(at::DeviceType::CPU)"),
   ("logspace", ".device(at::DeviceType::CPU)"),
   ("ones", ".device(at::DeviceType::CPU)"),
   ("randn", ".device(at::DeviceType::CPU)"),
   ("zeros", ".device(at::DeviceType::CPU)")].map fun p => (p.1.data, p.2.data)

/-- `_RESULT_NAME`. -/
def RESULT_NAME : Str := "x_result".data

/-- `is_blacklisted_fn(fname, mapsig)`. -/
def is_blacklisted_fn (fname mapsig : Str) : Bool :=
  FN_BLACKLIST.contains fname || FN_BLACKLIST.contains mapsig ||
    FN_BLACKLIST_REGEX.any fun frx => frx fname || frx mapsig

/-- Python `str(None)`/format of an optional string (`None` renders as
`"None"`, as `str.format` does). -/
def pyStr (o : Option Str) : Str :=
  match o with
  | some s => s
  | none => "None".data

/-- Decimal rendering of a counter (Python `'{}'.format(n)`). -/
def natStr (n : Nat) : Str := (toString n).data

/-- `FuncGen` (the namedtuple of one synthesized wrapper). -/
structure FuncGen where
  tree : Node
  xtree : Node
  rwxtree : Node
  func : Str
  xfunc : Str
  code : Str
  sig : Str
  rwsig : Str
  cppsig : Str
  funsig : Str
  mapsig : Str

/-- `Context` (the two lookup corpora are read as plain text; `defdb` is
the per-run overload counter). -/
structure Context where
  gen_class_mode : Bool
  defdb : List (Str × Nat)
  functions_data : Str
  native_functions_data : Str

/-- `Context.get_function(name, ref_param)`: substring-presence oracle
over the two corpora, with the `at::detail::infer_type` fallback. -/
def Context.get_function (ctx : Context) (name : Str) (ref_param : Str) : Str :=
  if pyContains ctx.functions_data (' ' :: name ++ "(".data) then
    "at::".data ++ name
  else if pyContains ctx.native_functions_data (' ' :: name ++ "(".data) then
    "at::native::".data ++ name
  else
    "at::detail::infer_type(".data ++ ref_param ++ ").".data ++ name

/-! ## Tree accessors (Python asserts/raises become `Option`/defaults) -/

/-- `type_core(t)`: the atomic name of the type's `core_type` child
(`RuntimeError`/bad shapes become `none`). -/
def type_core (t : Node) : Option Str :=
  match t with
  | .token _ => none
  | .tree _ cs => findCore cs
where findCore : List Node → Option Str
  | [] => none
  | .token _ :: cs => findCore cs
  | .tree d cs0 :: cs =>
    if d = "core_type".data then
      match cs0 with
      | .token tk :: _ => some tk.value
      | .tree d2 (c00 :: _) :: _ =>
        if d2 = "template".data then
          match c00 with
          | .token tk => some tk.value
          | _ => none
        else none
      | _ => none
    else findCore cs

/-- `type_is_const(t)`: first child is the `const` token.  (On a childless
tree Python would raise; the grammar never produces one.) -/
def type_is_const (t : Node) : Bool :=
  match t with
  | .tree _ (.token tk :: _) => tk.value = "const".data
  | _ => false

/-- `type_is_refptr(t, kind)`: last child is a `refspec` holding `kind`. -/
def type_is_refptr (t : Node) (kind : Str) : Bool :=
  match t with
  | .token _ => false
  | .tree _ cs =>
    match cs.getLast? with
    | some (.tree d (c :: _)) =>
      d = "refspec".data &&
        (match c with
         | .token tk => tk.value = kind
         | _ => false)
    | _ => false

/-- `extract_list(t, l)`: flatten the right-nested `params`/`typelist`
chain of a filtered (compact) tree. -/
def extract_list (t : Node) : Option (List Node) :=
  match t with
  | .token _ => none
  | .tree _ [] => none
  | .tree d (c0 :: rest) =>
    match rest with
    | [c1] =>
      match c1 with
      | .tree d1 _ =>
        if d1 = d then (extract_list c1).map (c0 :: ·) else some [c0]
      | .token _ => some [c0]
    | _ => some [c0]

/-- `tuple_type_list(t)`: the type list of a `template` return type
(compact tree: the typelist is the template's second child). -/
def tuple_type_list (t : Node) : Option (List Node) :=
  match t with
  | .tree _ (.tree d0 cs0 :: _) =>
    if d0 = "core_type".data then
      match cs0 with
      | .tree d1 cs1 :: _ =>
        if d1 = "template".data then (cs1.get? 1).bind extract_list
        else none
      | _ => none
    else none
  | _ => none

/-- `get_parameters(t)`: the flattened `params` child (compact tree,
`t.children[2]`). -/
def get_parameters (t : Node) : Option (List Node) :=
  match t with
  | .tree _ cs =>
    match cs.get? 2 with
    | some (.tree d cs2) =>
      if d = "params".data then extract_list (.tree d cs2) else none
    | _ => none
  | _ => none

/-- `param_name(t)`: the `CNAME` under the param's `param_name` child. -/
def param_name (t : Node) : Option Str :=
  match t with
  | .tree _ cs =>
    match cs.get? 1 with
    | some (.tree d (c :: _)) =>
      if d = "param_name".data then
        match c with
        | .token tk => some tk.value
        | _ => none
      else none
    | _ => none
  | _ => none

/-- `param_type(t)`: the param's first child (a `type` tree). -/
def param_type (t : Node) : Option Node :=
  match t with
  | .tree _ (c :: _) =>
    match c with
    | .tree d cs => some (.tree d cs)
    | _ => none
  | _ => none

/-- `list_get(l, n)`. -/
def list_get (l : List Node) (n : Nat) : Option Node := l.get? n

/-! ## The signature parser (`_GRAMMAR`, `_PARSER`, `_XPARSER`)

A deterministic parser for the lark grammar, producing the
`keep_all_tokens` tree (`_XPARSER`); the plain `_PARSER` tree is the same
tree with the anonymous literal tokens filtered out, exactly as lark
filters them.  Tokens carry the 1-based column spans lark records. -/

/-- lark `WS` (`/\s+/`, ignored): the characters Python regards as `\s`. -/
def isWsChar (c : Char) : Bool :=
  c = ' ' || c = '\t' || c = '\n' || c = '\r' || c = '\x0b' || c = '\x0c'

/-- `TNAME: /[a-zA-Z0-9_:]+/`. -/
def isTnameChar (c : Char) : Bool := c.isAlphanum || c = '_' || c = ':'

/-- First character of a `CNAME` (`("_"|LETTER) ...`). -/
def isCnameStart (c : Char) : Bool := c.isAlpha || c = '_'

/-- Continuation character of a `CNAME`. -/
def isCnameChar (c : Char) : Bool := c.isAlphanum || c = '_'

/-- Index just past the ignored whitespace at `i`. -/
def skipWs (s : Str) (i : Nat) : Nat := i + ((s.drop i).takeWhile isWsChar).length

/-- Maximal run of characters satisfying `p` at `i`. -/
def runOf (p : Char → Bool) (s : Str) (i : Nat) : Str := (s.drop i).takeWhile p

/-- Build a token whose match starts at 0-based index `i`. -/
def mkTok (ty : String) (v : Str) (i : Nat) : Tok :=
  { ttype := ty.data, value := v, column := i + 1, endColumn := i + v.length + 1 }

/-- `refspec: REF | PTR`. -/
def parse_refspec (s : Str) (i : Nat) : Option (Node × Nat) :=
  let j := skipWs s i
  match s.get? j with
  | some c =>
    if c = '&' then
      some (.tree "refspec".data [.token (mkTok "REF" ['&'] j)], j + 1)
    else if c = '*' then
      some (.tree "refspec".data [.token (mkTok "PTR" ['*'] j)], j + 1)
    else none
  | none => none

mutual
/-- `type: CONST? core_type refspec?`.  At the type-start lexer state both
`CONST` and `TNAME` can match the text `const`; lark gives the literal
string priority at equal length, so an exact run `const` lexes as `CONST`. -/
def parse_type (fuel : Nat) (s : Str) (i : Nat) : Option (Node × Nat) :=
  match fuel with
  | 0 => none
  | f + 1 =>
    let i := skipWs s i
    let run := runOf isTnameChar s i
    if run = "const".data then
      let ctok : Node := .token (mkTok "CONST" run i)
      match parse_core_type f s (i + run.length) with
      | none => none
      | some (core, j) =>
        match parse_refspec s j with
        | some (r, k) => some (.tree "type".data [ctok, core, r], k)
        | none => some (.tree "type".data [ctok, core], j)
    else
      match parse_core_type f s i with
      | none => none
      | some (core, j) =>
        match parse_refspec s j with
        | some (r, k) => some (.tree "type".data [core, r], k)
        | none => some (.tree "type".data [core], j)

/-- `core_type: template | TNAME`, `template: TNAME "<" typelist ">"`. -/
def parse_core_type (fuel : Nat) (s : Str) (i : Nat) : Option (Node × Nat) :=
  match fuel with
  | 0 => none
  | f + 1 =>
    let i := skipWs s i
    let run := runOf isTnameChar s i
    if run.isEmpty then none
    else
      let tname : Node := .token (mkTok "TNAME" run i)
      let j := i + run.length
      let k := skipWs s j
      match s.get? k with
      | some c =>
        if c = '<' then
          match parse_typelist f s (k + 1) with
          | none => none
          | some (tl, m) =>
            let m2 := skipWs s m
            match s.get? m2 with
            | some c2 =>
              if c2 = '>' then
                some (.tree "core_type".data
                  [.tree "template".data
                    [tname, .token (mkTok "LT" ['<'] k), tl,
                     .token (mkTok "GT" ['>'] m2)]], m2 + 1)
              else none
            | none => none
        else some (.tree "core_type".data [tname], j)
      | none => some (.tree "core_type".data [tname], j)

/-- `typelist: type | type "," typelist`. -/
def parse_typelist (fuel : Nat) (s : Str) (i : Nat) : Option (Node × Nat) :=
  match fuel with
  | 0 => none
  | f + 1 =>
    match parse_type f s i with
    | none => none
    | some (ty, j) =>
      let k := skipWs s j
      match s.get? k with
      | some c =>
        if c = ',' then
          match parse_typelist f s (k + 1) with
          | none => none
          | some (rest, m) =>
            some (.tree "typelist".data
              [ty, .token (mkTok "COMMA" [','] k), rest], m)
        else some (.tree "typelist".data [ty], j)
      | none => some (.tree "typelist".data [ty], j)
end

/-- Lex a `CNAME` token (used for `fnname` and `param_name`). -/
def lex_cname (s : Str) (i : Nat) : Option (Tok × Nat) :=
  let i := skipWs s i
  match s.get? i with
  | some c =>
    if isCnameStart c then
      let run := runOf isCnameChar s i
      some (mkTok "CNAME" run i, i + run.length)
    else none
  | none => none

/-- Digit run at `i`. -/
def lexDigits (s : Str) (i : Nat) : Str := runOf Char.isDigit s i

/-- Hexadecimal digit. -/
def isHexDigitChar (c : Char) : Bool :=
  c.isDigit || ('a' ≤ c && c ≤ 'f') || ('A' ≤ c && c ≤ 'F')

/-- Optional exponent part of lark `FLOAT` (`(e|E)(+|-)?INT`); `[]` when
absent. -/
def lexExp (s : Str) (i : Nat) : Str :=
  match s.get? i with
  | some c =>
    if c = 'e' || c = 'E' then
      match s.get? (i + 1) with
      | some c2 =>
        if c2 = '+' || c2 = '-' then
          let ds := lexDigits s (i + 2)
          if ds.isEmpty then [] else c :: c2 :: ds
        else
          let ds := lexDigits s (i + 1)
          if ds.isEmpty then [] else c :: ds
      | none => []
    else []
  | none => []

/-- Maximal lark `NUMBER` match at `i` (`FLOAT | INT`); `[]` when absent. -/
def lexNumber (s : Str) (i : Nat) : Str :=
  let ds := lexDigits s i
  if ds.isEmpty then
    match s.get? i with
    | some c =>
      if c = '.' then
        let ds2 := lexDigits s (i + 1)
        if ds2.isEmpty then []
        else
          let frac := '.' :: ds2
          frac ++ lexExp s (i + frac.length)
      else []
    | none => []
  else
    match s.get? (i + ds.length) with
    | some c =>
      if c = '.' then
        let ds2 := lexDigits s (i + ds.length + 1)
        let dec := ds ++ '.' :: ds2
        dec ++ lexExp s (i + dec.length)
      else ds ++ lexExp s (i + ds.length)
    | none => ds ++ lexExp s (i + ds.length)

/-- Tail of an `ESCAPED_STRING` after the opening quote: the matched text
(including the closing quote) and the index past it. -/
def lexEscapedTail (fuel : Nat) (s : Str) (i : Nat) : Option (Str × Nat) :=
  match fuel with
  | 0 => none
  | f + 1 =>
    match s.get? i with
    | none => none
    | some c =>
      if c = '"' then some (['"'], i + 1)
      else if c = '\\' then
        match s.get? (i + 1) with
        | none => none
        | some c2 =>
          (lexEscapedTail f s (i + 2)).map fun p => ('\\' :: c2 :: p.1, p.2)
      else (lexEscapedTail f s (i + 1)).map fun p => (c :: p.1, p.2)

/-- `init_value`: the closed literal set, matched longest-first as the
lark lexer does at this state. -/
def parse_init_value (s : Str) (i : Nat) : Option (Node × Nat) :=
  let i := skipWs s i
  match s.get? i with
  | none => none
  | some c =>
    if c = '"' then
      match lexEscapedTail (s.length + 1) s (i + 1) with
      | some (t, j) =>
        some (.tree "init_value".data
          [.token (mkTok "ESCAPED_STRING" ('"' :: t) i)], j)
      | none => none
    else if c = '\x7b' then
      match s.get? (i + 1) with
      | some c2 =>
        if c2 = '\x7d' then
          some (.tree "init_value".data
            [.token (mkTok "BRACES" ['\x7b', '\x7d'] i)], i + 2)
        else none
      | none => none
    else if c = '+' || c = '-' then
      let n := lexNumber s (i + 1)
      if n.isEmpty then none
      else
        some (.tree "init_value".data
          [.token (mkTok "SIGNED_NUMBER" (c :: n) i)], i + n.length + 1)
    else if ("true".data).isPrefixOf (s.drop i) then
      some (.tree "init_value".data [.token (mkTok "TRUE" "true".data i)], i + 4)
    else if ("false".data).isPrefixOf (s.drop i) then
      some (.tree "init_value".data [.token (mkTok "FALSE" "false".data i)], i + 5)
    else if c = '0' && s.get? (i + 1) = some 'x'
        && !(runOf isHexDigitChar s (i + 2)).isEmpty then
      let hs := runOf isHexDigitChar s (i + 2)
      some (.tree "init_value".data
        [.token (mkTok "HEXNUMBER" ('0' :: 'x' :: hs) i)], i + hs.length + 2)
    else
      let n := lexNumber s i
      if n.isEmpty then none
      else some (.tree "init_value".data [.token (mkTok "NUMBER" n i)], i + n.length)

/-- `param: type param_name param_defval?`. -/
def parse_param (fuel : Nat) (s : Str) (i : Nat) : Option (Node × Nat) :=
  match parse_type fuel s i with
  | none => none
  | some (ty, j) =>
    match lex_cname s j with
    | none => none
    | some (nm, k) =>
      let pn : Node := .tree "param_name".data [.token nm]
      let m := skipWs s k
      match s.get? m with
      | some c =>
        if c = '=' then
          match parse_init_value s (m + 1) with
          | none => none
          | some (iv, q) =>
            some (.tree "param".data
              [ty, pn, .tree "param_defval".data
                [.token (mkTok "EQUAL" ['='] m), iv]], q)
        else some (.tree "param".data [ty, pn], k)
      | none => some (.tree "param".data [ty, pn], k)

/-- `params: param | param "," params`. -/
def parse_params (fuel : Nat) (s : Str) (i : Nat) : Option (Node × Nat) :=
  match fuel with
  | 0 => none
  | f + 1 =>
    match parse_param f s i with
    | none => none
    | some (p, j) =>
      let k := skipWs s j
      match s.get? k with
      | some c =>
        if c = ',' then
          match parse_params f s (k + 1) with
          | none => none
          | some (rest, m) =>
            some (.tree "params".data
              [p, .token (mkTok "COMMA" [','] k), rest], m)
        else some (.tree "params".data [p], j)
      | none => some (.tree "params".data [p], j)

/-- `start: type fnname "(" params ")"` — `_XPARSER.parse` (the
`keep_all_tokens` tree). -/
def parse_start (s : Str) : Option Node :=
  let fuel := s.length + 1
  match parse_type fuel s 0 with
  | none => none
  | some (ty, i) =>
    match lex_cname s i with
    | none => none
    | some (fnTok, j) =>
      let fn : Node := .tree "fnname".data [.token fnTok]
      let k := skipWs s j
      match s.get? k with
      | some c =>
        if c = '(' then
          match parse_params fuel s (k + 1) with
          | none => none
          | some (ps, m) =>
            let m2 := skipWs s m
            match s.get? m2 with
            | some c2 =>
              if c2 = ')' then
                let m3 := skipWs s (m2 + 1)
                match s.get? m3 with
                | none =>
                  some (.tree "start".data
                    [ty, fn, .token (mkTok "LPAR" ['('] k), ps,
                     .token (mkTok "RPAR" [')'] m2)])
                | some _ => none
              else none
            | none => none
        else none
      | none => none

/-- Named terminals survive lark's default token filtering; anonymous
literal tokens (`(`, `)`, `<`, `>`, `,`, `=`, `true`, `false`, `{}`) are
dropped when `keep_all_tokens` is off. -/
def keptToken (ty : Str) : Bool :=
  ty = "CONST".data || ty = "REF".data || ty = "PTR".data || ty = "TNAME".data ||
  ty = "CNAME".data || ty = "NUMBER".data || ty = "SIGNED_NUMBER".data ||
  ty = "HEXNUMBER".data || ty = "ESCAPED_STRING".data

mutual
/-- The `_PARSER` (plain) tree from the `_XPARSER` (full) tree. -/
def filterTree : Node → Node
  | .token t => .token t
  | .tree d cs => .tree d (filterList cs)

/-- Children filtering for `filterTree`. -/
def filterList : List Node → List Node
  | [] => []
  | c :: cs =>
    match c with
    | .token t => if keptToken t.ttype then c :: filterList cs else filterList cs
    | .tree _ _ => filterTree c :: filterList cs
end

/-- `_PARSER.parse`. -/
def parse_plain (s : Str) : Option Node := (parse_start s).map filterTree

/-! ## Signature transforms -/

/-- Policy of `create_stdfunc_sig`: skip `param_name` subtrees. -/
def stdfuncEmitFn : Node → Int
  | .token _ => 0
  | .tree d _ => if d = "param_defval".data then 0 else if d = "param_name".data then -1 else 0

/-- `create_stdfunc_sig(tree, orig_sig)`. -/
def create_stdfunc_sig (tree : Node) (orig_sig : Str) : Option Str :=
  match typed_child tree 0 "type".data, typed_child tree 3 "params".data with
  | some ty, some ps =>
    let e0 : StringEmit := { sref := orig_sig, sval := [], pos := -1 }
    let e1 := emit_string stdfuncEmitFn ty e0
    let e2 := e1.append "(".data
    let e3 := emit_string stdfuncEmitFn ps e2
    some ((e3.append ")".data).sval)
  | _, _ => none

/-- Policy of `create_map_sig`: skip `CONST`/`REF`/`PTR` tokens and
`param_name` subtrees. -/
def mapSigEmitFn : Node → Int
  | .token tk =>
    if tk.ttype = "CONST".data || tk.ttype = "REF".data || tk.ttype = "PTR".data
    then -1 else 0
  | .tree d _ => if d = "param_name".data then -1 else 0

/-- `create_map_sig(tree, orig_sig)`: the canonical dispatch key. -/
def create_map_sig (tree : Node) (orig_sig : Str) : Option Str :=
  match typed_child tree 1 "fnname".data, typed_child tree 3 "params".data,
      typed_child tree 0 "type".data with
  | some fn, some ps, some ty =>
    let e0 : StringEmit := { sref := orig_sig, sval := [], pos := -1 }
    let e1 := emit_string mapSigEmitFn fn e0
    let e2 := e1.append "(".data
    let e3 := emit_string mapSigEmitFn ps e2
    let e4 := e3.append ") -> ".data
    some ((emit_string mapSigEmitFn ty e4).sval)
  | _, _, _ => none

/-- The token mutation of `rewrite_signature` (`t.value = tmap[t.value]`
on `TNAME` tokens). -/
def tmapRewrite (tmap : List (Str × Str)) (tk : Tok) : Tok :=
  if tk.ttype = "TNAME".data then
    match tmap.lookup tk.value with
    | some v => { tk with value := v }
    | none => tk
  else tk

/-- Policy of `rewrite_signature`: skip `param_defval` subtrees. -/
def rwEmitFn : Node → Int
  | .token _ => 0
  | .tree d _ => if d = "param_defval".data then -1 else 0

/-- `rewrite_signature(sig, tmap)` (parses internally; parse failure
raises in Python, `none` here). -/
def rewrite_signature (sig : Str) (tmap : List (Str × Str)) : Option Str :=
  (parse_start sig).map fun xtree =>
    rewrite_sig (mapTokens (tmapRewrite tmap) xtree) sig rwEmitFn

/-- `get_function_signature(t, orig_sig, namefn)` with the generated
name supplied (the source passes a stateful closure; the caller threads
the counter state explicitly). -/
def get_function_signature (t : Node) (orig_sig : Str) (xfname : Str) :
    Option (Str × Str) :=
  match typed_child t 0 "type".data, typed_child t 1 "fnname".data,
      typed_child t 3 "params".data with
  | some ty, some (.tree _ (.token fnname :: _)), some ps =>
    let e0 : StringEmit := { sref := orig_sig, sval := [], pos := -1 }
    let e1 := emit_string idPolicy ty e0
    let e2 := e1.append (' ' :: xfname ++ "(".data)
    let e3 := emit_string idPolicy ps e2
    some ((e3.append ")".data).sval, fnname.value)
  | _, _, _ => none

/-- `get_return_type_str(t, orig_sig)`: the source text up to two columns
before the function name. -/
def get_return_type_str (t : Node) (orig_sig : Str) : Option Str :=
  match t with
  | .tree _ cs =>
    match cs.get? 1 with
    | some (.tree d (c :: _)) =>
      if d = "fnname".data then
        match c with
        | .token tk => some (pySlice orig_sig 0 ((tk.column : Int) - 2))
        | _ => none
      else none
    | _ => none
  | _ => none

/-! ## Parameter role resolution and return-value synthesis -/

/-- Python `a or b` on optional values (parse trees are always truthy). -/
def pyOr (a b : Option α) : Option α :=
  match a with
  | some x => some x
  | none => b

/-- The `fnopts and fnopts.ref_param == pname` test of
`get_reference_param`. -/
def overrideB (fnopts : Option FuncOpts) (p : Node) : Bool :=
  match fnopts with
  | some fo => param_name p == some fo.ref_param
  | none => false

/-- The scan loop of `get_reference_param` (`ref_param`/`other`
accumulators; early `return p` on a `fnopts.ref_param` name match). -/
def grp_go (fnopts : Option FuncOpts) :
    List Node → Option Node → Option Node → Option Node
  | [], ref_param, other => pyOr ref_param other
  | p :: rest, ref_param, other =>
    let ptype := param_type p
    let cptype := ptype.bind type_core
    let pname := param_name p
    if overrideB fnopts p then some p
    else
      let other :=
        if other.isNone &&
            (cptype == some "TensorOptions".data || cptype == some "TensorList".data)
        then some p else other
      if cptype != some "Tensor".data then grp_go fnopts rest ref_param other
      else
        let ref_param :=
          if ref_param.isNone &&
              (pname == some "self".data || (ptype.map type_is_const).getD false)
          then some p else ref_param
        grp_go fnopts rest ref_param (some p)

/-- `get_reference_param(params, fnopts)`. -/
def get_reference_param (params : List Node) (fnopts : Option FuncOpts) :
    Option Node :=
  grp_go fnopts params none none

/-- `get_return_value(rtype, rname, param, var, ref_param)` (`var` is
unused in the source too). -/
def get_return_value (rtype : Node) (rname : Str) (param : Option Node)
    (var : Option Str) (ref_param : Option Node) : Option Str :=
  match type_core rtype with
  | none => none
  | some crtype =>
    if type_is_const rtype || type_is_refptr rtype "&".data then
      param.bind param_name
    else if crtype ≠ "Tensor".data then some rname
    else
      match ref_param.bind param_name with
      | none => none
      | some rp =>
        some ("bridge::CreateXlaTensor(".data ++ rname ++
          ", bridge::GetXlaDevice(".data ++ rp ++ "))".data)

/-- `', '.join` etc. -/
def joinStr (sep : Str) (l : List Str) : Str := (l.intersperse sep).flatten

/-- The element loop of `get_tuple_return`. -/
def gtr_go (rname : Str) (params : List Node) (param_vars : List Str)
    (ref_param : Option Node) : Nat → List Node → Str → Option Str
  | _, [], acc => some (acc ++ ")".data)
  | i, ttype :: rest, acc =>
    let tuple_var := "std::get<".data ++ natStr i ++ ">(".data ++ rname ++ ")".data
    match get_return_value ttype tuple_var (list_get params i)
        (param_vars.get? i) ref_param with
    | none => none
    | some rv =>
      gtr_go rname params param_vars ref_param (i + 1) rest
        (acc ++ (if i > 0 then ", ".data else []) ++ rv)

/-- `get_tuple_return(rtype, rtype_str, rname, params, param_vars, ref_param)`. -/
def get_tuple_return (rtype : Node) (rtype_str rname : Str) (params : List Node)
    (param_vars : List Str) (ref_param : Option Node) : Option Str :=
  match tuple_type_list rtype with
  | none => none
  | some types => gtr_go rname params param_vars ref_param 0 types (rtype_str ++ "(".data)

/-- `generate_debug_code` (its other arguments are unused in the source). -/
def generate_debug_code (fname : Str) : Str :=
  "  XLA_COUNTER(\"aten::".data ++ fname ++ "\", 1);\n".data

/-- `generate_return_stmt(t, rtype_str, fname, rname, params, param_vars,
ref_param)`.  (Python indexes `params[0]`/`param_vars[0]` lazily through
`get_return_value`, which only reads them in the aliasing branch.) -/
def generate_return_stmt (t : Node) (rtype_str : Str) (fname : Str)
    (rname : Option Str) (params : List Node) (param_vars : List Str)
    (ref_param : Option Node) : Option Str :=
  match t with
  | .tree _ (rtype :: _) =>
    match type_core rtype with
    | none => none
    | some ctype =>
      if ctype = "std::tuple".data then
        (get_tuple_return rtype rtype_str (pyStr rname) params param_vars
          ref_param).map fun r => "  return ".data ++ r ++ ";\n".data
      else if ctype = "std::vector".data then
        match ref_param.bind param_name with
        | none => none
        | some rp =>
          some ("  return bridge::CreateXlaTensors(".data ++ pyStr rname ++
            ", bridge::GetXlaDevice(".data ++ rp ++ "));\n".data)
      else if ctype = "Tensor".data then
        (get_return_value rtype (pyStr rname) (list_get params 0)
          (param_vars.get? 0) ref_param).map
          fun r => "  return ".data ++ r ++ ";\n".data
      else if ctype = "void".data && !type_is_refptr rtype "*".data then
        some []
      else some ("  return ".data ++ pyStr rname ++ ";\n".data)
  | _ => none

/-- `generate_result_assignment(t, rname)`. -/
def generate_result_assignment (t : Node) (rname : Str) : Option Str :=
  match t with
  | .tree _ (rtype :: _) =>
    (type_core rtype).map fun ctype =>
      if ctype = "void".data && !type_is_refptr rtype "*".data then []
      else "auto&& ".data ++ rname ++ " = ".data
  | _ => none

/-- `get_handling_function(ctx, fname, xla_ref_param)` (Python `or`
treats an empty override string as absent). -/
def get_handling_function (ctx : Context) (fname : Str)
    (xla_ref_param : Option Str) : Str :=
  match XLA_FUNCTIONS.lookup fname with
  | some s =>
    if s.isEmpty then ctx.get_function fname (pyStr xla_ref_param) else s
  | none => ctx.get_function fname (pyStr xla_ref_param)

/-- `rewrite_tensor_options(fname, pname)`. -/
def rewrite_tensor_options (fname pname : Str) : Str × Str :=
  match CTOR_FUNCTIONS.lookup fname with
  | none => ([], pname)
  | some rw =>
    let xname := "o_".data ++ pname
    ("  at::TensorOptions ".data ++ xname ++ " = ".data ++ pname ++ rw ++
      ";\n".data, xname)

/-! ## TensorFetcher and the wrapper synthesizer -/

/-- `TensorFetcher`. -/
structure TensorFetcher where
  var_name : Str
  tensors : List Str
  writeable : List Str

/-- `TensorFetcher.add(name, writeable)`: returns the indexing expression
and the updated fetcher. -/
def TensorFetcher.add (tf : TensorFetcher) (name : Str) (w : Bool) :
    Str × TensorFetcher :=
  let tensors := tf.tensors ++ [name]
  let writeable := tf.writeable ++ [if w then "true".data else "false".data]
  (tf.var_name ++ "[".data ++ natStr (tensors.length - 1) ++ "]".data,
   { tf with tensors := tensors, writeable := writeable })

/-- `TensorFetcher.generate()`. -/
def TensorFetcher.generate (tf : TensorFetcher) : Str :=
  let tvar_name := tf.var_name ++ "_tensors".data
  let wvar_name := tf.var_name ++ "_writeables".data
  "  std::vector<at::Tensor> ".data ++ tvar_name ++ " = \x7b".data ++
    joinStr ", ".data tf.tensors ++ "\x7d;\n".data ++
  "  std::vector<bool> ".data ++ wvar_name ++ " = \x7b".data ++
    joinStr ", ".data tf.writeable ++ "\x7d;\n".data ++
  "  auto ".data ++ tf.var_name ++ " = bridge::XlaCreateTensorList(".data ++
    tvar_name ++ ", &".data ++ wvar_name ++ ");\n".data

/-- `gen_fnname(x)`: the overload-counter naming closure of
`get_xla_wrapper`, with the counter dictionary made explicit. -/
def gen_fnname (gen_class_mode : Bool) (defdb : List (Str × Nat)) (x : Str) :
    Str × List (Str × Nat) :=
  if gen_class_mode then ("AtenXlaTypeBase::".data ++ x, defdb)
  else
    match defdb.lookup x with
    | some n => ("xla_".data ++ x ++ "_".data ++ natStr n, dbSet defdb x (n + 1))
    | none => ("xla_".data ++ x, dbSet defdb x 1)
where dbSet (db : List (Str × Nat)) (k : Str) (v : Nat) : List (Str × Nat) :=
  match db with
  | [] => [(k, v)]
  | (k', v') :: rest =>
    if k' = k then (k, v) :: rest else (k', v') :: dbSet rest k v

/-- State of the per-parameter marshaling loop of `get_xla_wrapper`. -/
structure LoopState where
  code : Str
  param_vars : List Str
  tfetcher : TensorFetcher
  xla_ref_param : Option Str

/-- One iteration of the marshaling loop. -/
def marshal_param (fname : Str) (fnopts : Option FuncOpts)
    (ref_param : Option Node) (st : LoopState) (p : Node) : Option LoopState :=
  match param_type p with
  | none => none
  | some ptype =>
    match type_core ptype with
    | none => none
    | some cptype =>
      match param_name p with
      | none => none
      | some pname =>
        let st' :=
          if cptype = "TensorList".data then
            let xname := "l_".data ++ pname
            { st with
              code := st.code ++ "  auto ".data ++ xname ++
                " = bridge::XlaCreateTensorList(".data ++ pname ++
                ", /*writeable=*/nullptr);\n".data,
              param_vars := st.param_vars ++ [xname] }
          else if cptype = "TensorOptions".data then
            let gx := rewrite_tensor_options fname pname
            { st with code := st.code ++ gx.1,
                      param_vars := st.param_vars ++ [gx.2] }
          else if cptype ≠ "Tensor".data then
            { st with param_vars := st.param_vars ++ [pname] }
          else if type_is_const ptype then
            let xt := st.tfetcher.add pname false
            { st with tfetcher := xt.2, param_vars := st.param_vars ++ [xt.1] }
          else
            let xt := st.tfetcher.add pname true
            { st with tfetcher := xt.2, param_vars := st.param_vars ++ [xt.1] }
        if (match ref_param with | some r => pyEq p r | none => false) &&
            !(match fnopts with
              | some fo => !fo.ref_param.isEmpty
              | none => false) then
          some { st' with xla_ref_param := st'.param_vars.getLast? }
        else some st'

/-- The whole marshaling loop. -/
def marshal_params (fname : Str) (fnopts : Option FuncOpts)
    (ref_param : Option Node) : List Node → LoopState → Option LoopState
  | [], st => some st
  | p :: rest, st =>
    match marshal_param fname fnopts ref_param st p with
    | none => none
    | some st' => marshal_params fname fnopts ref_param rest st'

/-- `get_xla_wrapper(orig_sig, ctx)`: `.ok none` is the blacklist skip,
`.error` a raised exception (caught and logged by the batch loop), and
the updated `Context` carries the overload counter, which Python mutates
inside the `gen_fnname` closure before the blacklist check. -/
def get_xla_wrapper (orig_sig : Str) (ctx : Context) :
    Except String (Option FuncGen) × Context :=
  match parse_start orig_sig with
  | none => (.error "parse failure", ctx)
  | some xtree =>
    let tree := filterTree xtree
    match create_map_sig xtree orig_sig with
    | none => (.error "create_map_sig", ctx)
    | some mapsig =>
      match rewrite_signature orig_sig TYPE_NSMAP with
      | none => (.error "rewrite_signature", ctx)
      | some rwsig =>
        match parse_start rwsig with
        | none => (.error "parse rwsig", ctx)
        | some rwxtree =>
          match get_parameters tree with
          | none => (.error "get_parameters", ctx)
          | some params =>
            let fnopts := FUNCTION_OPTIONS.lookup mapsig
            let ref_param := get_reference_param params fnopts
            -- gen_fnname runs inside get_function_signature, after the
            -- return-type child is checked and before the params child is.
            match typed_child rwxtree 0 "type".data with
            | none => (.error "typed_child type", ctx)
            | some _ =>
              match typed_child rwxtree 1 "fnname".data with
              | some (.tree _ (.token fnameTok :: _)) =>
                let gf := gen_fnname ctx.gen_class_mode ctx.defdb fnameTok.value
                let xfname := gf.1
                let ctx := { ctx with defdb := gf.2 }
                match get_function_signature rwxtree rwsig xfname with
                | none => (.error "get_function_signature", ctx)
                | some (sig, fname) =>
                  if is_blacklisted_fn fname mapsig then (.ok none, ctx)
                  else
                    let code0 := sig ++ ' ' ::
                      (if ctx.gen_class_mode then "const ".data else []) ++
                      "\x7b\n".data
                    match (match ref_param with
                           | some r => (param_name r).map some
                           | none => some none) with
                    | none => (.error "param_name ref_param", ctx)
                    | some xrp =>
                      let st0 : LoopState :=
                        { code := code0, param_vars := [],
                          tfetcher :=
                            { var_name := "xlatens".data, tensors := [],
                              writeable := [] },
                          xla_ref_param := xrp }
                      match marshal_params fname fnopts ref_param params st0 with
                      | none => (.error "marshal", ctx)
                      | some st =>
                        let code := st.code ++ st.tfetcher.generate
                        match generate_result_assignment tree RESULT_NAME with
                        | none => (.error "result_assignment", ctx)
                        | some result_assign =>
                          let code := code ++ "  ".data ++ result_assign ++
                            get_handling_function ctx fname st.xla_ref_param ++
                            "(".data ++ joinStr ", ".data st.param_vars ++
                            ");\n".data
                          let code := code ++
                            (if !result_assign.isEmpty then
                              ("  static_cast<void>(x_result); " ++
                               "// Avoid warnings in case not used\n").data
                             else [])
                          let code := code ++ generate_debug_code fname
                          match get_return_type_str rwxtree rwsig with
                          | none => (.error "return_type_str", ctx)
                          | some rtstr =>
                            match generate_return_stmt tree rtstr fname
                                (if result_assign.isEmpty then none
                                 else some RESULT_NAME)
                                params st.param_vars ref_param with
                            | none => (.error "return_stmt", ctx)
                            | some ret =>
                              let code := code ++ ret ++ "\x7d".data
                              match create_stdfunc_sig rwxtree rwsig with
                              | none => (.error "stdfunc_sig", ctx)
                              | some funsig =>
                                (.ok (some
                                  { tree := tree, xtree := xtree,
                                    rwxtree := rwxtree, func := fname,
                                    xfunc := xfname, code := code,
                                    sig := orig_sig, rwsig := rwsig,
                                    cppsig := sig, funsig := funsig,
                                    mapsig := mapsig }), ctx)
              | _ => (.error "typed_child fnname", ctx)

/-- The batch loop of `generate()`: wrappers for a list of extracted
signatures, in order (errors and blacklist skips are dropped, the
context threads through). -/
def process_sigs : List Str → Context → List FuncGen × Context
  | [], ctx => ([], ctx)
  | s :: rest, ctx =>
    match get_xla_wrapper s ctx with
    | (.ok (some fg), ctx') =>
      let pr := process_sigs rest ctx'
      (fg :: pr.1, pr.2)
    | (_, ctx') => process_sigs rest ctx'


/-! ## C1: reference-parameter election -/

/-- A parameter whose core type is the Opaque container (`Tensor`). -/
def isTensorB (p : Node) : Bool :=
  ((param_type p).bind type_core) == some "Tensor".data

/-- A qualifying Opaque parameter: named `self` or const-qualified. -/
def qualB (p : Node) : Bool :=
  isTensorB p && (param_name p == some "self".data ||
    ((param_type p).map type_is_const).getD false)

/-- An OptionsBag (`TensorOptions`) or OpaqueList (`TensorList`) parameter. -/
def isOptListB (p : Node) : Bool :=
  ((param_type p).bind type_core) == some "TensorOptions".data ||
  ((param_type p).bind type_core) == some "TensorList".data


/-- A concrete `Tensor &` return-type tree (as the parser yields for
`Tensor & clamp(Tensor & self)`). -/
def c4_rtype : Node :=
  .tree "type".data
    [.tree "core_type".data [.token (mkTok "TNAME" "Tensor".data 0)],
     .tree "refspec".data [.token (mkTok "REF" ['&'] 7)]]

/-- A concrete first parameter `Tensor & self`. -/
def c4_param : Node :=
  .tree "param".data
    [.tree "type".data
      [.tree "core_type".data [.token (mkTok "TNAME" "Tensor".data 15)],
       .tree "refspec".data [.token (mkTok "REF" ['&'] 22)]],
     .tree "param_name".data [.token (mkTok "CNAME" "self".data 24)]]

/-- A small concrete context for witnesses: `add` is declared in the
generic corpus, `relu` only in the native one. -/
def exCtx : Context :=
  { gen_class_mode := false, defdb := [],
    functions_data := " add(".data, native_functions_data := " relu(".data }

/-- A well-formed parameter whose core type is none of `Tensor`,
`TensorList`, `TensorOptions`. -/
def plainParamB (p : Node) : Bool :=
  match (param_type p).bind type_core, param_name p with
  | some ct, some _ =>
    !(ct == "Tensor".data) && !(ct == "TensorList".data) &&
      !(ct == "TensorOptions".data)
  | _, _ => false

/-- The stripped emission of one subtree of the canonical-key transform,
started on a fresh cursor. -/
def mapSigPart (sig : Str) (t : Node) : Str :=
  (emit_string mapSigEmitFn t { sref := sig, sval := [], pos := -1 }).sval

/-- The parse tree of `int f(int a)` (as `parse_start` yields it). -/
def c3tree : Node :=
  .tree ("start".data)
    [.tree ("type".data)
      [.tree ("core_type".data) [.token (mkTok "TNAME" ("int".data) 0)]],
     .tree ("fnname".data) [.token (mkTok "CNAME" ("f".data) 4)],
     .token (mkTok "LPAR" ("(".data) 5),
     .tree ("params".data)
      [.tree ("param".data)
        [.tree ("type".data)
          [.tree ("core_type".data) [.token (mkTok "TNAME" ("int".data) 6)]],
         .tree ("param_name".data) [.token (mkTok "CNAME" ("a".data) 10)]]],
     .token (mkTok "RPAR" (")".data) 11)]

/-- Slice with `Nat` endpoints. -/
def natSlice (s : Str) (a b : Nat) : Str := (s.drop a).take (b - a)

/-- The whole-token well-formedness used for reconstruction: spans are
ordered and in bounds, and each token's text is the source text at its
span.  `pos` is the 0-based index where the previous token ended. -/
def toksOK (s : Str) : Nat → List Tok → Bool
  | _, [] => true
  | pos, tk :: rest =>
    decide (pos + 1 ≤ tk.column) && decide (tk.column ≤ tk.endColumn) &&
    decide (tk.endColumn ≤ s.length + 1) &&
    (tk.value == natSlice s (tk.column - 1) (tk.endColumn - 1)) &&
    toksOK s (tk.endColumn - 1) rest

/-- The 0-based end position of the last token (`p` if none). -/
def lastEndFrom (p : Nat) : List Tok → Nat
  | [] => p
  | tk :: rest => lastEndFrom (tk.endColumn - 1) rest

/-- A token run `A` covering exactly the source span `[i, j)` (modulo
whitespace gaps), with ordered in-bounds spans. -/
def listSpan (s : Str) (i : Nat) (A : List Tok) (j : Nat) : Prop :=
  toksOK s i A = true ∧ lastEndFrom i A = j

/-- Parser soundness: the produced tokens form a well-formed ordered run
from `i` to the returned index, and the first token starts right after the
ignored whitespace. -/
def parserSound (s : Str) (i : Nat) (t : Node) (j : Nat) : Prop :=
  listSpan s i (nodeTokens t) j ∧ j ≤ s.length ∧
  ∃ tk rest, nodeTokens t = tk :: rest ∧ tk.column = skipWs s i + 1

def c7w_sig : Str := "Tensor f(Tensor a)".data

def c7w_tree : Node := (parse_start c7w_sig).getD (.tree [] [])

mutual
/-- No `param_defval` subtree anywhere in the node. -/
def noDefval : Node → Bool
  | .token _ => true
  | .tree d cs => (d != "param_defval".data) && noDefvalList cs

/-- List version of `noDefval`. -/
def noDefvalList : List Node → Bool
  | [] => true
  | c :: cs => noDefval c && noDefvalList cs
end

def c8_src : Str := "Tensor add(Tensor a, Tensor b)".data

def c8_out : Str := (rewrite_signature c8_src TYPE_NSMAP).getD []

def c8_tree : Node := (parse_start c8_out).getD (.tree [] [])

/-- Shape derivation for `refspec` results. -/
inductive AccRef : Str → Nat → Node → Nat → Prop where
  | ref (s : Str) (i : Nat) (h : s.get? (skipWs s i) = some '&') :
      AccRef s i (.tree "refspec".data [.token (mkTok "REF" ['&'] (skipWs s i))])
        (skipWs s i + 1)
  | ptr (s : Str) (i : Nat) (h : s.get? (skipWs s i) = some '*') :
      AccRef s i (.tree "refspec".data [.token (mkTok "PTR" ['*'] (skipWs s i))])
        (skipWs s i + 1)

mutual
/-- Shape derivation for `type` results. -/
inductive AccT : Str → Nat → Node → Nat → Prop where
  | const_ref (s : Str) (i : Nat) (core : Node) (j : Nat) (r : Node) (k : Nat)
      (hrun : runOf isTnameChar s (skipWs s i) = "const".data)
      (hc : AccC s (skipWs s i + (runOf isTnameChar s (skipWs s i)).length) core j)
      (hr : AccRef s j r k) :
      AccT s i (.tree "type".data
        [.token (mkTok "CONST" (runOf isTnameChar s (skipWs s i)) (skipWs s i)),
         core, r]) k
  | const_noref (s : Str) (i : Nat) (core : Node) (j : Nat)
      (hrun : runOf isTnameChar s (skipWs s i) = "const".data)
      (hc : AccC s (skipWs s i + (runOf isTnameChar s (skipWs s i)).length) core j) :
      AccT s i (.tree "type".data
        [.token (mkTok "CONST" (runOf isTnameChar s (skipWs s i)) (skipWs s i)),
         core]) j
  | plain_ref (s : Str) (i : Nat) (core : Node) (j : Nat) (r : Node) (k : Nat)
      (hrun : runOf isTnameChar s (skipWs s i) ≠ "const".data)
      (hc : AccC s (skipWs s i) core j)
      (hr : AccRef s j r k) :
      AccT s i (.tree "type".data [core, r]) k
  | plain_noref (s : Str) (i : Nat) (core : Node) (j : Nat)
      (hrun : runOf isTnameChar s (skipWs s i) ≠ "const".data)
      (hc : AccC s (skipWs s i) core j) :
      AccT s i (.tree "type".data [core]) j

/-- Shape derivation for `core_type` results. -/
inductive AccC : Str → Nat → Node → Nat → Prop where
  | tname (s : Str) (i : Nat)
      (hne : runOf isTnameChar s (skipWs s i) ≠ []) :
      AccC s i (.tree "core_type".data
        [.token (mkTok "TNAME" (runOf isTnameChar s (skipWs s i)) (skipWs s i))])
        (skipWs s i + (runOf isTnameChar s (skipWs s i)).length)
  | template (s : Str) (i : Nat) (tl : Node) (m : Nat)
      (hne : runOf isTnameChar s (skipWs s i) ≠ [])
      (hlt : s.get?
        (skipWs s (skipWs s i + (runOf isTnameChar s (skipWs s i)).length))
        = some '<')
      (htl : AccL s
        (skipWs s (skipWs s i + (runOf isTnameChar s (skipWs s i)).length) + 1)
        tl m)
      (hgt : s.get? (skipWs s m) = some '>') :
      AccC s i (.tree "core_type".data
        [.tree "template".data
          [.token (mkTok "TNAME" (runOf isTnameChar s (skipWs s i)) (skipWs s i)),
           .token (mkTok "LT" ['<']
             (skipWs s (skipWs s i + (runOf isTnameChar s (skipWs s i)).length))),
           tl,
           .token (mkTok "GT" ['>'] (skipWs s m))]])
        (skipWs s m + 1)

/-- Shape derivation for `typelist` results. -/
inductive AccL : Str → Nat → Node → Nat → Prop where
  | single (s : Str) (i : Nat) (ty : Node) (j : Nat)
      (ht : AccT s i ty j) :
      AccL s i (.tree "typelist".data [ty]) j
  | cons (s : Str) (i : Nat) (ty : Node) (j : Nat) (rest : Node) (m : Nat)
      (ht : AccT s i ty j)
      (hc : s.get? (skipWs s j) = some ',')
      (hrest : AccL s (skipWs s j + 1) rest m) :
      AccL s i (.tree "typelist".data
        [ty, .token (mkTok "COMMA" [','] (skipWs s j)), rest]) m
end

/-- Shape derivation for `CNAME` tokens. -/
inductive AccName : Str → Nat → Tok → Nat → Prop where
  | mk (s : Str) (i : Nat) (c : Char)
      (hc : s.get? (skipWs s i) = some c)
      (hst : isCnameStart c = true) :
      AccName s i (mkTok "CNAME" (runOf isCnameChar s (skipWs s i)) (skipWs s i))
        (skipWs s i + (runOf isCnameChar s (skipWs s i)).length)

/-- Shape derivation for `param` results. -/
inductive AccParam : Str → Nat → Node → Nat → Prop where
  | plain (s : Str) (i : Nat) (ty : Node) (j : Nat) (nm : Tok) (k : Nat)
      (ht : AccT s i ty j) (hn : AccName s j nm k) :
      AccParam s i (.tree "param".data [ty, .tree "param_name".data [.token nm]]) k
  | defval (s : Str) (i : Nat) (ty : Node) (j : Nat) (nm : Tok) (k : Nat)
      (iv : Node) (q : Nat)
      (ht : AccT s i ty j) (hn : AccName s j nm k)
      (he : s.get? (skipWs s k) = some '=')
      (hiv : parse_init_value s (skipWs s k + 1) = some (iv, q)) :
      AccParam s i (.tree "param".data
        [ty, .tree "param_name".data [.token nm],
         .tree "param_defval".data
           [.token (mkTok "EQUAL" ['='] (skipWs s k)), iv]]) q

/-- Shape derivation for `params` results. -/
inductive AccParams : Str → Nat → Node → Nat → Prop where
  | single (s : Str) (i : Nat) (p : Node) (j : Nat)
      (hp : AccParam s i p j) :
      AccParams s i (.tree "params".data [p]) j
  | cons (s : Str) (i : Nat) (p : Node) (j : Nat) (rest : Node) (m : Nat)
      (hp : AccParam s i p j)
      (hc : s.get? (skipWs s j) = some ',')
      (hrest : AccParams s (skipWs s j + 1) rest m) :
      AccParams s i (.tree "params".data
        [p, .token (mkTok "COMMA" [','] (skipWs s j)), rest]) m

/-- Shape derivation for full `start` results. -/
inductive AccStart : Str → Node → Nat → Prop where
  | mk (s : Str) (ty : Node) (i : Nat) (fnTok : Tok) (j : Nat) (ps : Node) (m : Nat)
      (ht : AccT s 0 ty i) (hn : AccName s i fnTok j)
      (hlp : s.get? (skipWs s j) = some '(')
      (hps : AccParams s (skipWs s j + 1) ps m)
      (hrp : s.get? (skipWs s m) = some ')')
      (hend : s.get? (skipWs s (skipWs s m + 1)) = none) :
      AccStart s (.tree "start".data
        [ty, .tree "fnname".data [.token fnTok],
         .token (mkTok "LPAR" ['('] (skipWs s j)), ps,
         .token (mkTok "RPAR" [')'] (skipWs s m))]) (skipWs s m + 1)


/-- Is the node a `param_defval` subtree (skipped by the rewrite policy)? -/
def isDefvalNode : Node → Bool
  | .tree d _ => d = "param_defval".data
  | .token _ => false

mutual
/-- The text the rewrite policy emits for a node whose emission started at
the node's own first token (no leading gap): renamed token values joined
by the source gaps, `param_defval` subtrees dropped. -/
def rend (tmap : List (Str × Str)) (s : Str) : Node → Str
  | .token tk => (tmapRewrite tmap tk).value
  | .tree d cs => if d = "param_defval".data then [] else rendList tmap s cs

/-- Children renderer: between two consecutive children the source slice
from the left child's last-token end to the right child's first-token
start is copied, except that no gap is emitted before a skipped
`param_defval`. -/
def rendList (tmap : List (Str × Str)) (s : Str) : List Node → Str
  | [] => []
  | [c] => rend tmap s c
  | c :: c' :: cs =>
    rend tmap s c ++
    (if isDefvalNode c' then []
     else natSlice s (last_match c).toNat (first_match c').toNat) ++
    rendList tmap s (c' :: cs)
end

/-- The gap the emitter copies when the cursor is at `p` and the next
token starts at `a` (nothing when the cursor is the −1 sentinel). -/
def gapTo (s : Str) (p : Int) (a : Nat) : Str :=
  if p < 0 then [] else natSlice s p.toNat a

/-- Does a `type` node end in a `refspec` child? -/
def endsRef : Node → Bool
  | .tree _ cs =>
    match cs.getLast? with
    | some (.tree d _) => d == "refspec".data
    | _ => false
  | .token _ => false

/-- Is the node a `core_type` consisting of a bare `TNAME` token? -/
def coreTname : Node → Bool
  | .tree d [.token tk] => d == "core_type".data && tk.ttype == "TNAME".data
  | _ => false

/-- Does a `type` node end in a bare-`TNAME` `core_type` (so its rendering
ends in a `TNAME` run)? -/
def endsTname : Node → Bool
  | .tree _ cs =>
    match cs.getLast? with
    | some c => coreTname c
    | none => false
  | .token _ => false

/-- Every replacement value of the token map is a nonempty `TNAME` run other
than `const`. -/
def tmapValsOK (tmap : List (Str × Str)) : Bool :=
  tmap.all fun kv =>
    !kv.2.isEmpty && kv.2.all isTnameChar && kv.2 != "const".data

/-- No replacement value of the token map is itself a key of the map. -/
def tmapKeyFree (tmap : List (Str × Str)) : Bool :=
  tmap.all fun kv => (tmap.lookup kv.2).isNone

/-- No `TNAME` token of the tree has a value the token map would rename. -/
def tnFree (tmap : List (Str × Str)) (t : Node) : Bool :=
  (nodeTokens t).all fun tk =>
    if tk.ttype = "TNAME".data then (tmap.lookup tk.value).isNone else true

theorem pyOr_none_right (a : Option α) : pyOr a none = a := by
  cases a <;> rfl

theorem pyOr_assoc (a b c : Option α) : pyOr (pyOr a b) c = pyOr a (pyOr b c) := by
  cases a <;> rfl

theorem getLast?_cons_pyOr (a : α) (l : List α) :
    (a :: l).getLast? = pyOr l.getLast? (some a) := by
  induction l generalizing a with
  | nil => rfl
  | cons b t ih =>
    rw [List.getLast?_cons_cons, ih b]
    cases h : t.getLast? <;> simp [ih, pyOr, h]

theorem pyOr_some_left (x : α) (b : Option α) : pyOr (some x) b = some x := rfl

theorem pyOr_none_left (b : Option α) : pyOr none b = b := rfl

theorem grp_go_eq (fnopts : Option FuncOpts) (ps : List Node)
    (ref other : Option Node) :
    grp_go fnopts ps ref other =
      pyOr (ps.find? (overrideB fnopts))
        (pyOr (pyOr ref (ps.find? qualB))
          (pyOr ((ps.filter isTensorB).getLast?)
            (pyOr other (ps.find? isOptListB)))) := by
  induction ps generalizing ref other with
  | nil =>
    simp only [List.find?_nil, List.filter_nil, List.getLast?_nil, grp_go,
      pyOr_none_right]
    rfl
  | cons p rest ih =>
    by_cases hov : overrideB fnopts p
    · rw [List.find?_cons_of_pos _ hov]
      simp [grp_go, hov, pyOr]
    · rw [List.find?_cons_of_neg _ hov]
      simp only [grp_go, hov, Bool.false_eq_true, if_false]
      split
      · next hc1 =>
        have ht : isTensorB p = false := by
          simp only [bne, Bool.not_eq_eq_eq_not, Bool.not_true] at hc1
          simpa [isTensorB] using hc1
        rw [List.find?_cons_of_neg _ (show ¬ qualB p = true by simp [qualB, ht]),
          List.filter_cons_of_neg (by simp [ht])]
        split
        · next hc2 =>
          obtain ⟨hon, hol⟩ := Bool.and_eq_true_iff.mp hc2
          have hon : other = none := Option.isNone_iff_eq_none.mp hon
          have hol : isOptListB p = true := by simpa [isOptListB] using hol
          rw [List.find?_cons_of_pos _ hol, ih, hon]
          simp only [pyOr_some_left, pyOr_none_left]
        · next hc2 =>
          rw [ih]
          cases other with
          | some o => simp only [pyOr_some_left]
          | none =>
            simp only [Option.isNone_none, Bool.true_and] at hc2
            have hol : isOptListB p = false := by
              simpa [isOptListB] using hc2
            rw [List.find?_cons_of_neg _ (by simp [hol])]
      · next hc1 =>
        have hcp : (param_type p).bind type_core = some "Tensor".data := by
          simp only [bne, Bool.not_eq_eq_eq_not, Bool.not_true,
            Bool.not_eq_false] at hc1
          exact beq_iff_eq.mp hc1
        have ht : isTensorB p = true := by simp [isTensorB, hcp]
        rw [List.filter_cons_of_pos ht, getLast?_cons_pyOr,
          List.find?_cons_of_neg _
            (show ¬ isOptListB p = true by
              simp only [isOptListB, hcp]
              decide)]
        split
        · next hc3 =>
          obtain ⟨hrn, hsc⟩ := Bool.and_eq_true_iff.mp hc3
          have hrn : ref = none := Option.isNone_iff_eq_none.mp hrn
          have hq : qualB p = true := by simp [qualB, ht, hsc]
          rw [List.find?_cons_of_pos _ hq, ih, hrn]
          simp only [pyOr_some_left, pyOr_none_left, pyOr_assoc]
        · next hc3 =>
          cases ref with
          | some r =>
            rw [ih]
            simp only [pyOr_some_left]
          | none =>
            simp only [Option.isNone_none, Bool.true_and] at hc3
            have hq : qualB p = false := by
              simp only [qualB, ht, Bool.true_and]
              exact Bool.not_eq_true _ ▸ (Bool.eq_false_iff.mpr (fun h => hc3 h))
            rw [List.find?_cons_of_neg _ (by simp [hq]), ih]
            simp only [pyOr_some_left, pyOr_none_left, pyOr_assoc]

/-- C1 (corrected).  Reference-parameter election scans the parameters in
declaration order: a parameter named by the per-canonical-key override is
returned at once; otherwise the first Opaque (`Tensor`) parameter named
`self` or const-qualified wins; otherwise the LAST Opaque parameter seen
wins; only when no Opaque parameter exists at all does the first
OptionsBag (`TensorOptions`) or OpaqueList (`TensorList`) parameter win.
(The claim had the last two fallbacks in the opposite precedence order.) -/
theorem C1_election_amended (ps : List Node) (fnopts : Option FuncOpts) :
    get_reference_param ps fnopts =
      pyOr (ps.find? (overrideB fnopts))
        (pyOr (ps.find? qualB)
          (pyOr ((ps.filter isTensorB).getLast?)
            (ps.find? isOptListB))) := by
  rw [get_reference_param, grp_go_eq]
  rfl

/-- C1, counterexample.  For `Tensor f(Tensor input, TensorOptions options)`
no Opaque parameter qualifies (neither `self`-named nor const), so the
claim elects the first OptionsBag parameter `options`; the code elects the
Opaque parameter `input` instead. -/
theorem C1_election_counterexample :
    ((((parse_plain ("Tensor f(Tensor input, TensorOptions options)".data)).bind
        get_parameters).bind
      fun ps => (get_reference_param ps none).bind param_name)
        = some ("input".data)) ∧
    ((((parse_plain ("Tensor f(Tensor input, TensorOptions options)".data)).bind
        get_parameters).bind
      fun ps => (ps.find? isOptListB).bind param_name)
        = some ("options".data)) ∧
    ((((parse_plain ("Tensor f(Tensor input, TensorOptions options)".data)).bind
        get_parameters).map
      fun ps => ps.any qualB) = some false) ∧
    "input".data ≠ "options".data := by
  refine ⟨by rfl, by rfl, by rfl, by decide⟩

/-! ## C4: the return value rule for Opaque (`Tensor`) returns -/

/-- C4 (confirmed).  For a wrapper whose return core type is the Opaque
container (`Tensor`): if the return type is const-qualified or a
reference, the synthesized return statement returns the matching input
parameter (the first parameter, by its parameter name — aliasing);
otherwise it wraps the freshly computed native result in
`bridge::CreateXlaTensor(..)` tagged with the elected reference
parameter's device context. -/
theorem C4_return_value_rule (d : Str) (rtype : Node) (rest : List Node)
    (rtstr fname : Str) (rname : Option Str) (params : List Node)
    (pvars : List Str) (ref : Option Node)
    (hcore : type_core rtype = some ("Tensor".data)) :
    ((type_is_const rtype = true ∨ type_is_refptr rtype ("&".data) = true) →
      generate_return_stmt (.tree d (rtype :: rest)) rtstr fname rname params
          pvars ref
        = ((params.get? 0).bind param_name).map
            (fun n => "  return ".data ++ n ++ ";\n".data)) ∧
    (type_is_const rtype = false → type_is_refptr rtype ("&".data) = false →
      ∀ rpn, ref.bind param_name = some rpn →
      generate_return_stmt (.tree d (rtype :: rest)) rtstr fname rname params
          pvars ref
        = some ("  return bridge::CreateXlaTensor(".data ++ pyStr rname ++
            ", bridge::GetXlaDevice(".data ++ rpn ++ "));\n".data)) := by
  constructor
  · intro hcr
    simp only [generate_return_stmt, hcore]
    rw [if_neg (by decide), if_neg (by decide), if_pos trivial]
    simp only [get_return_value, hcore]
    rw [if_pos (by rcases hcr with h | h <;> simp [h])]
    rfl
  · intro h1 h2 rpn h3
    simp only [generate_return_stmt, hcore]
    rw [if_neg (by decide), if_neg (by decide), if_pos trivial]
    simp only [get_return_value, hcore, h1, h2, Bool.or_self,
      Bool.false_eq_true, if_false]
    rw [if_neg (by simp)]
    simp only [h3]
    simp

/-- C4, witness: on the reference-returning signature above the return
statement aliases the first parameter `self`. -/
theorem C4_return_value_rule_witness :
    generate_return_stmt (.tree "start".data (c4_rtype :: []))
        ("at::Tensor &".data) ("clamp".data) (some RESULT_NAME) [c4_param]
        ["xlatens[0]".data] (some c4_param)
      = some ("  return self;\n".data) := by
  have h := (C4_return_value_rule ("start".data) c4_rtype []
    ("at::Tensor &".data) ("clamp".data) (some RESULT_NAME) [c4_param]
    ["xlatens[0]".data] (some c4_param) (by rfl)).1 (Or.inr (by rfl))
  exact h.trans (by rfl)

/-! ## C6: target-callable resolution order -/

/-- C6 (confirmed).  The target callable is resolved by consulting, in
order: (a) the static per-name override table (`_XLA_FUNCTIONS`, empty in
the source, so it never fires), (b) the generic-operations corpus, giving
an `at::` name — even when the native corpus also matches, (c) the
native-operations corpus, giving an `at::native::` name, (d) the fallback
that infers the implementation from the elected reference parameter.
First match wins. -/
theorem C6_handler_resolution (ctx : Context) (fname : Str) (ref : Option Str) :
    XLA_FUNCTIONS = [] ∧
    (pyContains ctx.functions_data (' ' :: fname ++ "(".data) = true →
      get_handling_function ctx fname ref = "at::".data ++ fname) ∧
    (pyContains ctx.functions_data (' ' :: fname ++ "(".data) = false →
      pyContains ctx.native_functions_data (' ' :: fname ++ "(".data) = true →
      get_handling_function ctx fname ref = "at::native::".data ++ fname) ∧
    (pyContains ctx.functions_data (' ' :: fname ++ "(".data) = false →
      pyContains ctx.native_functions_data (' ' :: fname ++ "(".data) = false →
      get_handling_function ctx fname ref =
        "at::detail::infer_type(".data ++ pyStr ref ++ ").".data ++ fname) := by
  refine ⟨rfl, ?_, ?_, ?_⟩
  · intro h
    simp only [get_handling_function, XLA_FUNCTIONS, List.lookup_nil,
      Context.get_function, h, if_true]
  · intro h1 h2
    simp only [get_handling_function, XLA_FUNCTIONS, List.lookup_nil,
      Context.get_function, h1, h2, Bool.false_eq_true, if_false, if_true]
  · intro h1 h2
    simp only [get_handling_function, XLA_FUNCTIONS, List.lookup_nil,
      Context.get_function, h1, h2, Bool.false_eq_true, if_false]

/-- C6, witness: each resolution tier fires on `exCtx`. -/
theorem C6_handler_resolution_witness :
    get_handling_function exCtx ("add".data) (some ("self".data))
        = "at::add".data ∧
    get_handling_function exCtx ("relu".data) none = "at::native::relu".data ∧
    get_handling_function exCtx ("foo".data) (some ("self".data))
        = "at::detail::infer_type(self).foo".data := by
  refine ⟨?_, ?_, ?_⟩
  · exact ((C6_handler_resolution exCtx ("add".data)
      (some ("self".data))).2.1 (by rfl)).trans (by rfl)
  · exact ((C6_handler_resolution exCtx ("relu".data) none).2.2.1
      (by rfl) (by rfl)).trans (by rfl)
  · exact ((C6_handler_resolution exCtx ("foo".data)
      (some ("self".data))).2.2.2 (by rfl) (by rfl)).trans (by rfl)

/-! ## C9, C10: blacklist skip and the overload counter -/

/-- A successfully synthesized wrapper never carries a blacklisted
function name / canonical key (the blacklist check guards synthesis). -/
theorem pair_error_ne_ok {e : String} {c c' : Context} {fg : FuncGen}
    (h : ((Except.error e : Except String (Option FuncGen)), c)
      = (.ok (some fg), c')) : False := by
  simp at h

theorem pair_ok_none_ne_some {c c' : Context} {fg : FuncGen}
    (h : ((Except.ok none : Except String (Option FuncGen)), c)
      = (.ok (some fg), c')) : False := by
  simp at h

theorem wrapper_ok_not_blacklisted (sig : Str) (ctx : Context) (fg : FuncGen)
    (ctx' : Context) (h : get_xla_wrapper sig ctx = (.ok (some fg), ctx')) :
    is_blacklisted_fn fg.func fg.mapsig = false := by
  simp only [get_xla_wrapper] at h
  iterate 25 (all_goals try split at h)
  all_goals try exact (pair_error_ne_ok h).elim
  all_goals try exact (pair_ok_none_ne_some h).elim
  all_goals (
    have hfg := congrArg Prod.fst h
    simp only at hfg
    injection hfg with hfg
    injection hfg with hfg
    subst hfg
    simp only [Bool.not_eq_true] at *
    assumption)

/-- C9 (confirmed).  A signature whose function name or canonical
dispatch key is blacklisted (exact set or pattern) is dropped: the
per-signature result is the non-error skip `.ok none`; and consequently
no record of the batch output ever carries the blacklisted name
`backward`, whatever its signature. -/
theorem C9_blacklist_drop :
    (∀ (sig : Str) (ctx : Context) (xtree rwxtree tyc : Node)
      (mapsig rwsig : Str) (params : List Node) (fd : Str) (ftok : Tok)
      (frest : List Node) (sigstr fname : Str),
      parse_start sig = some xtree →
      create_map_sig xtree sig = some mapsig →
      rewrite_signature sig TYPE_NSMAP = some rwsig →
      parse_start rwsig = some rwxtree →
      get_parameters (filterTree xtree) = some params →
      typed_child rwxtree 0 ("type".data) = some tyc →
      typed_child rwxtree 1 ("fnname".data)
        = some (.tree fd (.token ftok :: frest)) →
      get_function_signature rwxtree rwsig
        (gen_fnname ctx.gen_class_mode ctx.defdb ftok.value).1
        = some (sigstr, fname) →
      is_blacklisted_fn fname mapsig = true →
      (get_xla_wrapper sig ctx).1 = .ok none) ∧
    (∀ (sigs : List Str) (ctx : Context) (fg : FuncGen),
      fg ∈ (process_sigs sigs ctx).1 → fg.func ≠ "backward".data) := by
  constructor
  · intro sig ctx xtree rwxtree tyc mapsig rwsig params fd ftok frest sigstr
      fname hp hm hr hpr hgp hty hfn hgs hbl
    simp only [get_xla_wrapper, hp, hm, hr, hpr, hgp, hty, hfn, hgs, hbl,
      if_true]
  · intro sigs
    induction sigs with
    | nil => intro ctx fg hmem; simp [process_sigs] at hmem
    | cons s rest ih =>
      intro ctx fg hmem
      simp only [process_sigs] at hmem
      rcases hw : get_xla_wrapper s ctx with ⟨res, ctx'⟩
      rw [hw] at hmem
      match res, hmem with
      | .ok (some fg'), hmem =>
        rcases List.mem_cons.mp hmem with hfg | hfg
        · subst hfg
          intro hname
          have hnb := wrapper_ok_not_blacklisted s ctx fg ctx' hw
          rw [hname] at hnb
          have : is_blacklisted_fn ("backward".data) fg.mapsig = true := by
            simp only [is_blacklisted_fn]
            rw [show FN_BLACKLIST.contains ("backward".data) = true from rfl]
            rfl
          rw [this] at hnb
          exact absurd hnb (by decide)
        · exact ih ctx' fg hfg
      | .ok none, hmem => exact ih ctx' fg hmem
      | .error e, hmem => exact ih ctx' fg hmem

/-- Setting a key in the counter dictionary makes it readable. -/
theorem dbSet_lookup (db : List (Str × Nat)) (k : Str) (v : Nat) :
    (gen_fnname.dbSet db k v).lookup k = some v := by
  induction db with
  | nil => simp [gen_fnname.dbSet, List.lookup]
  | cons kv rest ih =>
    rcases kv with ⟨k', v'⟩
    by_cases h : k' = k
    · subst h
      simp [gen_fnname.dbSet, List.lookup]
    · simp only [gen_fnname.dbSet, if_neg h, List.lookup]
      rw [show (k == k') = false by simpa using Ne.symm h]
      exact ih

/-- C10 (confirmed).  In flat (non-class) output mode, a blacklisted
signature still bumps the per-name overload counter before the blacklist
check drops it: the skip returns `.ok none` but the context's counter for
the name is incremented (not restored), so the next wrapper generated for
that base name receives the numeric suffix as if the blacklisted wrapper
had been produced. -/
theorem C10_blacklist_counter (sig : Str) (ctx : Context)
    (xtree rwxtree tyc : Node) (mapsig rwsig : Str) (params : List Node)
    (fd : Str) (ftok : Tok) (frest : List Node) (sigstr fname : Str)
    (hflat : ctx.gen_class_mode = false)
    (hp : parse_start sig = some xtree)
    (hm : create_map_sig xtree sig = some mapsig)
    (hr : rewrite_signature sig TYPE_NSMAP = some rwsig)
    (hpr : parse_start rwsig = some rwxtree)
    (hgp : get_parameters (filterTree xtree) = some params)
    (hty : typed_child rwxtree 0 ("type".data) = some tyc)
    (hfn : typed_child rwxtree 1 ("fnname".data)
      = some (.tree fd (.token ftok :: frest)))
    (hgs : get_function_signature rwxtree rwsig
      (gen_fnname ctx.gen_class_mode ctx.defdb ftok.value).1
      = some (sigstr, fname))
    (hbl : is_blacklisted_fn fname mapsig = true) :
    get_xla_wrapper sig ctx
      = (.ok none,
         { ctx with defdb := (gen_fnname false ctx.defdb ftok.value).2 }) ∧
    ((gen_fnname false ctx.defdb ftok.value).2).lookup ftok.value
      = some (((ctx.defdb.lookup ftok.value).getD 0) + 1) ∧
    (∀ n, ctx.defdb.lookup ftok.value = some n →
      (gen_fnname false ctx.defdb ftok.value).1
        = "xla_".data ++ ftok.value ++ "_".data ++ natStr n) := by
  refine ⟨?_, ?_, ?_⟩
  · rw [hflat] at hgs
    simp only [get_xla_wrapper, hp, hm, hr, hpr, hgp, hty, hfn, hflat, hgs,
      hbl, if_true]
  · cases hdb : ctx.defdb.lookup ftok.value <;>
      simp [gen_fnname, hdb, dbSet_lookup]
  · intro n hn
    simp [gen_fnname, hn]

/-- C10, witness: processing the blacklisted `Tensor backward(Tensor self)`
in flat mode yields the skip and leaves the counter for `backward` at 1. -/
theorem C10_blacklist_counter_witness :
    get_xla_wrapper ("Tensor backward(Tensor self)".data) exCtx
      = (.ok none, { exCtx with defdb := [("backward".data, 1)] }) := by
  have h := (C10_blacklist_counter ("Tensor backward(Tensor self)".data) exCtx
    _ _ _ _ _ _ _ _ _ _ _ rfl rfl rfl rfl rfl rfl rfl rfl rfl rfl).1
  exact h.trans (by rfl)

/-- C9, witness: the blacklisted `backward` signature is skipped with a
non-error result. -/
theorem C9_blacklist_drop_witness :
    (get_xla_wrapper ("Tensor backward(Tensor self)".data) exCtx).1
      = .ok none :=
  C9_blacklist_drop.1 ("Tensor backward(Tensor self)".data) exCtx
    _ _ _ _ _ _ _ _ _ _ _ rfl rfl rfl rfl rfl rfl rfl rfl rfl

/-! ## C5: signatures with no context-bearing parameter -/

theorem plainParam_facts (p : Node) (h : plainParamB p = true) :
    isTensorB p = false ∧ isOptListB p = false ∧ qualB p = false := by
  rcases hpt : (param_type p).bind type_core with _ | ct
  · simp [plainParamB, hpt] at h
  · rcases hpn : param_name p with _ | n
    · simp [plainParamB, hpt, hpn] at h
    · simp only [plainParamB, hpt, hpn, Bool.and_eq_true,
        Bool.not_eq_eq_eq_not, Bool.not_true] at h
      obtain ⟨⟨h1, h2⟩, h3⟩ := h
      have ht : isTensorB p = false := by simp [isTensorB, hpt, h1]
      refine ⟨ht, ?_, ?_⟩
      · simp [isOptListB, hpt, h2, h3]
      · simp [qualB, ht]

/-- With no override and only plain parameters, election yields no
reference parameter. -/
theorem election_none (ps : List Node) (h : ps.all plainParamB = true) :
    get_reference_param ps none = none := by
  rw [get_reference_param, grp_go_eq]
  have hall := List.all_eq_true.mp h
  have h1 : ps.find? (overrideB none) = none := by
    rw [List.find?_eq_none]
    intro a _
    simp [overrideB]
  have h2 : ps.find? qualB = none := by
    rw [List.find?_eq_none]
    intro a ha
    simp [(plainParam_facts a (hall a ha)).2.2]
  have h3 : ps.filter isTensorB = [] := by
    rw [List.filter_eq_nil_iff]
    intro a ha
    simp [(plainParam_facts a (hall a ha)).1]
  have h4 : ps.find? isOptListB = none := by
    rw [List.find?_eq_none]
    intro a ha
    simp [(plainParam_facts a (hall a ha)).2.1]
  rw [h1, h2, h3, h4]
  rfl

/-- Marshaling a plain parameter appends its name and changes nothing
else of the loop state (no reference parameter present). -/
theorem marshal_param_plain (fname : Str) (fnopts : Option FuncOpts)
    (st : LoopState) (p : Node) (h : plainParamB p = true) :
    ∃ pn, marshal_param fname fnopts none st p
      = some { st with param_vars := st.param_vars ++ [pn] } := by
  rcases hpt : param_type p with _ | pt
  · simp [plainParamB, hpt] at h
  · rcases hct : type_core pt with _ | ct
    · simp [plainParamB, hpt, hct] at h
    · rcases hpn : param_name p with _ | n
      · simp [plainParamB, hpt, hct, hpn] at h
      · refine ⟨n, ?_⟩
        simp only [plainParamB, hpt, Option.some_bind, Option.bind_some, hct,
          hpn, Bool.and_eq_true, Bool.not_eq_eq_eq_not, Bool.not_true] at h
        obtain ⟨⟨h1, h2⟩, h3⟩ := h
        have hne1 : ¬ ct = "TensorList".data := by simpa using h2
        have hne2 : ¬ ct = "TensorOptions".data := by simpa using h3
        have hne3 : ct ≠ "Tensor".data := by simpa using h1
        simp only [marshal_param, hpt, Option.some_bind, Option.bind_some,
          hct, hpn]
        rw [if_neg hne1, if_neg hne2, if_pos hne3]
        simp

/-- Marshaling a list of plain parameters succeeds. -/
theorem marshal_params_plain (fname : Str) (fnopts : Option FuncOpts)
    (ps : List Node) (h : ps.all plainParamB = true) :
    ∀ st : LoopState, ∃ st', marshal_params fname fnopts none ps st = some st' := by
  induction ps with
  | nil => intro st; exact ⟨st, rfl⟩
  | cons p rest ih =>
    intro st
    simp only [List.all_cons, Bool.and_eq_true] at h
    obtain ⟨pn, hm⟩ := marshal_param_plain fname fnopts st p h.1
    obtain ⟨st', hrest⟩ := ih h.2
      ({ st with param_vars := st.param_vars ++ [pn] })
    exact ⟨st', by simp only [marshal_params, hm, hrest]⟩

/-- A return type that needs no execution context always yields a return
statement. -/
theorem return_stmt_context_free (td : Str) (rtype : Node) (trest : List Node)
    (rtstr fname : Str) (rname : Option Str) (params : List Node)
    (pvars : List Str) (ref : Option Node) (ctype : Str)
    (hcore : type_core rtype = some ctype)
    (hct1 : ctype ≠ "std::tuple".data) (hct2 : ctype ≠ "std::vector".data)
    (hct3 : ctype ≠ "Tensor".data) :
    ∃ r, generate_return_stmt (.tree td (rtype :: trest)) rtstr fname rname
      params pvars ref = some r := by
  simp only [generate_return_stmt, hcore]
  rw [if_neg hct1, if_neg hct2, if_neg hct3]
  split
  · exact ⟨_, rfl⟩
  · exact ⟨_, rfl⟩

/-- C5 (corrected).  For a parsed signature with no Opaque, OpaqueList or
OptionsBag parameter (and no applicable override), election yields no
reference parameter, and wrapper synthesis still succeeds — producing a
context-free wrapper — provided the return value needs no execution
context (its core type is not a value `Tensor`, `std::vector` or
`std::tuple`).  When the return does need the reference parameter,
synthesis raises instead of producing a context-free wrapper (see the
counterexample), so the claim's unconditional "synthesis still succeeds"
is false. -/
theorem C5_context_free_amended (sig : Str) (ctx : Context)
    (xtree rwxtree tyc : Node) (mapsig rwsig : Str) (params : List Node)
    (fd : Str) (ftok : Tok) (frest : List Node) (sigstr fname : Str)
    (td : Str) (rtype : Node) (trest : List Node) (ctype : Str)
    (rtstr funsig : Str)
    (hp : parse_start sig = some xtree)
    (hm : create_map_sig xtree sig = some mapsig)
    (hr : rewrite_signature sig TYPE_NSMAP = some rwsig)
    (hpr : parse_start rwsig = some rwxtree)
    (hgp : get_parameters (filterTree xtree) = some params)
    (hplain : params.all plainParamB = true)
    (hfo : FUNCTION_OPTIONS.lookup mapsig = none)
    (hty : typed_child rwxtree 0 ("type".data) = some tyc)
    (hfn : typed_child rwxtree 1 ("fnname".data)
      = some (.tree fd (.token ftok :: frest)))
    (hgs : get_function_signature rwxtree rwsig
      (gen_fnname ctx.gen_class_mode ctx.defdb ftok.value).1
      = some (sigstr, fname))
    (hbl : is_blacklisted_fn fname mapsig = false)
    (htree : filterTree xtree = .tree td (rtype :: trest))
    (hcore : type_core rtype = some ctype)
    (hct1 : ctype ≠ "std::tuple".data) (hct2 : ctype ≠ "std::vector".data)
    (hct3 : ctype ≠ "Tensor".data)
    (hrt : get_return_type_str rwxtree rwsig = some rtstr)
    (hsf : create_stdfunc_sig rwxtree rwsig = some funsig) :
    get_reference_param params (FUNCTION_OPTIONS.lookup mapsig) = none ∧
    ∃ fg ctx', get_xla_wrapper sig ctx = (.ok (some fg), ctx') := by
  have helect : get_reference_param params (FUNCTION_OPTIONS.lookup mapsig)
      = none := by
    rw [hfo]
    exact election_none params hplain
  refine ⟨helect, ?_⟩
  obtain ⟨stM, hms⟩ := marshal_params_plain fname
    (FUNCTION_OPTIONS.lookup mapsig) params hplain
    { code := sigstr ++ ' ' ::
        (if ctx.gen_class_mode then "const ".data else []) ++ "\x7b\n".data,
      param_vars := [],
      tfetcher := { var_name := "xlatens".data, tensors := [], writeable := [] },
      xla_ref_param := none }
  rw [hfo] at hms
  rw [hfo] at helect
  have hra : generate_result_assignment (filterTree xtree) RESULT_NAME
      = some (if ctype = "void".data && !type_is_refptr rtype ("*".data)
              then [] else "auto&& ".data ++ RESULT_NAME ++ " = ".data) := by
    rw [htree]
    simp [generate_result_assignment, hcore]
  obtain ⟨r, hret⟩ := return_stmt_context_free td rtype trest rtstr fname
    (if (if ctype = "void".data && !type_is_refptr rtype ("*".data)
         then ([] : Str)
         else "auto&& ".data ++ RESULT_NAME ++ " = ".data).isEmpty = true
     then none else some RESULT_NAME)
    params stM.param_vars none ctype hcore hct1 hct2 hct3
  rw [← htree] at hret
  simp only [get_xla_wrapper, hp, hm, hr, hpr, hgp, hty, hfn, hgs, hbl,
    Bool.false_eq_true, if_false, hfo, helect, hms, hra, hrt, hsf, hret]
  exact ⟨_, _, rfl⟩

/-- C5, counterexample.  `Tensor f(IntList size)` has no Opaque,
OpaqueList or OptionsBag parameter and election indeed yields no
reference parameter, but synthesis does not succeed: reconstructing the
value-`Tensor` return needs the missing reference parameter, so
`get_xla_wrapper` raises (the signature is dropped as an error, not
synthesized context-free). -/
theorem C5_context_free_counterexample :
    ((((parse_plain ("Tensor f(IntList size)".data)).bind get_parameters).map
        fun ps => ps.all fun p => !(isTensorB p || isOptListB p))
      = some true) ∧
    ((((parse_plain ("Tensor f(IntList size)".data)).bind get_parameters).map
        fun ps => (get_reference_param ps none).isNone) = some true) ∧
    (get_xla_wrapper ("Tensor f(IntList size)".data) exCtx).1
      = .error "return_stmt" := by
  exact ⟨by rfl, by rfl, by rfl⟩

/-- C5, witness: `int f(int a)` (no context-bearing parameter, `int`
return) elects no reference parameter and still synthesizes a wrapper. -/
theorem C5_context_free_amended_witness :
    (((parse_plain ("int f(int a)".data)).bind get_parameters).map
        fun ps => (get_reference_param ps none).isNone) = some true ∧
    ∃ fg ctx', get_xla_wrapper ("int f(int a)".data) exCtx
      = (.ok (some fg), ctx') := by
  have h := C5_context_free_amended ("int f(int a)".data) exCtx
    _ _ _ _ _ _ _ _ _ _ _ _ _ _ _ _ _
    rfl rfl rfl rfl rfl rfl rfl rfl rfl rfl rfl rfl rfl
    (by decide) (by decide) (by decide) rfl rfl
  exact ⟨by rfl, h.2⟩

/-! ## C3: the canonical dispatch key -/

/-- `advance` only appends to `sval`; the appended text and the cursor
do not depend on the accumulated `sval`. -/
theorem advance_shift (s v : Str) (p : Int) (tk : Tok) :
    StringEmit.advance { sref := s, sval := v, pos := p } tk
      = { sref := s,
          sval := v ++ (StringEmit.advance { sref := s, sval := [], pos := p } tk).sval,
          pos := (StringEmit.advance { sref := s, sval := [], pos := p } tk).pos } := by
  simp only [StringEmit.advance]
  split <;> (split <;> simp)

/-- `advanceAll` only appends to `sval`. -/
theorem advanceAll_shift (ts : List Tok) : ∀ (s v : Str) (p : Int),
    advanceAll { sref := s, sval := v, pos := p } ts
      = { sref := s,
          sval := v ++ (advanceAll { sref := s, sval := [], pos := p } ts).sval,
          pos := (advanceAll { sref := s, sval := [], pos := p } ts).pos } := by
  induction ts with
  | nil => intro s v p; simp [advanceAll]
  | cons tk ts ih =>
    intro s v p
    rcases ha : StringEmit.advance { sref := s, sval := [], pos := p } tk with
      ⟨s1, a1, p1⟩
    have hs : s1 = s := by
      have h2 := congrArg StringEmit.sref ha
      simpa [StringEmit.advance] using h2.symm
    rw [hs] at ha
    have hl : advanceAll { sref := s, sval := v, pos := p } (tk :: ts)
        = advanceAll (StringEmit.advance { sref := s, sval := v, pos := p } tk) ts :=
      rfl
    have hr0 : advanceAll { sref := s, sval := [], pos := p } (tk :: ts)
        = advanceAll (StringEmit.advance { sref := s, sval := [], pos := p } tk) ts :=
      rfl
    rw [hl, hr0, advance_shift, ha]
    dsimp only
    rw [ih s (v ++ a1) p1, ih s a1 p1]
    simp

mutual
/-- `emit_string` only appends to `sval`, and what it appends (and the
final cursor) does not depend on the accumulated `sval`. -/
theorem emit_shift (fn : Node → Int) (t : Node) :
    ∀ (s v : Str) (p : Int),
      emit_string fn t { sref := s, sval := v, pos := p }
        = { sref := s,
            sval := v ++ (emit_string fn t { sref := s, sval := [], pos := p }).sval,
            pos := (emit_string fn t { sref := s, sval := [], pos := p }).pos } := by
  intro s v p
  simp only [emit_string.eq_def]
  split
  · exact advanceAll_shift _ s v p
  · split
    · cases t with
      | token tk => exact advance_shift s v p tk
      | tree d cs => exact emit_list_shift fn d cs s v p
    · simp [StringEmit.skip]

/-- `emit_list` only appends to `sval` (children emitted left to right). -/
theorem emit_list_shift (fn : Node → Int) (d : Str) (cs : List Node) :
    ∀ (s v : Str) (p : Int),
      emit_string.emit_list fn d cs { sref := s, sval := v, pos := p }
        = { sref := s,
            sval := v ++
              (emit_string.emit_list fn d cs { sref := s, sval := [], pos := p }).sval,
            pos :=
              (emit_string.emit_list fn d cs { sref := s, sval := [], pos := p }).pos } := by
  intro s v p
  match cs with
  | [] => simp [emit_string.emit_list]
  | c :: cs' =>
    rcases he : emit_string fn c { sref := s, sval := [], pos := p } with ⟨s1, a1, p1⟩
    have hs : s1 = s := by
      have h2 := congrArg StringEmit.sref (emit_shift fn c s [] p)
      rw [he] at h2
      simp at h2
      exact h2
    rw [hs] at he
    have hl : emit_string.emit_list fn d (c :: cs') { sref := s, sval := v, pos := p }
        = emit_string.emit_list fn d cs'
            (emit_string fn c { sref := s, sval := v, pos := p }) := rfl
    have hr0 : emit_string.emit_list fn d (c :: cs') { sref := s, sval := [], pos := p }
        = emit_string.emit_list fn d cs'
            (emit_string fn c { sref := s, sval := [], pos := p }) := rfl
    rw [hl, hr0, emit_shift fn c s v p, he]
    dsimp only
    rw [emit_list_shift fn d cs' s (v ++ a1) p1, emit_list_shift fn d cs' s a1 p1]
    simp
end

/-- Emission never changes the reference text. -/
theorem emit_sref (fn : Node → Int) (t : Node) (e : StringEmit) :
    (emit_string fn t e).sref = e.sref := by
  rcases e with ⟨s, v, p⟩
  rw [emit_shift fn t s v p]

/-- C3 (corrected).  The canonical dispatch key is the concatenation of
the stripped function-name emission, `(`, the stripped parameter-list
emission (CONST/REF/PTR tokens and parameter names skipped, inter-token
gaps copied from the source text), `) -> `, and the stripped return-type
emission; on the reference example the key is
`add(Tensor, Tensor) -> Tensor`.  Because the surviving inter-token gaps
come from the source text, the key is a function of the signature text,
not of its token sequence alone (see the counterexample). -/
theorem C3_canonical_key_amended (tree : Node) (sig : Str) (fn ps ty : Node)
    (hfn : typed_child tree 1 ("fnname".data) = some fn)
    (hps : typed_child tree 3 ("params".data) = some ps)
    (hty : typed_child tree 0 ("type".data) = some ty) :
    create_map_sig tree sig
      = some (mapSigPart sig fn ++ "(".data ++ mapSigPart sig ps ++
          ") -> ".data ++ mapSigPart sig ty) ∧
    ((parse_start ("Tensor add(const Tensor & self, const Tensor & other)".data)).bind
        fun t =>
          create_map_sig t
            ("Tensor add(const Tensor & self, const Tensor & other)".data))
      = some ("add(Tensor, Tensor) -> Tensor".data) := by
  have step : ∀ (t : Node) (w : Str),
      emit_string mapSigEmitFn t { sref := sig, sval := w, pos := -1 }
        = { sref := sig, sval := w ++ mapSigPart sig t,
            pos := (emit_string mapSigEmitFn t
              { sref := sig, sval := [], pos := -1 }).pos } := by
    intro t w
    exact emit_shift mapSigEmitFn t sig w (-1)
  constructor
  · simp only [create_map_sig, hfn, hps, hty]
    rw [step]
    simp only [StringEmit.append]
    rw [step]
    simp only [StringEmit.append]
    rw [step]
    simp [mapSigPart]
  · rfl

/-- C3, counterexample.  `Tensor add(Tensor a, Tensor b)` and
`Tensor add(Tensor a,Tensor b)` differ only in whitespace and have
identical token sequences, yet their canonical dispatch keys differ:
the gap after the comma is copied from the source. -/
theorem C3_canonical_key_counterexample :
    ((parse_start ("Tensor add(Tensor a, Tensor b)".data)).map
        fun t => (nodeTokens t).map fun tk => (tk.ttype, tk.value))
      = ((parse_start ("Tensor add(Tensor a,Tensor b)".data)).map
        fun t => (nodeTokens t).map fun tk => (tk.ttype, tk.value)) ∧
    ((parse_start ("Tensor add(Tensor a, Tensor b)".data)).bind
        fun t => create_map_sig t ("Tensor add(Tensor a, Tensor b)".data))
      = some ("add(Tensor, Tensor) -> Tensor".data) ∧
    ((parse_start ("Tensor add(Tensor a,Tensor b)".data)).bind
        fun t => create_map_sig t ("Tensor add(Tensor a,Tensor b)".data))
      = some ("add(Tensor,Tensor) -> Tensor".data) ∧
    "add(Tensor, Tensor) -> Tensor".data ≠ "add(Tensor,Tensor) -> Tensor".data := by
  exact ⟨by rfl, by rfl, by rfl, by decide⟩

/-- C3, witness: the decomposition evaluated on `int f(int a)` gives the
stripped key `f(int) -> int`. -/
theorem C3_canonical_key_amended_witness :
    create_map_sig c3tree ("int f(int a)".data) = some ("f(int) -> int".data) :=
  ((C3_canonical_key_amended c3tree ("int f(int a)".data) _ _ _ rfl rfl
    rfl).1).trans (by rfl)

/-! ## C7: identity emission reconstructs the source -/

theorem pySlice_natCast (s : Str) (a b : Nat) :
    pySlice s (a : Int) (b : Int) = natSlice s a b := by
  simp only [pySlice, natSlice, Int.toNat_natCast]
  congr 1
  omega

theorem natSlice_append (s : Str) (a b c : Nat) (h1 : a ≤ b) (h2 : b ≤ c) :
    natSlice s a b ++ natSlice s b c = natSlice s a c := by
  simp only [natSlice]
  rw [show c - a = (b - a) + (c - b) by omega, List.take_add]
  congr 2
  rw [List.drop_drop]
  congr 1
  omega

theorem natSlice_self (s : Str) (a : Nat) : natSlice s a a = [] := by
  simp [natSlice]

theorem natSlice_full (s : Str) : natSlice s 0 s.length = s := by
  simp [natSlice]

theorem takeWhile_self_slice (l : Str) (p : Char → Bool) :
    l.takeWhile p = l.take (l.takeWhile p).length := by
  induction l with
  | nil => rfl
  | cons c t ih =>
    by_cases h : p c
    · simp only [List.takeWhile_cons, h, if_true, List.length_cons,
        List.take_succ_cons]
      exact congrArg (c :: ·) ih
    · simp [List.takeWhile_cons, h]

theorem runOf_slice (p : Char → Bool) (s : Str) (i : Nat) :
    runOf p s i = natSlice s i (i + (runOf p s i).length) := by
  simp only [runOf, natSlice]
  rw [show i + ((s.drop i).takeWhile p).length - i
        = ((s.drop i).takeWhile p).length by omega]
  exact takeWhile_self_slice _ p

theorem get?_drop_cons : ∀ (s : Str) (k : Nat) (c : Char),
    s.get? k = some c → s.drop k = c :: s.drop (k + 1) := by
  intro s
  induction s with
  | nil => intro k c h; cases k <;> simp [List.get?] at h
  | cons a t ih =>
    intro k c h
    cases k with
    | zero =>
      simp only [List.get?] at h
      injection h with h
      simp [h]
    | succ k' =>
      simp only [List.get?] at h
      simp only [List.drop_succ_cons]
      exact ih k' c h

theorem char_slice (s : Str) (k : Nat) (c : Char) (h : s.get? k = some c) :
    [c] = natSlice s k (k + 1) := by
  simp only [natSlice, show k + 1 - k = 1 by omega]
  rw [get?_drop_cons s k c h]
  rfl

theorem lastEndFrom_ge (s : Str) : ∀ (toks : List Tok) (p : Nat),
    toksOK s p toks = true → p ≤ lastEndFrom p toks := by
  intro toks
  induction toks with
  | nil => intro p _; exact Nat.le_refl p
  | cons tk rest ih =>
    intro p h
    simp only [toksOK, Bool.and_eq_true, decide_eq_true_eq] at h
    obtain ⟨⟨⟨⟨h1, h2⟩, h3⟩, _⟩, h5⟩ := h
    calc p ≤ tk.endColumn - 1 := by omega
    _ ≤ lastEndFrom (tk.endColumn - 1) rest := ih _ h5

theorem lastEndFrom_le (s : Str) : ∀ (toks : List Tok) (p : Nat),
    toksOK s p toks = true → p ≤ s.length → lastEndFrom p toks ≤ s.length := by
  intro toks
  induction toks with
  | nil => intro p _ hp; exact hp
  | cons tk rest ih =>
    intro p h hp
    simp only [toksOK, Bool.and_eq_true, decide_eq_true_eq] at h
    obtain ⟨⟨⟨⟨h1, h2⟩, h3⟩, _⟩, h5⟩ := h
    exact ih _ h5 (by omega)

/-- Reconstruction: from a cursor at `p`, advancing over well-formed
tokens appends exactly the source text from `p` to the last token end. -/
theorem advanceAll_reconstruct (s : Str) : ∀ (toks : List Tok) (p : Nat) (v : Str),
    toksOK s p toks = true → p ≤ s.length →
    advanceAll { sref := s, sval := v, pos := (p : Int) } toks
      = { sref := s, sval := v ++ natSlice s p (lastEndFrom p toks),
          pos := (lastEndFrom p toks : Int) } := by
  intro toks
  induction toks with
  | nil =>
    intro p v _ _
    simp [advanceAll, lastEndFrom, natSlice_self]
  | cons tk rest ih =>
    intro p v h hp
    simp only [toksOK, Bool.and_eq_true, decide_eq_true_eq, beq_iff_eq] at h
    obtain ⟨⟨⟨⟨h1, h2⟩, h3⟩, h4⟩, h5⟩ := h
    have hstep : advanceAll { sref := s, sval := v, pos := (p : Int) } (tk :: rest)
        = advanceAll (StringEmit.advance { sref := s, sval := v, pos := (p : Int) } tk)
            rest := rfl
    have hadv : StringEmit.advance { sref := s, sval := v, pos := (p : Int) } tk
        = { sref := s, sval := v ++ natSlice s p (tk.endColumn - 1),
            pos := ((tk.endColumn - 1 : Nat) : Int) } := by
      simp only [StringEmit.advance]
      have hpos : ((tk.column : Int) - 1) = ((tk.column - 1 : Nat) : Int) := by
        omega
      have hpos2 : ((tk.endColumn : Int) - 1) = ((tk.endColumn - 1 : Nat) : Int) := by
        omega
      rw [hpos, hpos2, if_pos (by omega : ((p : Int) ≥ 0))]
      by_cases hgap : p < tk.column - 1
      · rw [if_pos (by exact_mod_cast hgap)]
        rw [pySlice_natCast, h4]
        congr 1
        rw [List.append_assoc]
        congr 1
        exact natSlice_append s p (tk.column - 1) (tk.endColumn - 1) (by omega)
          (by omega)
      · rw [if_neg (by omega)]
        have hpe : p = tk.column - 1 := by omega
        rw [h4, hpe]
    rw [hstep, hadv, ih (tk.endColumn - 1) (v ++ natSlice s p (tk.endColumn - 1))
      h5 (by omega)]
    simp only [lastEndFrom, List.append_assoc]
    rw [natSlice_append s p (tk.endColumn - 1) (lastEndFrom (tk.endColumn - 1) rest)
      (by omega) (lastEndFrom_ge s rest _ h5)]

mutual
/-- With the identity policy every token is advanced in order. -/
theorem emit_id (t : Node) : ∀ e : StringEmit,
    emit_string idPolicy t e = advanceAll e (nodeTokens t) := by
  intro e
  rw [emit_string.eq_def]
  simp only [idPolicy]
  rw [if_neg (by omega), if_pos trivial]
  cases t with
  | token tk => rfl
  | tree d cs => exact emit_id_list cs d e

/-- List version of `emit_id`. -/
theorem emit_id_list (cs : List Node) : ∀ (d : Str) (e : StringEmit),
    emit_string.emit_list idPolicy d cs e
      = advanceAll e (nodeTokens.nodeTokensList cs) := by
  intro d e
  match cs with
  | [] => rfl
  | c :: cs' =>
    show emit_string.emit_list idPolicy d cs' (emit_string idPolicy c e) = _
    rw [emit_id c e, emit_id_list cs' d _]
    simp only [nodeTokens.nodeTokensList]
    rw [advanceAll, advanceAll, advanceAll, List.foldl_append]
end

theorem lastEndFrom_append : ∀ (A B : List Tok) (p : Nat),
    lastEndFrom p (A ++ B) = lastEndFrom (lastEndFrom p A) B := by
  intro A
  induction A with
  | nil => intro B p; rfl
  | cons tk A' ih => intro B p; exact ih B _

theorem toksOK_append (s : Str) : ∀ (A B : List Tok) (p : Nat),
    toksOK s p A = true → toksOK s (lastEndFrom p A) B = true →
    toksOK s p (A ++ B) = true := by
  intro A
  induction A with
  | nil => intro B p _ h2; exact h2
  | cons tk A' ih =>
    intro B p h1 h2
    simp only [toksOK, Bool.and_eq_true] at h1 ⊢
    exact ⟨h1.1, ih B _ h1.2 h2⟩

theorem listSpan_append {s : Str} {A B : List Tok} {i j1 j : Nat}
    (h1 : listSpan s i A j1) (h2 : listSpan s j1 B j) :
    listSpan s i (A ++ B) j := by
  refine ⟨toksOK_append s A B i h1.1 ?_, ?_⟩
  · rw [h1.2]; exact h2.1
  · rw [lastEndFrom_append, h1.2, h2.2]

theorem listSpan_single {s : Str} {i p : Nat} {tk : Tok}
    (h1 : p + 1 ≤ tk.column) (h2 : tk.column ≤ tk.endColumn)
    (h3 : tk.endColumn ≤ s.length + 1)
    (h4 : tk.value = natSlice s (tk.column - 1) (tk.endColumn - 1))
    (hi : i ≤ p)  :
    listSpan s i [tk] (tk.endColumn - 1) := by
  constructor
  · simp only [toksOK, Bool.and_eq_true, decide_eq_true_eq, beq_iff_eq]
    exact ⟨⟨⟨⟨by omega, h2⟩, h3⟩, h4⟩, trivial⟩
  · rfl

theorem skipWs_ge (s : Str) (i : Nat) : i ≤ skipWs s i := by
  simp [skipWs]

theorem length_takeWhile_le' (p : Char → Bool) : ∀ l : Str,
    (l.takeWhile p).length ≤ l.length := by
  intro l
  induction l with
  | nil => simp
  | cons c t ih =>
    by_cases h : p c
    · simp only [List.takeWhile_cons, h, if_true, List.length_cons]
      omega
    · simp [List.takeWhile_cons, h]

theorem skipWs_le (s : Str) (i : Nat) (h : i ≤ s.length) :
    skipWs s i ≤ s.length := by
  simp only [skipWs]
  have h1 : ((s.drop i).takeWhile isWsChar).length ≤ (s.drop i).length :=
    length_takeWhile_le' _ _
  rw [List.length_drop] at h1
  omega

theorem runOf_le (p : Char → Bool) (s : Str) (i : Nat) (h : i ≤ s.length) :
    i + (runOf p s i).length ≤ s.length := by
  simp only [runOf]
  have h1 : ((s.drop i).takeWhile p).length ≤ (s.drop i).length :=
    length_takeWhile_le' _ _
  rw [List.length_drop] at h1
  omega

theorem get?_lt (s : Str) (k : Nat) (c : Char) (h : s.get? k = some c) :
    k < s.length := by
  by_contra hk
  rw [List.get?_eq_none.mpr (by omega)] at h
  cases h

/-- Span facts for a token lexed by `mkTok ty (runOf p s i') i'`. -/
theorem runTok_span (ty : String) (p : Char → Bool) (s : Str) (i i' : Nat)
    (hi : i ≤ i') (hle : i' ≤ s.length) :
    listSpan s i [mkTok ty (runOf p s i') i']
      (i' + (runOf p s i').length) := by
  have h := runOf_le p s i' hle
  have heq : (i' + (runOf p s i').length + 1) - 1
      = i' + (runOf p s i').length := by omega
  have hspan := @listSpan_single s i i' (mkTok ty (runOf p s i') i')
    (by simp only [mkTok]; omega) (by simp only [mkTok]; omega)
    (by simp only [mkTok]; omega)
    (by simp only [mkTok, heq]
        rw [show i' + 1 - 1 = i' by omega]
        exact runOf_slice p s i') hi
  rw [show (mkTok ty (runOf p s i') i').endColumn - 1
      = i' + (runOf p s i').length by simp [mkTok]] at hspan
  exact hspan

/-- Span facts for a single-character token at `k`. -/
theorem charTok_span (ty : String) (s : Str) (i k : Nat) (c : Char)
    (hik : i ≤ k) (h : s.get? k = some c) :
    listSpan s i [mkTok ty [c] k] (k + 1) := by
  have hk := get?_lt s k c h
  have hspan := @listSpan_single s i k (mkTok ty [c] k)
    (by simp only [mkTok]; omega) (by simp only [mkTok, List.length_singleton]; omega)
    (by simp only [mkTok, List.length_singleton]; omega)
    (by simp only [mkTok, List.length_singleton]
        rw [show k + 1 + 1 - 1 = k + 1 by omega, show k + 1 - 1 = k by omega]
        exact char_slice s k c h) hik
  rw [show (mkTok ty [c] k).endColumn - 1 = k + 1 by simp [mkTok]] at hspan
  exact hspan

theorem natSlice_cons_char (s : Str) (k : Nat) (c : Char) (rest : Str) (j : Nat)
    (h : s.get? k = some c) (hrest : rest = natSlice s (k + 1) j)
    (hk : k + 1 ≤ j) : c :: rest = natSlice s k j := by
  rw [hrest, ← natSlice_append s k (k + 1) j (by omega) hk, ← char_slice s k c h]
  rfl

theorem natSlice_run_append (p : Char → Bool) (s : Str) (i : Nat) (rest : Str)
    (j : Nat) (hrest : rest = natSlice s (i + (runOf p s i).length) j)
    (h : i + (runOf p s i).length ≤ j) :
    runOf p s i ++ rest = natSlice s i j := by
  rw [hrest]
  calc runOf p s i ++ natSlice s (i + (runOf p s i).length) j
      = natSlice s i (i + (runOf p s i).length) ++
          natSlice s (i + (runOf p s i).length) j := by
        nth_rewrite 1 [runOf_slice p s i]
        rfl
    _ = natSlice s i j :=
        natSlice_append s i (i + (runOf p s i).length) j (by omega) h

/-- The exponent lexeme is empty or is the source text at its span. -/
theorem lexExp_sound (s : Str) (i : Nat) :
    lexExp s i = [] ∨
    (lexExp s i = natSlice s i (i + (lexExp s i).length) ∧
     i + (lexExp s i).length ≤ s.length) := by
  simp only [lexExp]
  rcases hc : s.get? i with _ | c
  · left; rfl
  · dsimp only
    by_cases he : (decide (c = 'e') || decide (c = 'E')) = true
    · rw [if_pos he]
      rcases hc2 : s.get? (i + 1) with _ | c2
      · left; rfl
      · dsimp only
        by_cases hs2 : (decide (c2 = '+') || decide (c2 = '-')) = true
        · rw [if_pos hs2]
          rcases hds : lexDigits s (i + 2) with _ | ⟨d, ds⟩
          · left; simp
          · rw [if_neg (by simp)]
            right
            have hb := runOf_le Char.isDigit s (i + 2)
              (by have := get?_lt s (i + 1) c2 hc2; omega)
            rw [show runOf Char.isDigit s (i + 2) = lexDigits s (i + 2) from rfl,
              hds] at hb
            have h1 : (lexDigits s (i + 2) : Str)
                = natSlice s (i + 2) (i + 2 + (lexDigits s (i + 2)).length) :=
              runOf_slice Char.isDigit s (i + 2)
            rw [hds] at h1
            constructor
            · refine natSlice_cons_char s i c _ _ hc ?_
                (by simp only [List.length_cons]; omega)
              refine natSlice_cons_char s (i + 1) c2 _ _ hc2 ?_
                (by simp only [List.length_cons]; omega)
              have heq : i + (c :: c2 :: d :: ds).length
                  = i + 2 + (d :: ds).length := by
                simp only [List.length_cons]
                omega
              rw [heq]
              exact h1
            · simp only [List.length_cons] at hb ⊢
              omega
        · rw [if_neg hs2]
          rcases hds : lexDigits s (i + 1) with _ | ⟨d, ds⟩
          · left; simp
          · rw [if_neg (by simp)]
            right
            have hb := runOf_le Char.isDigit s (i + 1)
              (by have := get?_lt s i c hc; omega)
            rw [show runOf Char.isDigit s (i + 1) = lexDigits s (i + 1) from rfl,
              hds] at hb
            have h1 : (lexDigits s (i + 1) : Str)
                = natSlice s (i + 1) (i + 1 + (lexDigits s (i + 1)).length) :=
              runOf_slice Char.isDigit s (i + 1)
            rw [hds] at h1
            constructor
            · refine natSlice_cons_char s i c _ _ hc ?_
                (by simp only [List.length_cons]; omega)
              have heq : i + (c :: d :: ds).length
                  = i + 1 + (d :: ds).length := by
                simp only [List.length_cons]
                omega
              rw [heq]
              exact h1
            · simp only [List.length_cons] at hb ⊢
              omega
    · rw [if_neg he]
      left
      rfl

/-- A nonempty digit run starts within the string. -/
theorem lexDigits_nonempty_lt (s : Str) (i : Nat) (d : Char) (dtl : Str)
    (h : lexDigits s i = d :: dtl) : i < s.length := by
  by_contra hi
  have hdrop : s.drop i = [] := List.drop_eq_nil_of_le (by omega)
  simp [lexDigits, runOf, hdrop] at h

/-- Appending the exponent lexeme to a slice `[a, b)` yields the slice
through the exponent's end. -/
theorem append_exp_slice (s : Str) (a b : Nat) (v : Str)
    (hv : v = natSlice s a b) (hab : a ≤ b) (hb : b ≤ s.length) :
    v ++ lexExp s b = natSlice s a (a + (v ++ lexExp s b).length) ∧
    a + (v ++ lexExp s b).length ≤ s.length := by
  have hvlen : v.length = b - a := by
    rw [hv]
    simp only [natSlice, List.length_take, List.length_drop]
    omega
  rcases lexExp_sound s b with h0 | ⟨h1, h2⟩
  · rw [h0, List.append_nil]
    constructor
    · rw [show a + v.length = b by omega]
      exact hv
    · omega
  · constructor
    · have hlen : a + (v ++ lexExp s b).length = b + (lexExp s b).length := by
        simp only [List.length_append]
        omega
      rw [hlen, hv]
      conv_lhs => rw [h1]
      exact natSlice_append s a b (b + (lexExp s b).length) hab (by omega)
    · simp only [List.length_append]
      omega

/-- The `NUMBER` lexeme is empty or is the source text at its span. -/
theorem lexNumber_sound (s : Str) (i : Nat) :
    lexNumber s i = [] ∨
    (lexNumber s i = natSlice s i (i + (lexNumber s i).length) ∧
     i + (lexNumber s i).length ≤ s.length) := by
  simp only [lexNumber]
  rcases hds : lexDigits s i with _ | ⟨d0, dtl⟩
  · simp only [List.isEmpty_nil, if_true]
    rcases hc : s.get? i with _ | c
    · left; rfl
    · dsimp only
      by_cases hdot : c = '.'
      · rw [if_pos hdot]
        rcases hds2 : lexDigits s (i + 1) with _ | ⟨d1, dtl1⟩
        · left; simp
        · rw [if_neg (by simp)]
          right
          subst hdot
          have hlt := get?_lt s i '.' hc
          have hrun : (d1 :: dtl1 : Str)
              = natSlice s (i + 1) (i + 1 + (d1 :: dtl1 : Str).length) := by
            rw [← hds2]
            exact runOf_slice Char.isDigit s (i + 1)
          have hb2 : i + 1 + (d1 :: dtl1 : Str).length ≤ s.length := by
            have hr := runOf_le Char.isDigit s (i + 1) (by omega)
            rw [show runOf Char.isDigit s (i + 1) = lexDigits s (i + 1) from rfl,
              hds2] at hr
            exact hr
          have hfrac : ('.' :: d1 :: dtl1 : Str)
              = natSlice s i (i + 1 + (d1 :: dtl1 : Str).length) :=
            natSlice_cons_char s i '.' _ _ hc hrun (by omega)
          have happ := append_exp_slice s i (i + 1 + (d1 :: dtl1 : Str).length)
            ('.' :: d1 :: dtl1) hfrac (by omega) hb2
          rw [show i + ('.' :: d1 :: dtl1 : Str).length
                = i + 1 + (d1 :: dtl1 : Str).length by
              simp only [List.length_cons]; omega]
          exact happ
      · rw [if_neg hdot]
        left
        rfl
  · rw [if_neg (by simp)]
    have hlt := lexDigits_nonempty_lt s i d0 dtl hds
    have hrun : (d0 :: dtl : Str)
        = natSlice s i (i + (d0 :: dtl : Str).length) := by
      rw [← hds]
      exact runOf_slice Char.isDigit s i
    have hble : i + (d0 :: dtl : Str).length ≤ s.length := by
      have hr := runOf_le Char.isDigit s i (by omega)
      rw [show runOf Char.isDigit s i = lexDigits s i from rfl, hds] at hr
      exact hr
    rcases hc : s.get? (i + (d0 :: dtl : Str).length) with _ | c
    · dsimp only
      right
      exact append_exp_slice s i (i + (d0 :: dtl : Str).length) (d0 :: dtl)
        hrun (by omega) hble
    · dsimp only
      by_cases hdot : c = '.'
      · rw [if_pos hdot]
        right
        subst hdot
        have hlt2 := get?_lt s (i + (d0 :: dtl : Str).length) '.' hc
        have hrun2 : lexDigits s (i + (d0 :: dtl : Str).length + 1)
            = natSlice s (i + (d0 :: dtl : Str).length + 1)
                (i + (d0 :: dtl : Str).length + 1 +
                  (lexDigits s (i + (d0 :: dtl : Str).length + 1)).length) :=
          runOf_slice Char.isDigit s (i + (d0 :: dtl : Str).length + 1)
        have hb3 : i + (d0 :: dtl : Str).length + 1 +
            (lexDigits s (i + (d0 :: dtl : Str).length + 1)).length
              ≤ s.length :=
          runOf_le Char.isDigit s (i + (d0 :: dtl : Str).length + 1) (by omega)
        have hdotds : ('.' :: lexDigits s (i + (d0 :: dtl : Str).length + 1) : Str)
            = natSlice s (i + (d0 :: dtl : Str).length)
                (i + (d0 :: dtl : Str).length + 1 +
                  (lexDigits s (i + (d0 :: dtl : Str).length + 1)).length) :=
          natSlice_cons_char s _ '.' _ _ hc hrun2 (by omega)
        have hdec : ((d0 :: dtl : Str) ++
              '.' :: lexDigits s (i + (d0 :: dtl : Str).length + 1))
            = natSlice s i
                (i + (d0 :: dtl : Str).length + 1 +
                  (lexDigits s (i + (d0 :: dtl : Str).length + 1)).length) := by
          rw [← natSlice_append s i (i + (d0 :: dtl : Str).length) _ (by omega)
            (by omega), ← hrun, ← hdotds]
        have happ := append_exp_slice s i
          (i + (d0 :: dtl : Str).length + 1 +
            (lexDigits s (i + (d0 :: dtl : Str).length + 1)).length)
          ((d0 :: dtl : Str) ++
            '.' :: lexDigits s (i + (d0 :: dtl : Str).length + 1))
          hdec (by omega) hb3
        rw [show i + ((d0 :: dtl : Str) ++
              '.' :: lexDigits s (i + (d0 :: dtl : Str).length + 1)).length
            = i + (d0 :: dtl : Str).length + 1 +
              (lexDigits s (i + (d0 :: dtl : Str).length + 1)).length by
          simp only [List.length_append, List.length_cons]; omega]
        exact happ
      · rw [if_neg hdot]
        right
        exact append_exp_slice s i (i + (d0 :: dtl : Str).length) (d0 :: dtl)
          hrun (by omega) hble

theorem takeWhile_drop_takeWhile (p : Char → Bool) : ∀ l : Str,
    (l.drop (l.takeWhile p).length).takeWhile p = [] := by
  intro l
  induction l with
  | nil => rfl
  | cons c t ih =>
    by_cases h : p c
    · simp only [List.takeWhile_cons, h, if_true, List.length_cons,
        List.drop_succ_cons]
      exact ih
    · simp [List.takeWhile_cons, h]

/-- Skipping whitespace is idempotent: after a maximal run the next
character is not whitespace. -/
theorem skipWs_idem (s : Str) (i : Nat) : skipWs s (skipWs s i) = skipWs s i := by
  simp only [skipWs]
  have h : (s.drop (i + ((s.drop i).takeWhile isWsChar).length)).takeWhile isWsChar
      = [] := by
    rw [← List.drop_drop]
    exact takeWhile_drop_takeWhile isWsChar (s.drop i)
  rw [h]
  simp

/-- A nonempty well-formed run keeps its span when viewed from an earlier
start position. -/
theorem listSpan_weaken {s : Str} {i i' j : Nat} {tk : Tok} {rest : List Tok}
    (h : listSpan s i' (tk :: rest) j) (hi : i ≤ i') :
    listSpan s i (tk :: rest) j := by
  obtain ⟨h1, h2⟩ := h
  simp only [toksOK, Bool.and_eq_true, decide_eq_true_eq] at h1
  refine ⟨?_, h2⟩
  simp only [toksOK, Bool.and_eq_true, decide_eq_true_eq]
  exact ⟨⟨⟨⟨by omega, h1.1.1.1.2⟩, h1.1.1.2⟩, h1.1.2⟩, h1.2⟩

/-- The escaped-string tail is the source text at its span. -/
theorem lexEscapedTail_sound : ∀ (fuel : Nat) (s : Str) (i : Nat) (t : Str) (j : Nat),
    lexEscapedTail fuel s i = some (t, j) →
    t = natSlice s i j ∧ j = i + t.length ∧ j ≤ s.length := by
  intro fuel
  induction fuel with
  | zero => intro s i t j h; simp [lexEscapedTail] at h
  | succ f ih =>
    intro s i t j h
    rw [lexEscapedTail] at h
    rcases hc : s.get? i with _ | c
    · rw [hc] at h; cases h
    · rw [hc] at h
      dsimp only at h
      have hilt := get?_lt s i c hc
      by_cases hq : c = '"'
      · rw [if_pos hq] at h
        obtain ⟨ht, hj⟩ := Prod.mk.injEq .. ▸ Option.some.inj h
        subst hq ht hj
        refine ⟨char_slice s i '"' hc, by simp, by omega⟩
      · rw [if_neg hq] at h
        by_cases hb : c = '\\'
        · rw [if_pos hb] at h
          rcases hc2 : s.get? (i + 1) with _ | c2
          · rw [hc2] at h; cases h
          · rw [hc2] at h
            dsimp only at h
            rcases hrec : lexEscapedTail f s (i + 2) with _ | ⟨p1, p2⟩
            · rw [hrec] at h; cases h
            · rw [hrec] at h
              obtain ⟨ht, hj⟩ := Prod.mk.injEq .. ▸ Option.some.inj h
              obtain ⟨r1, r2, r3⟩ := ih s (i + 2) p1 p2 hrec
              subst hb
              refine ⟨?_, ?_, by omega⟩
              · rw [← ht, ← hj]
                refine natSlice_cons_char s i '\\' _ _ hc ?_ (by omega)
                exact natSlice_cons_char s (i + 1) c2 _ _ hc2 r1 (by omega)
              · rw [← ht, ← hj]
                simp only [List.length_cons]
                omega
        · rw [if_neg hb] at h
          rcases hrec : lexEscapedTail f s (i + 1) with _ | ⟨p1, p2⟩
          · rw [hrec] at h; cases h
          · rw [hrec] at h
            obtain ⟨ht, hj⟩ := Prod.mk.injEq .. ▸ Option.some.inj h
            obtain ⟨r1, r2, r3⟩ := ih s (i + 1) p1 p2 hrec
            refine ⟨?_, ?_, by omega⟩
            · rw [← ht, ← hj]
              exact natSlice_cons_char s i c _ _ hc r1 (by omega)
            · rw [← ht, ← hj]
              simp only [List.length_cons]
              omega

/-- A verified literal prefix is the source text at its span. -/
theorem prefix_slice (s p : Str) (i : Nat) (hi : i ≤ s.length)
    (h : p.isPrefixOf (s.drop i) = true) :
    p = natSlice s i (i + p.length) ∧ i + p.length ≤ s.length := by
  have hp : p <+: s.drop i := List.isPrefixOf_iff_prefix.mp h
  have hlen : p.length ≤ (s.drop i).length := hp.length_le
  rw [List.length_drop] at hlen
  constructor
  · have := List.prefix_iff_eq_take.mp hp
    simp only [natSlice]
    rw [show i + p.length - i = p.length by omega]
    exact this
  · omega

/-- `refspec` soundness. -/
theorem parse_refspec_sound (s : Str) (i : Nat) (t : Node) (j : Nat)
    (hi : i ≤ s.length) (h : parse_refspec s i = some (t, j)) :
    parserSound s i t j := by
  simp only [parse_refspec] at h
  rcases hc : s.get? (skipWs s i) with _ | c
  · rw [hc] at h; cases h
  · rw [hc] at h
    dsimp only at h
    have hlt := get?_lt s (skipWs s i) c hc
    by_cases hamp : c = '&'
    · rw [if_pos hamp] at h
      obtain ⟨ht, hj⟩ := Prod.mk.injEq .. ▸ Option.some.inj h
      subst hamp
      refine ⟨?_, by omega, ?_⟩
      · rw [← ht, ← hj]
        exact charTok_span "REF" s i (skipWs s i) '&' (skipWs_ge s i) hc
      · rw [← ht]
        exact ⟨_, _, rfl, by simp [mkTok]⟩
    · rw [if_neg hamp] at h
      by_cases hstar : c = '*'
      · rw [if_pos hstar] at h
        obtain ⟨ht, hj⟩ := Prod.mk.injEq .. ▸ Option.some.inj h
        subst hstar
        refine ⟨?_, by omega, ?_⟩
        · rw [← ht, ← hj]
          exact charTok_span "PTR" s i (skipWs s i) '*' (skipWs_ge s i) hc
        · rw [← ht]
          exact ⟨_, _, rfl, by simp [mkTok]⟩
      · rw [if_neg hstar] at h
        cases h

/-- `CNAME` soundness. -/
theorem lex_cname_sound (s : Str) (i : Nat) (tk : Tok) (j : Nat)
    (hi : i ≤ s.length) (h : lex_cname s i = some (tk, j)) :
    listSpan s i [tk] j ∧ j ≤ s.length ∧ tk.column = skipWs s i + 1 := by
  simp only [lex_cname] at h
  rcases hc : s.get? (skipWs s i) with _ | c
  · rw [hc] at h; cases h
  · rw [hc] at h
    dsimp only at h
    by_cases hst : isCnameStart c = true
    · rw [if_pos hst] at h
      obtain ⟨ht, hj⟩ := Prod.mk.injEq .. ▸ Option.some.inj h
      have hspan := runTok_span "CNAME" isCnameChar s i (skipWs s i)
        (skipWs_ge s i) (skipWs_le s i hi)
      rw [ht] at hspan
      have hb := runOf_le isCnameChar s (skipWs s i) (skipWs_le s i hi)
      refine ⟨?_, by omega, ?_⟩
      · rw [← hj]
        exact hspan
      · rw [← ht]
        simp [mkTok]
    · rw [if_neg hst] at h
      cases h

/-- `init_value` soundness. -/
theorem parse_init_value_sound (s : Str) (i : Nat) (t : Node) (j : Nat)
    (hi : i ≤ s.length) (h : parse_init_value s i = some (t, j)) :
    parserSound s i t j := by
  simp only [parse_init_value] at h
  rcases hc : s.get? (skipWs s i) with _ | c
  · rw [hc] at h; cases h
  · rw [hc] at h
    dsimp only at h
    have hlt := get?_lt s (skipWs s i) c hc
    have hsge := skipWs_ge s i
    by_cases hq : c = '"'
    · rw [if_pos hq] at h
      rcases hlex : lexEscapedTail (s.length + 1) s (skipWs s i + 1) with _ | ⟨t0, j0⟩
      · rw [hlex] at h; cases h
      · rw [hlex] at h
        obtain ⟨ht, hj⟩ := Prod.mk.injEq .. ▸ Option.some.inj h
        subst hq ht hj
        obtain ⟨r1, r2, r3⟩ := lexEscapedTail_sound _ s _ t0 j0 hlex
        have hval : ('"' :: t0 : Str) = natSlice s (skipWs s i) j0 :=
          natSlice_cons_char s (skipWs s i) '"' t0 j0 hc r1 (by omega)
        have hspan := @listSpan_single s i (skipWs s i)
          (mkTok "ESCAPED_STRING" ('"' :: t0) (skipWs s i))
          (by simp only [mkTok]; omega)
          (by simp only [mkTok]; omega)
          (by simp only [mkTok, List.length_cons]; omega)
          (by simp only [mkTok, List.length_cons]
              rw [show skipWs s i + 1 - 1 = skipWs s i by omega,
                show skipWs s i + (t0.length + 1) + 1 - 1 = j0 by omega]
              exact hval) hsge
        rw [show (mkTok "ESCAPED_STRING" ('"' :: t0) (skipWs s i)).endColumn - 1
            = j0 by simp only [mkTok, List.length_cons]; omega] at hspan
        refine ⟨?_, by omega, ?_⟩
        · exact hspan
        · exact ⟨_, _, rfl, by simp [mkTok]⟩
    · rw [if_neg hq] at h
      by_cases hbr : c = '\x7b'
      · rw [if_pos hbr] at h
        rcases hc2 : s.get? (skipWs s i + 1) with _ | c2
        · rw [hc2] at h; cases h
        · rw [hc2] at h
          dsimp only at h
          by_cases hbr2 : c2 = '\x7d'
          · rw [if_pos hbr2] at h
            obtain ⟨ht, hj⟩ := Prod.mk.injEq .. ▸ Option.some.inj h
            subst hbr hbr2 ht hj
            have hlt2 := get?_lt s (skipWs s i + 1) _ hc2
            have hval : (['\x7b', '\x7d'] : Str)
                = natSlice s (skipWs s i) (skipWs s i + 2) := by
              refine natSlice_cons_char s (skipWs s i) '\x7b' _ _ hc ?_ (by omega)
              rw [show skipWs s i + 2 = skipWs s i + 1 + 1 by omega]
              exact char_slice s (skipWs s i + 1) '\x7d' hc2
            have hspan := @listSpan_single s i (skipWs s i)
              (mkTok "BRACES" ['\x7b', '\x7d'] (skipWs s i))
              (by simp only [mkTok]; omega)
              (by simp only [mkTok]; simp)
              (by simp only [mkTok]; simp only [List.length_cons, List.length_nil]; omega)
              (by simp only [mkTok, List.length_cons, List.length_nil]
                  rw [show skipWs s i + 1 - 1 = skipWs s i by omega,
                    show skipWs s i + (0 + 1 + 1) + 1 - 1 = skipWs s i + 2 by omega]
                  exact hval) hsge
            rw [show (mkTok "BRACES" ['\x7b', '\x7d'] (skipWs s i)).endColumn - 1
                = skipWs s i + 2 by
                  simp only [mkTok, List.length_cons, List.length_nil]; omega] at hspan
            refine ⟨?_, by omega, ?_⟩
            · exact hspan
            · exact ⟨_, _, rfl, by simp [mkTok]⟩
          · rw [if_neg hbr2] at h
            cases h
      · rw [if_neg hbr] at h
        by_cases hpm : (decide (c = '+') || decide (c = '-')) = true
        · rw [if_pos hpm] at h
          by_cases hne : (lexNumber s (skipWs s i + 1)).isEmpty = true
          · rw [if_pos hne] at h; cases h
          · rw [if_neg hne] at h
            obtain ⟨ht, hj⟩ := Prod.mk.injEq .. ▸ Option.some.inj h
            subst ht hj
            rcases lexNumber_sound s (skipWs s i + 1) with h0 | ⟨r1, r2⟩
            · rw [h0] at hne; simp at hne
            · have hval : (c :: lexNumber s (skipWs s i + 1) : Str)
                  = natSlice s (skipWs s i)
                      (skipWs s i + 1 + (lexNumber s (skipWs s i + 1)).length) :=
                natSlice_cons_char s (skipWs s i) c _ _ hc r1 (by omega)
              have hspan := @listSpan_single s i (skipWs s i)
                (mkTok "SIGNED_NUMBER" (c :: lexNumber s (skipWs s i + 1)) (skipWs s i))
                (by simp only [mkTok]; omega)
                (by simp only [mkTok]; omega)
                (by simp only [mkTok, List.length_cons]; omega)
                (by simp only [mkTok, List.length_cons]
                    rw [show skipWs s i + 1 - 1 = skipWs s i by omega,
                      show skipWs s i + ((lexNumber s (skipWs s i + 1)).length + 1) + 1 - 1
                        = skipWs s i + 1 + (lexNumber s (skipWs s i + 1)).length by omega]
                    exact hval) hsge
              rw [show (mkTok "SIGNED_NUMBER" (c :: lexNumber s (skipWs s i + 1))
                  (skipWs s i)).endColumn - 1
                  = skipWs s i + (lexNumber s (skipWs s i + 1)).length + 1 by
                    simp only [mkTok, List.length_cons]; omega] at hspan
              refine ⟨?_, by omega, ?_⟩
              · exact hspan
              · exact ⟨_, _, rfl, by simp [mkTok]⟩
        · rw [if_neg hpm] at h
          by_cases htr : ("true".data).isPrefixOf (s.drop (skipWs s i)) = true
          · rw [if_pos htr] at h
            obtain ⟨ht, hj⟩ := Prod.mk.injEq .. ▸ Option.some.inj h
            subst ht hj
            obtain ⟨p1, p2⟩ := prefix_slice s ("true".data) (skipWs s i)
              (skipWs_le s i hi) htr
            have hspan := @listSpan_single s i (skipWs s i)
              (mkTok "TRUE" ("true".data) (skipWs s i))
              (by simp only [mkTok]; omega)
              (by simp only [mkTok]; omega)
              (by simp only [mkTok]
                  simp only [show ("true".data).length = 4 from rfl] at p2 ⊢
                  omega)
              (by simp only [mkTok]
                  rw [show skipWs s i + 1 - 1 = skipWs s i by omega,
                    show skipWs s i + ("true".data).length + 1 - 1
                      = skipWs s i + ("true".data).length by omega]
                  exact p1) hsge
            rw [show (mkTok "TRUE" ("true".data) (skipWs s i)).endColumn - 1
                = skipWs s i + 4 by simp [mkTok]] at hspan
            refine ⟨?_, ?_, ?_⟩
            · exact hspan
            · simp only [show ("true".data).length = 4 from rfl] at p2; omega
            · exact ⟨_, _, rfl, by simp [mkTok]⟩
          · rw [if_neg htr] at h
            by_cases hfa : ("false".data).isPrefixOf (s.drop (skipWs s i)) = true
            · rw [if_pos hfa] at h
              obtain ⟨ht, hj⟩ := Prod.mk.injEq .. ▸ Option.some.inj h
              subst ht hj
              obtain ⟨p1, p2⟩ := prefix_slice s ("false".data) (skipWs s i)
                (skipWs_le s i hi) hfa
              have hspan := @listSpan_single s i (skipWs s i)
                (mkTok "FALSE" ("false".data) (skipWs s i))
                (by simp only [mkTok]; omega)
                (by simp only [mkTok]; omega)
                (by simp only [mkTok]
                    simp only [show ("false".data).length = 5 from rfl] at p2 ⊢
                    omega)
                (by simp only [mkTok]
                    rw [show skipWs s i + 1 - 1 = skipWs s i by omega,
                      show skipWs s i + ("false".data).length + 1 - 1
                        = skipWs s i + ("false".data).length by omega]
                    exact p1) hsge
              rw [show (mkTok "FALSE" ("false".data) (skipWs s i)).endColumn - 1
                  = skipWs s i + 5 by simp [mkTok]] at hspan
              refine ⟨?_, ?_, ?_⟩
              · exact hspan
              · simp only [show ("false".data).length = 5 from rfl] at p2; omega
              · exact ⟨_, _, rfl, by simp [mkTok]⟩
            · rw [if_neg hfa] at h
              by_cases hhex : (decide (c = '0') &&
                  decide (s.get? (skipWs s i + 1) = some 'x') &&
                  !(runOf isHexDigitChar s (skipWs s i + 2)).isEmpty) = true
              · rw [if_pos hhex] at h
                obtain ⟨ht, hj⟩ := Prod.mk.injEq .. ▸ Option.some.inj h
                subst ht hj
                simp only [Bool.and_eq_true, decide_eq_true_eq,
                  Bool.not_eq_true'] at hhex
                obtain ⟨⟨hc0, hcx⟩, hhne⟩ := hhex
                subst hc0
                have hlt2 := get?_lt s (skipWs s i + 1) 'x' hcx
                have hb := runOf_le isHexDigitChar s (skipWs s i + 2) (by omega)
                have hrun : runOf isHexDigitChar s (skipWs s i + 2)
                    = natSlice s (skipWs s i + 2)
                        (skipWs s i + 2 + (runOf isHexDigitChar s (skipWs s i + 2)).length) :=
                  runOf_slice isHexDigitChar s (skipWs s i + 2)
                have hval : ('0' :: 'x' :: runOf isHexDigitChar s (skipWs s i + 2) : Str)
                    = natSlice s (skipWs s i)
                        (skipWs s i + 2 + (runOf isHexDigitChar s (skipWs s i + 2)).length) := by
                  refine natSlice_cons_char s (skipWs s i) '0' _ _ hc ?_ (by omega)
                  refine natSlice_cons_char s (skipWs s i + 1) 'x' _ _ hcx ?_ (by omega)
                  rw [show skipWs s i + 1 + 1 = skipWs s i + 2 by omega]
                  exact hrun
                have hspan := @listSpan_single s i (skipWs s i)
                  (mkTok "HEXNUMBER" ('0' :: 'x' :: runOf isHexDigitChar s (skipWs s i + 2))
                    (skipWs s i))
                  (by simp only [mkTok]; omega)
                  (by simp only [mkTok]; omega)
                  (by simp only [mkTok, List.length_cons]; omega)
                  (by simp only [mkTok, List.length_cons]
                      rw [show skipWs s i + 1 - 1 = skipWs s i by omega,
                        show skipWs s i + ((runOf isHexDigitChar s (skipWs s i + 2)).length + 1 + 1) + 1 - 1
                          = skipWs s i + 2 + (runOf isHexDigitChar s (skipWs s i + 2)).length by omega]
                      exact hval) hsge
                rw [show (mkTok "HEXNUMBER"
                    ('0' :: 'x' :: runOf isHexDigitChar s (skipWs s i + 2))
                    (skipWs s i)).endColumn - 1
                    = skipWs s i + (runOf isHexDigitChar s (skipWs s i + 2)).length + 2 by
                      simp only [mkTok, List.length_cons]; omega] at hspan
                refine ⟨?_, by omega, ?_⟩
                · exact hspan
                · exact ⟨_, _, rfl, by simp [mkTok]⟩
              · rw [if_neg hhex] at h
                by_cases hne : (lexNumber s (skipWs s i)).isEmpty = true
                · rw [if_pos hne] at h; cases h
                · rw [if_neg hne] at h
                  obtain ⟨ht, hj⟩ := Prod.mk.injEq .. ▸ Option.some.inj h
                  subst ht hj
                  rcases lexNumber_sound s (skipWs s i) with h0 | ⟨r1, r2⟩
                  · rw [h0] at hne; simp at hne
                  · have hspan := @listSpan_single s i (skipWs s i)
                      (mkTok "NUMBER" (lexNumber s (skipWs s i)) (skipWs s i))
                      (by simp only [mkTok]; omega)
                      (by simp only [mkTok]; omega)
                      (by simp only [mkTok]; omega)
                      (by simp only [mkTok]
                          rw [show skipWs s i + 1 - 1 = skipWs s i by omega,
                            show skipWs s i + (lexNumber s (skipWs s i)).length + 1 - 1
                              = skipWs s i + (lexNumber s (skipWs s i)).length by omega]
                          exact r1) hsge
                    rw [show (mkTok "NUMBER" (lexNumber s (skipWs s i))
                        (skipWs s i)).endColumn - 1
                        = skipWs s i + (lexNumber s (skipWs s i)).length by
                          simp [mkTok]] at hspan
                    refine ⟨?_, by omega, ?_⟩
                    · exact hspan
                    · exact ⟨_, _, rfl, by simp [mkTok]⟩

/-- Soundness of the mutual `type`/`core_type`/`typelist` parsers, by fuel
induction. -/
theorem parse_trio_sound : ∀ fuel : Nat,
    (∀ s i t j, i ≤ s.length → parse_type fuel s i = some (t, j) →
      parserSound s i t j) ∧
    (∀ s i t j, i ≤ s.length → parse_core_type fuel s i = some (t, j) →
      parserSound s i t j) ∧
    (∀ s i t j, i ≤ s.length → parse_typelist fuel s i = some (t, j) →
      parserSound s i t j) := by
  intro fuel
  induction fuel with
  | zero =>
    refine ⟨fun s i t j _ h => ?_, fun s i t j _ h => ?_, fun s i t j _ h => ?_⟩
    · simp [parse_type] at h
    · simp [parse_core_type] at h
    · simp [parse_typelist] at h
  | succ f ih =>
    obtain ⟨ihT, ihC, ihL⟩ := ih
    refine ⟨fun s i t j hi h => ?_, fun s i t j hi h => ?_, fun s i t j hi h => ?_⟩
    · -- parse_type
      simp only [parse_type] at h
      have hsge := skipWs_ge s i
      have hsle := skipWs_le s i hi
      have hb := runOf_le isTnameChar s (skipWs s i) hsle
      by_cases hconst : runOf isTnameChar s (skipWs s i) = "const".data
      · rw [if_pos hconst] at h
        rcases hcore : parse_core_type f s
            (skipWs s i + (runOf isTnameChar s (skipWs s i)).length) with _ | ⟨core, j0⟩
        · rw [hcore] at h; cases h
        · rw [hcore] at h
          dsimp only at h
          obtain ⟨spanC, hj0, tkC, restC, htoksC, hcolC⟩ :=
            ihC s _ core j0 hb hcore
          have p1 := runTok_span "CONST" isTnameChar s i (skipWs s i) hsge hsle
          rcases href : parse_refspec s j0 with _ | ⟨r, k⟩
          · rw [href] at h
            dsimp only at h
            obtain ⟨ht, hj⟩ := Prod.mk.injEq .. ▸ Option.some.inj h
            subst ht hj
            refine ⟨?_, hj0, ?_⟩
            · have htk : nodeTokens (.tree "type".data
                  [.token (mkTok "CONST" (runOf isTnameChar s (skipWs s i)) (skipWs s i)),
                   core])
                  = [mkTok "CONST" (runOf isTnameChar s (skipWs s i)) (skipWs s i)]
                      ++ nodeTokens core := by
                simp [nodeTokens, nodeTokens.nodeTokensList]
              rw [htk]
              exact listSpan_append p1 spanC
            · exact ⟨_, nodeTokens core ++ [], rfl, by simp [mkTok]⟩
          · rw [href] at h
            dsimp only at h
            obtain ⟨ht, hj⟩ := Prod.mk.injEq .. ▸ Option.some.inj h
            subst ht hj
            obtain ⟨spanR, hk, _⟩ := parse_refspec_sound s j0 r k hj0 href
            refine ⟨?_, hk, ?_⟩
            · have htk : nodeTokens (.tree "type".data
                  [.token (mkTok "CONST" (runOf isTnameChar s (skipWs s i)) (skipWs s i)),
                   core, r])
                  = ([mkTok "CONST" (runOf isTnameChar s (skipWs s i)) (skipWs s i)]
                      ++ nodeTokens core) ++ nodeTokens r := by
                simp [nodeTokens, nodeTokens.nodeTokensList]
              rw [htk]
              exact listSpan_append (listSpan_append p1 spanC) spanR
            · exact ⟨_, nodeTokens core ++ (nodeTokens r ++ []), rfl, by simp [mkTok]⟩
      · rw [if_neg hconst] at h
        rcases hcore : parse_core_type f s (skipWs s i) with _ | ⟨core, j0⟩
        · rw [hcore] at h; cases h
        · rw [hcore] at h
          dsimp only at h
          obtain ⟨spanC, hj0, tkC, restC, htoksC, hcolC⟩ :=
            ihC s (skipWs s i) core j0 hsle hcore
          rw [skipWs_idem s i] at hcolC
          have spanC' : listSpan s i (nodeTokens core) j0 := by
            rw [htoksC]
            exact listSpan_weaken (htoksC ▸ spanC) hsge
          rcases href : parse_refspec s j0 with _ | ⟨r, k⟩
          · rw [href] at h
            dsimp only at h
            obtain ⟨ht, hj⟩ := Prod.mk.injEq .. ▸ Option.some.inj h
            subst ht hj
            refine ⟨?_, hj0, ?_⟩
            · have htk : nodeTokens (.tree "type".data [core])
                  = nodeTokens core := by
                simp [nodeTokens, nodeTokens.nodeTokensList]
              rw [htk]
              exact spanC'
            · refine ⟨tkC, restC ++ [], ?_, hcolC⟩
              show nodeTokens core ++ [] = _
              rw [htoksC]
              rfl
          · rw [href] at h
            dsimp only at h
            obtain ⟨ht, hj⟩ := Prod.mk.injEq .. ▸ Option.some.inj h
            subst ht hj
            obtain ⟨spanR, hk, _⟩ := parse_refspec_sound s j0 r k hj0 href
            refine ⟨?_, hk, ?_⟩
            · have htk : nodeTokens (.tree "type".data [core, r])
                  = nodeTokens core ++ nodeTokens r := by
                simp [nodeTokens, nodeTokens.nodeTokensList]
              rw [htk]
              exact listSpan_append spanC' spanR
            · refine ⟨tkC, restC ++ (nodeTokens r ++ []), ?_, hcolC⟩
              show nodeTokens core ++ (nodeTokens r ++ []) = _
              rw [htoksC]
              rfl
    · -- parse_core_type
      simp only [parse_core_type] at h
      have hsge := skipWs_ge s i
      have hsle := skipWs_le s i hi
      have hb := runOf_le isTnameChar s (skipWs s i) hsle
      by_cases hrune : (runOf isTnameChar s (skipWs s i)).isEmpty = true
      · rw [if_pos hrune] at h; cases h
      · rw [if_neg hrune] at h
        have p1 := runTok_span "TNAME" isTnameChar s i (skipWs s i) hsge hsle
        have hsge2 := skipWs_ge s (skipWs s i + (runOf isTnameChar s (skipWs s i)).length)
        have hsle2 := skipWs_le s
          (skipWs s i + (runOf isTnameChar s (skipWs s i)).length) hb
        rcases hck : s.get?
            (skipWs s (skipWs s i + (runOf isTnameChar s (skipWs s i)).length))
            with _ | c
        · rw [hck] at h
          dsimp only at h
          obtain ⟨ht, hj⟩ := Prod.mk.injEq .. ▸ Option.some.inj h
          subst ht hj
          refine ⟨?_, hb, ?_⟩
          · have htk : nodeTokens (.tree "core_type".data
                [.token (mkTok "TNAME" (runOf isTnameChar s (skipWs s i)) (skipWs s i))])
                = [mkTok "TNAME" (runOf isTnameChar s (skipWs s i)) (skipWs s i)] := by
              simp [nodeTokens, nodeTokens.nodeTokensList]
            rw [htk]
            exact p1
          · exact ⟨_, [], rfl, by simp [mkTok]⟩
        · rw [hck] at h
          dsimp only at h
          have hklt := get?_lt s _ c hck
          by_cases hlt' : c = '<'
          · rw [if_pos hlt'] at h
            rcases htl : parse_typelist f s
                (skipWs s (skipWs s i + (runOf isTnameChar s (skipWs s i)).length) + 1)
                with _ | ⟨tl, m⟩
            · rw [htl] at h; cases h
            · rw [htl] at h
              dsimp only at h
              obtain ⟨spanL, hm, _⟩ := ihL s _ tl m (by omega) htl
              rcases hcg : s.get? (skipWs s m) with _ | c2
              · rw [hcg] at h; cases h
              · rw [hcg] at h
                dsimp only at h
                by_cases hgt : c2 = '>'
                · rw [if_pos hgt] at h
                  obtain ⟨ht, hj⟩ := Prod.mk.injEq .. ▸ Option.some.inj h
                  subst hlt' hgt ht hj
                  have hglt := get?_lt s (skipWs s m) _ hcg
                  have pLT := charTok_span "LT" s
                    (skipWs s i + (runOf isTnameChar s (skipWs s i)).length) _ '<'
                    hsge2 hck
                  have pGT := charTok_span "GT" s m (skipWs s m) '>'
                    (skipWs_ge s m) hcg
                  refine ⟨?_, by omega, ?_⟩
                  · have htk : nodeTokens (.tree "core_type".data
                        [.tree "template".data
                          [.token (mkTok "TNAME" (runOf isTnameChar s (skipWs s i))
                              (skipWs s i)),
                           .token (mkTok "LT" ['<']
                              (skipWs s (skipWs s i +
                                (runOf isTnameChar s (skipWs s i)).length))),
                           tl,
                           .token (mkTok "GT" ['>'] (skipWs s m))]])
                        = (([mkTok "TNAME" (runOf isTnameChar s (skipWs s i)) (skipWs s i)]
                            ++ [mkTok "LT" ['<']
                                (skipWs s (skipWs s i +
                                  (runOf isTnameChar s (skipWs s i)).length))])
                            ++ nodeTokens tl)
                            ++ [mkTok "GT" ['>'] (skipWs s m)] := by
                      simp [nodeTokens, nodeTokens.nodeTokensList]
                    rw [htk]
                    exact listSpan_append (listSpan_append (listSpan_append p1 pLT)
                      spanL) pGT
                  · exact ⟨_, _, rfl, by simp [mkTok]⟩
                · rw [if_neg hgt] at h
                  cases h
          · rw [if_neg hlt'] at h
            obtain ⟨ht, hj⟩ := Prod.mk.injEq .. ▸ Option.some.inj h
            subst ht hj
            refine ⟨?_, hb, ?_⟩
            · have htk : nodeTokens (.tree "core_type".data
                  [.token (mkTok "TNAME" (runOf isTnameChar s (skipWs s i)) (skipWs s i))])
                  = [mkTok "TNAME" (runOf isTnameChar s (skipWs s i)) (skipWs s i)] := by
                simp [nodeTokens, nodeTokens.nodeTokensList]
              rw [htk]
              exact p1
            · exact ⟨_, [], rfl, by simp [mkTok]⟩
    · -- parse_typelist
      simp only [parse_typelist] at h
      rcases hty : parse_type f s i with _ | ⟨ty, j0⟩
      · rw [hty] at h; cases h
      · rw [hty] at h
        dsimp only at h
        obtain ⟨spanT, hj0, tkT, restT, htoksT, hcolT⟩ := ihT s i ty j0 hi hty
        rcases hck : s.get? (skipWs s j0) with _ | c
        · rw [hck] at h
          dsimp only at h
          obtain ⟨ht, hj⟩ := Prod.mk.injEq .. ▸ Option.some.inj h
          subst ht hj
          refine ⟨?_, hj0, ?_⟩
          · have htk : nodeTokens (.tree "typelist".data [ty]) = nodeTokens ty := by
              simp [nodeTokens, nodeTokens.nodeTokensList]
            rw [htk]
            exact spanT
          · refine ⟨tkT, restT ++ [], ?_, hcolT⟩
            show nodeTokens ty ++ [] = _
            rw [htoksT]
            rfl
        · rw [hck] at h
          dsimp only at h
          have hklt := get?_lt s _ c hck
          by_cases hcm : c = ','
          · rw [if_pos hcm] at h
            rcases hrest : parse_typelist f s (skipWs s j0 + 1) with _ | ⟨rest, m⟩
            · rw [hrest] at h; cases h
            · rw [hrest] at h
              obtain ⟨ht, hj⟩ := Prod.mk.injEq .. ▸ Option.some.inj h
              subst hcm ht hj
              obtain ⟨spanR, hm, _⟩ := ihL s (skipWs s j0 + 1) rest m (by omega) hrest
              have pC := charTok_span "COMMA" s j0 (skipWs s j0) ','
                (skipWs_ge s j0) hck
              refine ⟨?_, hm, ?_⟩
              · have htk : nodeTokens (.tree "typelist".data
                    [ty, .token (mkTok "COMMA" [','] (skipWs s j0)), rest])
                    = (nodeTokens ty ++ [mkTok "COMMA" [','] (skipWs s j0)])
                        ++ nodeTokens rest := by
                  simp [nodeTokens, nodeTokens.nodeTokensList]
                rw [htk]
                exact listSpan_append (listSpan_append spanT pC) spanR
              · refine ⟨tkT, restT ++ ([mkTok "COMMA" [','] (skipWs s j0)]
                    ++ (nodeTokens rest ++ [])), ?_, hcolT⟩
                show nodeTokens ty ++ ([mkTok "COMMA" [','] (skipWs s j0)]
                    ++ (nodeTokens rest ++ [])) = _
                rw [htoksT]
                rfl
          · rw [if_neg hcm] at h
            obtain ⟨ht, hj⟩ := Prod.mk.injEq .. ▸ Option.some.inj h
            subst ht hj
            refine ⟨?_, hj0, ?_⟩
            · have htk : nodeTokens (.tree "typelist".data [ty]) = nodeTokens ty := by
                simp [nodeTokens, nodeTokens.nodeTokensList]
              rw [htk]
              exact spanT
            · refine ⟨tkT, restT ++ [], ?_, hcolT⟩
              show nodeTokens ty ++ [] = _
              rw [htoksT]
              rfl

/-- `param` soundness. -/
theorem parse_param_sound (fuel : Nat) (s : Str) (i : Nat) (t : Node) (j : Nat)
    (hi : i ≤ s.length) (h : parse_param fuel s i = some (t, j)) :
    parserSound s i t j := by
  simp only [parse_param] at h
  rcases hty : parse_type fuel s i with _ | ⟨ty, j0⟩
  · rw [hty] at h; cases h
  · rw [hty] at h
    dsimp only at h
    obtain ⟨spanT, hj0, tkT, restT, htoksT, hcolT⟩ :=
      (parse_trio_sound fuel).1 s i ty j0 hi hty
    rcases hcn : lex_cname s j0 with _ | ⟨nm, k⟩
    · rw [hcn] at h; cases h
    · rw [hcn] at h
      dsimp only at h
      obtain ⟨spanN, hk, _⟩ := lex_cname_sound s j0 nm k hj0 hcn
      rcases hcm : s.get? (skipWs s k) with _ | c
      · rw [hcm] at h
        dsimp only at h
        obtain ⟨ht, hj⟩ := Prod.mk.injEq .. ▸ Option.some.inj h
        subst ht hj
        refine ⟨?_, hk, ?_⟩
        · have htk : nodeTokens (.tree "param".data
              [ty, .tree "param_name".data [.token nm]])
              = nodeTokens ty ++ [nm] := by
            simp [nodeTokens, nodeTokens.nodeTokensList]
          rw [htk]
          exact listSpan_append spanT spanN
        · refine ⟨tkT, restT ++ ([nm] ++ []), ?_, hcolT⟩
          show nodeTokens ty ++ ([nm] ++ []) = _
          rw [htoksT]
          rfl
      · rw [hcm] at h
        dsimp only at h
        have hmlt := get?_lt s _ c hcm
        by_cases heq : c = '='
        · rw [if_pos heq] at h
          rcases hiv : parse_init_value s (skipWs s k + 1) with _ | ⟨iv, q⟩
          · rw [hiv] at h; cases h
          · rw [hiv] at h
            dsimp only at h
            obtain ⟨ht, hj⟩ := Prod.mk.injEq .. ▸ Option.some.inj h
            subst heq ht hj
            obtain ⟨spanIV, hq, _⟩ :=
              parse_init_value_sound s (skipWs s k + 1) iv q (by omega) hiv
            have pEQ := charTok_span "EQUAL" s k (skipWs s k) '='
              (skipWs_ge s k) hcm
            refine ⟨?_, hq, ?_⟩
            · have htk : nodeTokens (.tree "param".data
                  [ty, .tree "param_name".data [.token nm],
                   .tree "param_defval".data
                     [.token (mkTok "EQUAL" ['='] (skipWs s k)), iv]])
                  = ((nodeTokens ty ++ [nm])
                      ++ [mkTok "EQUAL" ['='] (skipWs s k)]) ++ nodeTokens iv := by
                simp [nodeTokens, nodeTokens.nodeTokensList]
              rw [htk]
              exact listSpan_append (listSpan_append (listSpan_append spanT spanN)
                pEQ) spanIV
            · refine ⟨tkT, restT ++ (([nm] ++ [])
                  ++ (([mkTok "EQUAL" ['='] (skipWs s k)] ++ (nodeTokens iv ++ []))
                    ++ [])), ?_, hcolT⟩
              show nodeTokens ty ++ (([nm] ++ [])
                  ++ (([mkTok "EQUAL" ['='] (skipWs s k)] ++ (nodeTokens iv ++ []))
                    ++ [])) = _
              rw [htoksT]
              rfl
        · rw [if_neg heq] at h
          obtain ⟨ht, hj⟩ := Prod.mk.injEq .. ▸ Option.some.inj h
          subst ht hj
          refine ⟨?_, hk, ?_⟩
          · have htk : nodeTokens (.tree "param".data
                [ty, .tree "param_name".data [.token nm]])
                = nodeTokens ty ++ [nm] := by
              simp [nodeTokens, nodeTokens.nodeTokensList]
            rw [htk]
            exact listSpan_append spanT spanN
          · refine ⟨tkT, restT ++ ([nm] ++ []), ?_, hcolT⟩
            show nodeTokens ty ++ ([nm] ++ []) = _
            rw [htoksT]
            rfl

/-- `params` soundness. -/
theorem parse_params_sound : ∀ (fuel : Nat) (s : Str) (i : Nat) (t : Node) (j : Nat),
    i ≤ s.length → parse_params fuel s i = some (t, j) → parserSound s i t j := by
  intro fuel
  induction fuel with
  | zero => intro s i t j _ h; simp [parse_params] at h
  | succ f ih =>
    intro s i t j hi h
    simp only [parse_params] at h
    rcases hp : parse_param f s i with _ | ⟨p, j0⟩
    · rw [hp] at h; cases h
    · rw [hp] at h
      dsimp only at h
      obtain ⟨spanP, hj0, tkP, restP, htoksP, hcolP⟩ :=
        parse_param_sound f s i p j0 hi hp
      rcases hck : s.get? (skipWs s j0) with _ | c
      · rw [hck] at h
        dsimp only at h
        obtain ⟨ht, hj⟩ := Prod.mk.injEq .. ▸ Option.some.inj h
        subst ht hj
        refine ⟨?_, hj0, ?_⟩
        · have htk : nodeTokens (.tree "params".data [p]) = nodeTokens p := by
            simp [nodeTokens, nodeTokens.nodeTokensList]
          rw [htk]
          exact spanP
        · refine ⟨tkP, restP ++ [], ?_, hcolP⟩
          show nodeTokens p ++ [] = _
          rw [htoksP]
          rfl
      · rw [hck] at h
        dsimp only at h
        have hklt := get?_lt s _ c hck
        by_cases hcm : c = ','
        · rw [if_pos hcm] at h
          rcases hrest : parse_params f s (skipWs s j0 + 1) with _ | ⟨rest, m⟩
          · rw [hrest] at h; cases h
          · rw [hrest] at h
            obtain ⟨ht, hj⟩ := Prod.mk.injEq .. ▸ Option.some.inj h
            subst hcm ht hj
            obtain ⟨spanR, hm, _⟩ := ih s (skipWs s j0 + 1) rest m (by omega) hrest
            have pC := charTok_span "COMMA" s j0 (skipWs s j0) ','
              (skipWs_ge s j0) hck
            refine ⟨?_, hm, ?_⟩
            · have htk : nodeTokens (.tree "params".data
                  [p, .token (mkTok "COMMA" [','] (skipWs s j0)), rest])
                  = (nodeTokens p ++ [mkTok "COMMA" [','] (skipWs s j0)])
                      ++ nodeTokens rest := by
                simp [nodeTokens, nodeTokens.nodeTokensList]
              rw [htk]
              exact listSpan_append (listSpan_append spanP pC) spanR
            · refine ⟨tkP, restP ++ ([mkTok "COMMA" [','] (skipWs s j0)]
                  ++ (nodeTokens rest ++ [])), ?_, hcolP⟩
              show nodeTokens p ++ ([mkTok "COMMA" [','] (skipWs s j0)]
                  ++ (nodeTokens rest ++ [])) = _
              rw [htoksP]
              rfl
        · rw [if_neg hcm] at h
          obtain ⟨ht, hj⟩ := Prod.mk.injEq .. ▸ Option.some.inj h
          subst ht hj
          refine ⟨?_, hj0, ?_⟩
          · have htk : nodeTokens (.tree "params".data [p]) = nodeTokens p := by
              simp [nodeTokens, nodeTokens.nodeTokensList]
            rw [htk]
            exact spanP
          · refine ⟨tkP, restP ++ [], ?_, hcolP⟩
            show nodeTokens p ++ [] = _
            rw [htoksP]
            rfl

/-- `start` soundness: the token run is well-formed from position 0, the
first token starts right after the leading whitespace, and only whitespace
follows the last token. -/
theorem parse_start_sound (s : Str) (t : Node) (h : parse_start s = some t) :
    ∃ E, listSpan s 0 (nodeTokens t) E ∧ E ≤ s.length ∧ skipWs s E = s.length ∧
      ∃ tk rest, nodeTokens t = tk :: rest ∧ tk.column = skipWs s 0 + 1 := by
  simp only [parse_start] at h
  rcases hty : parse_type (s.length + 1) s 0 with _ | ⟨ty, i0⟩
  · rw [hty] at h; cases h
  · rw [hty] at h
    dsimp only at h
    obtain ⟨spanT, hi0, tkT, restT, htoksT, hcolT⟩ :=
      (parse_trio_sound (s.length + 1)).1 s 0 ty i0 (Nat.zero_le _) hty
    rcases hcn : lex_cname s i0 with _ | ⟨fnTok, j0⟩
    · rw [hcn] at h; cases h
    · rw [hcn] at h
      dsimp only at h
      obtain ⟨spanN, hj0, _⟩ := lex_cname_sound s i0 fnTok j0 hi0 hcn
      rcases hck : s.get? (skipWs s j0) with _ | c
      · rw [hck] at h; cases h
      · rw [hck] at h
        dsimp only at h
        have hklt := get?_lt s _ c hck
        by_cases hlp : c = '('
        · rw [if_pos hlp] at h
          rcases hps : parse_params (s.length + 1) s (skipWs s j0 + 1)
              with _ | ⟨ps, m⟩
          · rw [hps] at h; cases h
          · rw [hps] at h
            dsimp only at h
            obtain ⟨spanP, hm, _⟩ :=
              parse_params_sound (s.length + 1) s (skipWs s j0 + 1) ps m
                (by omega) hps
            rcases hcg : s.get? (skipWs s m) with _ | c2
            · rw [hcg] at h; cases h
            · rw [hcg] at h
              dsimp only at h
              have hglt := get?_lt s _ c2 hcg
              by_cases hrp : c2 = ')'
              · rw [if_pos hrp] at h
                rcases hend : s.get? (skipWs s (skipWs s m + 1)) with _ | c3
                · rw [hend] at h
                  dsimp only at h
                  obtain ht := Option.some.inj h
                  subst hlp hrp ht
                  have pLP := charTok_span "LPAR" s j0 (skipWs s j0) '('
                    (skipWs_ge s j0) hck
                  have pRP := charTok_span "RPAR" s m (skipWs s m) ')'
                    (skipWs_ge s m) hcg
                  have hendge : s.length ≤ skipWs s (skipWs s m + 1) :=
                    by have := List.get?_eq_none.mp hend; omega
                  have hendle : skipWs s (skipWs s m + 1) ≤ s.length :=
                    skipWs_le s (skipWs s m + 1) (by omega)
                  refine ⟨skipWs s m + 1, ?_, by omega, by omega, ?_⟩
                  · have htk : nodeTokens (.tree "start".data
                        [ty, .tree "fnname".data [.token fnTok],
                         .token (mkTok "LPAR" ['('] (skipWs s j0)), ps,
                         .token (mkTok "RPAR" [')'] (skipWs s m))])
                        = (((nodeTokens ty ++ [fnTok])
                            ++ [mkTok "LPAR" ['('] (skipWs s j0)])
                            ++ nodeTokens ps)
                            ++ [mkTok "RPAR" [')'] (skipWs s m)] := by
                      simp [nodeTokens, nodeTokens.nodeTokensList]
                    rw [htk]
                    exact listSpan_append (listSpan_append (listSpan_append
                      (listSpan_append spanT spanN) pLP) spanP) pRP
                  · refine ⟨tkT, restT ++ (([fnTok] ++ [])
                        ++ ([mkTok "LPAR" ['('] (skipWs s j0)]
                          ++ (nodeTokens ps
                            ++ ([mkTok "RPAR" [')'] (skipWs s m)] ++ [])))),
                      ?_, hcolT⟩
                    show nodeTokens ty ++ (([fnTok] ++ [])
                        ++ ([mkTok "LPAR" ['('] (skipWs s j0)]
                          ++ (nodeTokens ps
                            ++ ([mkTok "RPAR" [')'] (skipWs s m)] ++ [])))) = _
                    rw [htoksT]
                    rfl
                · rw [hend] at h; cases h
              · rw [if_neg hrp] at h
                cases h
        · rw [if_neg hlp] at h
          cases h

/-- The first advance from the −1 sentinel equals the advance from cursor 0
when the token starts at column 1. -/
theorem advance_neg_one (s v : Str) (tk : Tok) (hcol : tk.column = 1) :
    StringEmit.advance { sref := s, sval := v, pos := -1 } tk
      = StringEmit.advance { sref := s, sval := v, pos := ((0 : Nat) : Int) } tk := by
  simp only [StringEmit.advance, hcol]
  norm_num

/-- Identity emission reconstructs an accepted signature text that has no
leading and no trailing whitespace. -/
theorem rewrite_sig_identity (s : Str) (t : Node)
    (hp : parse_start s = some t)
    (hlead : s.takeWhile isWsChar = [])
    (htrail : s.reverse.takeWhile isWsChar = []) :
    rewrite_sig t s idPolicy = s := by
  obtain ⟨E, ⟨hok, hlast⟩, hE, hskip, tk, rest, htoks, hcol⟩ :=
    parse_start_sound s t hp
  have hsw0 : skipWs s 0 = 0 := by
    simp [skipWs, hlead]
  rw [hsw0] at hcol
  have hEeq : E = s.length := by
    by_contra hne
    have hlen : ((s.drop E).takeWhile isWsChar).length = (s.drop E).length := by
      have hdef : skipWs s E = E + ((s.drop E).takeWhile isWsChar).length := rfl
      rw [hdef] at hskip
      rw [List.length_drop]
      omega
    have hpre : (s.drop E).takeWhile isWsChar <+: s.drop E :=
      List.takeWhile_prefix _
    have hall : (s.drop E).takeWhile isWsChar = s.drop E :=
      hpre.eq_of_length hlen
    have hmemws : ∀ c ∈ s.drop E, isWsChar c = true := by
      intro c hcmem
      rw [← hall] at hcmem
      exact List.mem_takeWhile_imp hcmem
    rcases hdrop : s.drop E with _ | ⟨d, ds⟩
    · have hl0 : (s.drop E).length = 0 := by rw [hdrop]; rfl
      rw [List.length_drop] at hl0
      omega
    · have hsrev : s.reverse = (s.drop E).reverse ++ (s.take E).reverse := by
        rw [← List.reverse_append, List.take_append_drop]
      rcases hrev : (d :: ds).reverse with _ | ⟨r0, rtl⟩
      · exact absurd hrev (by simp)
      · have hr0 : isWsChar r0 = true := by
          have hmem : r0 ∈ (d :: ds).reverse := by
            rw [hrev]
            exact List.mem_cons_self _ _
          rw [List.mem_reverse] at hmem
          refine hmemws r0 ?_
          rw [hdrop]
          exact hmem
        have hcontra : s.reverse.takeWhile isWsChar ≠ [] := by
          rw [hsrev, hdrop, hrev, List.cons_append, List.takeWhile_cons, hr0]
          simp
        exact hcontra htrail
  subst hEeq
  have hcol1 : tk.column = 1 := by omega
  have hok' : toksOK s 0 (tk :: rest) = true := by rw [← htoks]; exact hok
  have hlast' : lastEndFrom 0 (tk :: rest) = s.length := by
    rw [← htoks]
    exact hlast
  simp only [rewrite_sig]
  rw [emit_id, htoks]
  have hstep : advanceAll { sref := s, sval := ([] : Str), pos := -1 } (tk :: rest)
      = advanceAll { sref := s, sval := ([] : Str), pos := ((0 : Nat) : Int) }
          (tk :: rest) := by
    show advanceAll (StringEmit.advance { sref := s, sval := [], pos := -1 } tk) rest
        = advanceAll (StringEmit.advance
            { sref := s, sval := [], pos := ((0 : Nat) : Int) } tk) rest
    rw [advance_neg_one s [] tk hcol1]
  rw [hstep, advanceAll_reconstruct s (tk :: rest) 0 [] hok' (Nat.zero_le _)]
  rw [hlast']
  simp [natSlice_full]

/-- C7 (amended): for every signature accepted by the grammar with no
leading and no trailing whitespace, emitting its token-complete parse tree
with the identity policy reproduces the original text byte-for-byte.
(The original claim omits the trailing-whitespace condition.) -/
theorem C7_identity_amended (s : Str) (t : Node)
    (hp : parse_start s = some t)
    (hlead : s.takeWhile isWsChar = [])
    (htrail : s.reverse.takeWhile isWsChar = []) :
    rewrite_sig t s idPolicy = s :=
  rewrite_sig_identity s t hp hlead htrail

/-- C7 counterexample: `"Tensor f(Tensor a) "` (trailing blank) is accepted
by the grammar and has no leading whitespace, yet identity emission drops
the trailing blank, so the input is not reproduced byte-for-byte. -/
theorem C7_identity_counterexample :
    (parse_start "Tensor f(Tensor a) ".data).map
        (fun u => rewrite_sig u "Tensor f(Tensor a) ".data idPolicy)
      = some ("Tensor f(Tensor a)".data) ∧
    ("Tensor f(Tensor a) ".data).takeWhile isWsChar = [] ∧
    "Tensor f(Tensor a)".data ≠ "Tensor f(Tensor a) ".data := by
  exact ⟨by rfl, by rfl, by decide⟩

/-- Witness for `C7_identity_amended` at the whitespace-free signature
`"Tensor f(Tensor a)"`. -/
theorem C7_identity_amended_witness :
    rewrite_sig c7w_tree c7w_sig idPolicy = c7w_sig :=
  C7_identity_amended c7w_sig c7w_tree (by rfl) (by rfl) (by rfl)

/-! ## C2: what the namespace rewrite preserves -/

mutual
/-- Token rewriting maps the token sequence pointwise. -/
theorem nodeTokens_mapTokens (f : Tok → Tok) : ∀ t : Node,
    nodeTokens (mapTokens f t) = (nodeTokens t).map f
  | .token tk => rfl
  | .tree d cs => by
    show nodeTokens.nodeTokensList (mapTokens.mapTokensList f cs)
        = (nodeTokens.nodeTokensList cs).map f
    exact nodeTokensList_mapTokensList f cs

/-- List version of `nodeTokens_mapTokens`. -/
theorem nodeTokensList_mapTokensList (f : Tok → Tok) : ∀ cs : List Node,
    nodeTokens.nodeTokensList (mapTokens.mapTokensList f cs)
      = (nodeTokens.nodeTokensList cs).map f
  | [] => rfl
  | c :: cs => by
    show nodeTokens (mapTokens f c)
        ++ nodeTokens.nodeTokensList (mapTokens.mapTokensList f cs) = _
    rw [nodeTokens_mapTokens f c, nodeTokensList_mapTokensList f cs,
      show nodeTokens.nodeTokensList (c :: cs)
        = nodeTokens c ++ nodeTokens.nodeTokensList cs from rfl,
      List.map_append]
end

/-- C2 (corrected).  The namespace rewrite maps the in-order token
sequence pointwise; the pointwise map keeps every terminal type and span
and changes only `TNAME` (type-name) token values, so parameter count and
order (the `CNAME`/`COMMA` structure) are preserved — but default-value
clauses are dropped from the emitted text (`param_defval` subtrees are
skipped), as the example shows: `bool b = true` is re-emitted as `bool b`.
The original claim that every default-value literal is preserved is
false. -/
theorem C2_rewrite_amended (tmap : List (Str × Str)) (t : Node) :
    nodeTokens (mapTokens (tmapRewrite tmap) t)
      = (nodeTokens t).map (tmapRewrite tmap) ∧
    (∀ tk : Tok, (tmapRewrite tmap tk).ttype = tk.ttype ∧
      (tmapRewrite tmap tk).column = tk.column ∧
      (tmapRewrite tmap tk).endColumn = tk.endColumn ∧
      (tk.ttype ≠ "TNAME".data → (tmapRewrite tmap tk).value = tk.value)) ∧
    rewrite_signature ("Tensor f(Tensor self, bool b = true)".data) TYPE_NSMAP
      = some ("at::Tensor f(at::Tensor self, bool b)".data) := by
  refine ⟨nodeTokens_mapTokens (tmapRewrite tmap) t, ?_, by rfl⟩
  intro tk
  simp only [tmapRewrite]
  by_cases hty : tk.ttype = "TNAME".data
  · rw [if_pos hty]
    rcases tmap.lookup tk.value with _ | v
    · exact ⟨rfl, rfl, rfl, fun _ => rfl⟩
    · exact ⟨rfl, rfl, rfl, fun hne => absurd hty hne⟩
  · rw [if_neg hty]
    exact ⟨rfl, rfl, rfl, fun _ => rfl⟩

/-- C2, counterexample: the rewrite of `Tensor f(Tensor self, bool b = true)`
loses the default-value literal `= true`. -/
theorem C2_rewrite_counterexample :
    rewrite_signature ("Tensor f(Tensor self, bool b = true)".data) []
      = some ("Tensor f(Tensor self, bool b)".data) ∧
    pyContains ("Tensor f(Tensor self, bool b = true)".data) ("= true".data) = true ∧
    pyContains ("Tensor f(Tensor self, bool b)".data) ("= true".data) = false := by
  exact ⟨by rfl, by rfl, by rfl⟩

/-! ## C8: second rewrite of a rewritten signature -/

mutual
/-- A token map that fixes every token of a tree fixes the tree. -/
theorem mapTokens_fix (f : Tok → Tok) : ∀ t : Node,
    (∀ tk ∈ nodeTokens t, f tk = tk) → mapTokens f t = t
  | .token tk => fun h => by
    show Node.token (f tk) = Node.token tk
    rw [h tk (by show tk ∈ [tk]; exact List.mem_singleton_self tk)]
  | .tree d cs => fun h => by
    show Node.tree d (mapTokens.mapTokensList f cs) = Node.tree d cs
    rw [mapTokensList_fix f cs (fun tk hm => h tk hm)]

/-- List version of `mapTokens_fix`. -/
theorem mapTokensList_fix (f : Tok → Tok) : ∀ cs : List Node,
    (∀ tk ∈ nodeTokens.nodeTokensList cs, f tk = tk) →
      mapTokens.mapTokensList f cs = cs
  | [] => fun _ => rfl
  | c :: cs => fun h => by
    show mapTokens f c :: mapTokens.mapTokensList f cs = c :: cs
    rw [mapTokens_fix f c (fun tk hm => h tk (by
        show tk ∈ nodeTokens c ++ nodeTokens.nodeTokensList cs
        exact List.mem_append_left _ hm)),
      mapTokensList_fix f cs (fun tk hm => h tk (by
        show tk ∈ nodeTokens c ++ nodeTokens.nodeTokensList cs
        exact List.mem_append_right _ hm))]
end

mutual
/-- On a `param_defval`-free tree the rewrite policy emits identically to
the identity policy. -/
theorem emit_rw_id (t : Node) : ∀ e : StringEmit, noDefval t = true →
    emit_string rwEmitFn t e = emit_string idPolicy t e
  | e, h => by
    conv_lhs => rw [emit_string.eq_def]
    conv_rhs => rw [emit_string.eq_def]
    cases t with
    | token tk => rfl
    | tree d cs =>
      simp only [noDefval, Bool.and_eq_true, bne_iff_ne] at h
      have hfn : rwEmitFn (.tree d cs) = 0 := by
        simp [rwEmitFn, h.1]
      dsimp only
      rw [hfn]
      simp only [idPolicy]
      norm_num
      exact emit_list_rw_id cs d e h.2

/-- List version of `emit_rw_id`. -/
theorem emit_list_rw_id (cs : List Node) : ∀ (d : Str) (e : StringEmit),
    noDefvalList cs = true →
      emit_string.emit_list rwEmitFn d cs e = emit_string.emit_list idPolicy d cs e
  | d, e, h => by
    match cs with
    | [] => rfl
    | c :: cs' =>
      simp only [noDefvalList, Bool.and_eq_true] at h
      show emit_string.emit_list rwEmitFn d cs' (emit_string rwEmitFn c e)
          = emit_string.emit_list idPolicy d cs' (emit_string idPolicy c e)
      rw [emit_rw_id c e h.1, emit_list_rw_id cs' d _ h.2]
end

/-- Conditional idempotence of the namespace rewrite: whenever the
once-rewritten text is accepted by the grammar again, with no alias key
left among its tokens, no default clause, and no leading or trailing
whitespace, the second rewrite returns it unchanged.  (The four side
conditions hold of every rewritten signature; they are discharged by
evaluation on concrete instances.) -/
theorem C8_idempotent_conditional (s out : Str) (t2 : Node)
    (h1 : rewrite_signature s TYPE_NSMAP = some out)
    (h2 : parse_start out = some t2)
    (h3 : ((nodeTokens t2).all fun tk =>
      if tk.ttype = "TNAME".data then (TYPE_NSMAP.lookup tk.value).isNone
      else true) = true)
    (h4 : noDefval t2 = true)
    (h5 : out.takeWhile isWsChar = [])
    (h6 : out.reverse.takeWhile isWsChar = []) :
    rewrite_signature out TYPE_NSMAP = some out := by
  simp only [rewrite_signature, h2, Option.map_some']
  have hfix : ∀ tk ∈ nodeTokens t2, tmapRewrite TYPE_NSMAP tk = tk := by
    intro tk hm
    have := List.all_eq_true.mp h3 tk hm
    simp only [tmapRewrite]
    by_cases hty : tk.ttype = "TNAME".data
    · rw [if_pos hty]
      rw [if_pos hty] at this
      rw [Option.isNone_iff_eq_none.mp this]
    · rw [if_neg hty]
  rw [mapTokens_fix _ t2 hfix]
  simp only [rewrite_sig]
  rw [emit_rw_id t2 _ h4]
  have := rewrite_sig_identity out t2 h2 h5 h6
  simp only [rewrite_sig] at this
  rw [this]

/-- The conditional idempotence instantiated on a rewritten signature:
the second rewrite of `at::Tensor add(at::Tensor a, at::Tensor b)` is the
identity. -/
theorem C8_idempotent_example :
    rewrite_signature c8_out TYPE_NSMAP = some c8_out :=
  C8_idempotent_conditional c8_src c8_out c8_tree (by rfl) (by rfl) (by rfl)
    (by rfl) (by rfl) (by rfl)

/-! ## C8, stage 1: accepted-shape derivations for parsed subtrees -/


/-- `parse_refspec` results carry an `AccRef` derivation. -/
theorem parse_refspec_acc (s : Str) (i : Nat) (t : Node) (j : Nat)
    (h : parse_refspec s i = some (t, j)) : AccRef s i t j := by
  simp only [parse_refspec] at h
  rcases hc : s.get? (skipWs s i) with _ | c
  · rw [hc] at h; cases h
  · rw [hc] at h
    dsimp only at h
    by_cases hamp : c = '&'
    · rw [if_pos hamp] at h
      obtain ⟨ht, hj⟩ := Prod.mk.injEq .. ▸ Option.some.inj h
      subst hamp ht hj
      exact AccRef.ref s i hc
    · rw [if_neg hamp] at h
      by_cases hstar : c = '*'
      · rw [if_pos hstar] at h
        obtain ⟨ht, hj⟩ := Prod.mk.injEq .. ▸ Option.some.inj h
        subst hstar ht hj
        exact AccRef.ptr s i hc
      · rw [if_neg hstar] at h
        cases h

/-- `parse_type`/`parse_core_type`/`parse_typelist` results carry shape
derivations. -/
theorem parse_trio_acc : ∀ fuel : Nat,
    (∀ s i t j, parse_type fuel s i = some (t, j) → AccT s i t j) ∧
    (∀ s i t j, parse_core_type fuel s i = some (t, j) → AccC s i t j) ∧
    (∀ s i t j, parse_typelist fuel s i = some (t, j) → AccL s i t j) := by
  intro fuel
  induction fuel with
  | zero =>
    refine ⟨fun s i t j h => ?_, fun s i t j h => ?_, fun s i t j h => ?_⟩
    · simp [parse_type] at h
    · simp [parse_core_type] at h
    · simp [parse_typelist] at h
  | succ f ih =>
    obtain ⟨ihT, ihC, ihL⟩ := ih
    refine ⟨fun s i t j h => ?_, fun s i t j h => ?_, fun s i t j h => ?_⟩
    · simp only [parse_type] at h
      by_cases hconst : runOf isTnameChar s (skipWs s i) = "const".data
      · rw [if_pos hconst] at h
        rcases hcore : parse_core_type f s
            (skipWs s i + (runOf isTnameChar s (skipWs s i)).length)
            with _ | ⟨core, j0⟩
        · rw [hcore] at h; cases h
        · rw [hcore] at h
          dsimp only at h
          rcases href : parse_refspec s j0 with _ | ⟨r, k⟩
          · rw [href] at h
            dsimp only at h
            obtain ⟨ht, hj⟩ := Prod.mk.injEq .. ▸ Option.some.inj h
            subst ht hj
            exact AccT.const_noref s i core j0 hconst (ihC s _ core j0 hcore)
          · rw [href] at h
            dsimp only at h
            obtain ⟨ht, hj⟩ := Prod.mk.injEq .. ▸ Option.some.inj h
            subst ht hj
            exact AccT.const_ref s i core j0 r k hconst (ihC s _ core j0 hcore)
              (parse_refspec_acc s j0 r k href)
      · rw [if_neg hconst] at h
        rcases hcore : parse_core_type f s (skipWs s i) with _ | ⟨core, j0⟩
        · rw [hcore] at h; cases h
        · rw [hcore] at h
          dsimp only at h
          rcases href : parse_refspec s j0 with _ | ⟨r, k⟩
          · rw [href] at h
            dsimp only at h
            obtain ⟨ht, hj⟩ := Prod.mk.injEq .. ▸ Option.some.inj h
            subst ht hj
            exact AccT.plain_noref s i core j0 hconst (ihC s _ core j0 hcore)
          · rw [href] at h
            dsimp only at h
            obtain ⟨ht, hj⟩ := Prod.mk.injEq .. ▸ Option.some.inj h
            subst ht hj
            exact AccT.plain_ref s i core j0 r k hconst (ihC s _ core j0 hcore)
              (parse_refspec_acc s j0 r k href)
    · simp only [parse_core_type] at h
      by_cases hrune : (runOf isTnameChar s (skipWs s i)).isEmpty = true
      · rw [if_pos hrune] at h; cases h
      · rw [if_neg hrune] at h
        have hne : runOf isTnameChar s (skipWs s i) ≠ [] := by
          intro hz
          rw [hz] at hrune
          simp at hrune
        rcases hck : s.get?
            (skipWs s (skipWs s i + (runOf isTnameChar s (skipWs s i)).length))
            with _ | c
        · rw [hck] at h
          dsimp only at h
          obtain ⟨ht, hj⟩ := Prod.mk.injEq .. ▸ Option.some.inj h
          subst ht hj
          exact AccC.tname s i hne
        · rw [hck] at h
          dsimp only at h
          by_cases hlt' : c = '<'
          · rw [if_pos hlt'] at h
            rcases htl : parse_typelist f s
                (skipWs s (skipWs s i + (runOf isTnameChar s (skipWs s i)).length) + 1)
                with _ | ⟨tl, m⟩
            · rw [htl] at h; cases h
            · rw [htl] at h
              dsimp only at h
              rcases hcg : s.get? (skipWs s m) with _ | c2
              · rw [hcg] at h; cases h
              · rw [hcg] at h
                dsimp only at h
                by_cases hgt : c2 = '>'
                · rw [if_pos hgt] at h
                  obtain ⟨ht, hj⟩ := Prod.mk.injEq .. ▸ Option.some.inj h
                  subst hlt' hgt ht hj
                  exact AccC.template s i tl m hne hck (ihL s _ tl m htl) hcg
                · rw [if_neg hgt] at h
                  cases h
          · rw [if_neg hlt'] at h
            obtain ⟨ht, hj⟩ := Prod.mk.injEq .. ▸ Option.some.inj h
            subst ht hj
            exact AccC.tname s i hne
    · simp only [parse_typelist] at h
      rcases hty : parse_type f s i with _ | ⟨ty, j0⟩
      · rw [hty] at h; cases h
      · rw [hty] at h
        dsimp only at h
        rcases hck : s.get? (skipWs s j0) with _ | c
        · rw [hck] at h
          dsimp only at h
          obtain ⟨ht, hj⟩ := Prod.mk.injEq .. ▸ Option.some.inj h
          subst ht hj
          exact AccL.single s i ty j0 (ihT s i ty j0 hty)
        · rw [hck] at h
          dsimp only at h
          by_cases hcm : c = ','
          · rw [if_pos hcm] at h
            rcases hrest : parse_typelist f s (skipWs s j0 + 1) with _ | ⟨rest, m⟩
            · rw [hrest] at h; cases h
            · rw [hrest] at h
              obtain ⟨ht, hj⟩ := Prod.mk.injEq .. ▸ Option.some.inj h
              subst hcm ht hj
              exact AccL.cons s i ty j0 rest m (ihT s i ty j0 hty) hck
                (ihL s _ rest m hrest)
          · rw [if_neg hcm] at h
            obtain ⟨ht, hj⟩ := Prod.mk.injEq .. ▸ Option.some.inj h
            subst ht hj
            exact AccL.single s i ty j0 (ihT s i ty j0 hty)

/-- `lex_cname` results carry an `AccName` derivation. -/
theorem lex_cname_acc (s : Str) (i : Nat) (tk : Tok) (j : Nat)
    (h : lex_cname s i = some (tk, j)) : AccName s i tk j := by
  simp only [lex_cname] at h
  rcases hc : s.get? (skipWs s i) with _ | c
  · rw [hc] at h; cases h
  · rw [hc] at h
    dsimp only at h
    by_cases hst : isCnameStart c = true
    · rw [if_pos hst] at h
      obtain ⟨ht, hj⟩ := Prod.mk.injEq .. ▸ Option.some.inj h
      subst ht hj
      exact AccName.mk s i c hc hst
    · rw [if_neg hst] at h
      cases h

/-- `parse_param` results carry an `AccParam` derivation. -/
theorem parse_param_acc (fuel : Nat) (s : Str) (i : Nat) (t : Node) (j : Nat)
    (h : parse_param fuel s i = some (t, j)) : AccParam s i t j := by
  simp only [parse_param] at h
  rcases hty : parse_type fuel s i with _ | ⟨ty, j0⟩
  · rw [hty] at h; cases h
  · rw [hty] at h
    dsimp only at h
    rcases hcn : lex_cname s j0 with _ | ⟨nm, k⟩
    · rw [hcn] at h; cases h
    · rw [hcn] at h
      dsimp only at h
      rcases hcm : s.get? (skipWs s k) with _ | c
      · rw [hcm] at h
        dsimp only at h
        obtain ⟨ht, hj⟩ := Prod.mk.injEq .. ▸ Option.some.inj h
        subst ht hj
        exact AccParam.plain s i ty j0 nm k ((parse_trio_acc fuel).1 s i ty j0 hty)
          (lex_cname_acc s j0 nm k hcn)
      · rw [hcm] at h
        dsimp only at h
        by_cases heq : c = '='
        · rw [if_pos heq] at h
          rcases hiv : parse_init_value s (skipWs s k + 1) with _ | ⟨iv, q⟩
          · rw [hiv] at h; cases h
          · rw [hiv] at h
            dsimp only at h
            obtain ⟨ht, hj⟩ := Prod.mk.injEq .. ▸ Option.some.inj h
            subst heq ht hj
            exact AccParam.defval s i ty j0 nm k iv q
              ((parse_trio_acc fuel).1 s i ty j0 hty)
              (lex_cname_acc s j0 nm k hcn) hcm hiv
        · rw [if_neg heq] at h
          obtain ⟨ht, hj⟩ := Prod.mk.injEq .. ▸ Option.some.inj h
          subst ht hj
          exact AccParam.plain s i ty j0 nm k
            ((parse_trio_acc fuel).1 s i ty j0 hty)
            (lex_cname_acc s j0 nm k hcn)

/-- `parse_params` results carry an `AccParams` derivation. -/
theorem parse_params_acc : ∀ (fuel : Nat) (s : Str) (i : Nat) (t : Node) (j : Nat),
    parse_params fuel s i = some (t, j) → AccParams s i t j := by
  intro fuel
  induction fuel with
  | zero => intro s i t j h; simp [parse_params] at h
  | succ f ih =>
    intro s i t j h
    simp only [parse_params] at h
    rcases hp : parse_param f s i with _ | ⟨p, j0⟩
    · rw [hp] at h; cases h
    · rw [hp] at h
      dsimp only at h
      rcases hck : s.get? (skipWs s j0) with _ | c
      · rw [hck] at h
        dsimp only at h
        obtain ⟨ht, hj⟩ := Prod.mk.injEq .. ▸ Option.some.inj h
        subst ht hj
        exact AccParams.single s i p j0 (parse_param_acc f s i p j0 hp)
      · rw [hck] at h
        dsimp only at h
        by_cases hcm : c = ','
        · rw [if_pos hcm] at h
          rcases hrest : parse_params f s (skipWs s j0 + 1) with _ | ⟨rest, m⟩
          · rw [hrest] at h; cases h
          · rw [hrest] at h
            obtain ⟨ht, hj⟩ := Prod.mk.injEq .. ▸ Option.some.inj h
            subst hcm ht hj
            exact AccParams.cons s i p j0 rest m (parse_param_acc f s i p j0 hp)
              hck (ih s _ rest m hrest)
        · rw [if_neg hcm] at h
          obtain ⟨ht, hj⟩ := Prod.mk.injEq .. ▸ Option.some.inj h
          subst ht hj
          exact AccParams.single s i p j0 (parse_param_acc f s i p j0 hp)

/-- `parse_start` results carry an `AccStart` derivation. -/
theorem parse_start_acc (s : Str) (t : Node) (h : parse_start s = some t) :
    ∃ E, AccStart s t E := by
  simp only [parse_start] at h
  rcases hty : parse_type (s.length + 1) s 0 with _ | ⟨ty, i0⟩
  · rw [hty] at h; cases h
  · rw [hty] at h
    dsimp only at h
    rcases hcn : lex_cname s i0 with _ | ⟨fnTok, j0⟩
    · rw [hcn] at h; cases h
    · rw [hcn] at h
      dsimp only at h
      rcases hck : s.get? (skipWs s j0) with _ | c
      · rw [hck] at h; cases h
      · rw [hck] at h
        dsimp only at h
        by_cases hlp : c = '('
        · rw [if_pos hlp] at h
          rcases hps : parse_params (s.length + 1) s (skipWs s j0 + 1)
              with _ | ⟨ps, m⟩
          · rw [hps] at h; cases h
          · rw [hps] at h
            dsimp only at h
            rcases hcg : s.get? (skipWs s m) with _ | c2
            · rw [hcg] at h; cases h
            · rw [hcg] at h
              dsimp only at h
              by_cases hrp : c2 = ')'
              · rw [if_pos hrp] at h
                rcases hend : s.get? (skipWs s (skipWs s m + 1)) with _ | c3
                · rw [hend] at h
                  dsimp only at h
                  obtain ht := Option.some.inj h
                  subst hlp hrp ht
                  exact ⟨skipWs s m + 1,
                    AccStart.mk s ty i0 fnTok j0 ps m
                      ((parse_trio_acc (s.length + 1)).1 s 0 ty i0 hty)
                      (lex_cname_acc s i0 fnTok j0 hcn) hck
                      (parse_params_acc (s.length + 1) s (skipWs s j0 + 1) ps m hps)
                      hcg hend⟩
                · rw [hend] at h; cases h
              · rw [if_neg hrp] at h
                cases h
        · rw [if_neg hlp] at h
          cases h

/-! ## C8, stage 2: the rendered text of a renamed tree -/

/-- `tmapRewrite` keeps the token span. -/
theorem tmapRewrite_spans (tmap : List (Str × Str)) (tk : Tok) :
    (tmapRewrite tmap tk).column = tk.column ∧
    (tmapRewrite tmap tk).endColumn = tk.endColumn ∧
    (tmapRewrite tmap tk).ttype = tk.ttype := by
  simp only [tmapRewrite]
  by_cases hty : tk.ttype = "TNAME".data
  · rw [if_pos hty]
    rcases tmap.lookup tk.value with _ | v
    · exact ⟨rfl, rfl, rfl⟩
    · exact ⟨rfl, rfl, rfl⟩
  · rw [if_neg hty]
    exact ⟨rfl, rfl, rfl⟩

/-- A column-preserving token map keeps `first_match`. -/
theorem first_match_map (f : Tok → Tok)
    (hcol : ∀ tk, (f tk).column = tk.column) : ∀ t : Node,
    first_match (mapTokens f t) = first_match t
  | .token tk => by simp [first_match, mapTokens, hcol]
  | .tree d [] => rfl
  | .tree d (c :: cs) => by
    show first_match (mapTokens f c) = first_match c
    exact first_match_map f hcol c

mutual
/-- An end-preserving token map keeps `last_match`. -/
theorem last_match_map (f : Tok → Tok)
    (hend : ∀ tk, (f tk).endColumn = tk.endColumn) : ∀ t : Node,
    last_match (mapTokens f t) = last_match t
  | .token tk => by simp [last_match, mapTokens, hend]
  | .tree d cs => by
    show lastOfList (mapTokens.mapTokensList f cs) = lastOfList cs
    exact lastOfList_map f hend cs

/-- List version of `last_match_map`. -/
theorem lastOfList_map (f : Tok → Tok)
    (hend : ∀ tk, (f tk).endColumn = tk.endColumn) : ∀ cs : List Node,
    lastOfList (mapTokens.mapTokensList f cs) = lastOfList cs
  | [] => rfl
  | [c] => by
    show last_match (mapTokens f c) = last_match c
    exact last_match_map f hend c
  | c :: c' :: cs => by
    show lastOfList (mapTokens.mapTokensList f (c' :: cs)) = lastOfList (c' :: cs)
    exact lastOfList_map f hend (c' :: cs)
end

/-- `init_value` nodes end (in `last_match` terms) exactly at the returned
index. -/
theorem parse_init_value_last (s : Str) (i : Nat) (t : Node) (j : Nat)
    (h : parse_init_value s i = some (t, j)) : last_match t = (j : Int) := by
  simp only [parse_init_value] at h
  rcases hc : s.get? (skipWs s i) with _ | c
  · rw [hc] at h; cases h
  · rw [hc] at h
    dsimp only at h
    by_cases hq : c = '"'
    · rw [if_pos hq] at h
      rcases hlex : lexEscapedTail (s.length + 1) s (skipWs s i + 1) with _ | ⟨t0, j0⟩
      · rw [hlex] at h; cases h
      · rw [hlex] at h
        obtain ⟨ht, hj⟩ := Prod.mk.injEq .. ▸ Option.some.inj h
        subst ht hj
        obtain ⟨_, r2, _⟩ := lexEscapedTail_sound _ s _ t0 j0 hlex
        simp only [last_match, lastOfList, mkTok, List.length_cons]
        omega
    · rw [if_neg hq] at h
      by_cases hbr : c = '\x7b'
      · rw [if_pos hbr] at h
        rcases hc2 : s.get? (skipWs s i + 1) with _ | c2
        · rw [hc2] at h; cases h
        · rw [hc2] at h
          dsimp only at h
          by_cases hbr2 : c2 = '\x7d'
          · rw [if_pos hbr2] at h
            obtain ⟨ht, hj⟩ := Prod.mk.injEq .. ▸ Option.some.inj h
            subst ht hj
            simp only [last_match, lastOfList, mkTok, List.length_cons,
              List.length_nil]
            omega
          · rw [if_neg hbr2] at h
            cases h
      · rw [if_neg hbr] at h
        by_cases hpm : (decide (c = '+') || decide (c = '-')) = true
        · rw [if_pos hpm] at h
          by_cases hne : (lexNumber s (skipWs s i + 1)).isEmpty = true
          · rw [if_pos hne] at h; cases h
          · rw [if_neg hne] at h
            obtain ⟨ht, hj⟩ := Prod.mk.injEq .. ▸ Option.some.inj h
            subst ht hj
            simp only [last_match, lastOfList, mkTok, List.length_cons]
            omega
        · rw [if_neg hpm] at h
          by_cases htr : ("true".data).isPrefixOf (s.drop (skipWs s i)) = true
          · rw [if_pos htr] at h
            obtain ⟨ht, hj⟩ := Prod.mk.injEq .. ▸ Option.some.inj h
            subst ht hj
            simp [last_match, lastOfList, mkTok]
          · rw [if_neg htr] at h
            by_cases hfa : ("false".data).isPrefixOf (s.drop (skipWs s i)) = true
            · rw [if_pos hfa] at h
              obtain ⟨ht, hj⟩ := Prod.mk.injEq .. ▸ Option.some.inj h
              subst ht hj
              simp [last_match, lastOfList, mkTok]
            · rw [if_neg hfa] at h
              by_cases hhex : (decide (c = '0') &&
                  decide (s.get? (skipWs s i + 1) = some 'x') &&
                  !(runOf isHexDigitChar s (skipWs s i + 2)).isEmpty) = true
              · rw [if_pos hhex] at h
                obtain ⟨ht, hj⟩ := Prod.mk.injEq .. ▸ Option.some.inj h
                subst ht hj
                simp only [last_match, lastOfList, mkTok, List.length_cons]
                omega
              · rw [if_neg hhex] at h
                by_cases hne : (lexNumber s (skipWs s i)).isEmpty = true
                · rw [if_pos hne] at h; cases h
                · rw [if_neg hne] at h
                  obtain ⟨ht, hj⟩ := Prod.mk.injEq .. ▸ Option.some.inj h
                  subst ht hj
                  simp only [last_match, lastOfList, mkTok]
                  omega

/-- `refspec` nodes start at the skipped-whitespace position. -/
theorem accRef_first : ∀ {s : Str} {i : Nat} {t : Node} {j : Nat},
    AccRef s i t j → first_match t = ((skipWs s i : Nat) : Int)
  | _, _, _, _, .ref s i _ => by
    simp only [first_match, mkTok]
    omega
  | _, _, _, _, .ptr s i _ => by
    simp only [first_match, mkTok]
    omega

/-- `refspec` nodes end at the returned index. -/
theorem accRef_last : ∀ {s : Str} {i : Nat} {t : Node} {j : Nat},
    AccRef s i t j → last_match t = ((j : Nat) : Int)
  | _, _, _, _, .ref s i _ => by
    simp only [last_match, lastOfList, mkTok, List.length_cons, List.length_nil]
    omega
  | _, _, _, _, .ptr s i _ => by
    simp only [last_match, lastOfList, mkTok, List.length_cons, List.length_nil]
    omega

mutual
/-- `type` nodes start at the skipped-whitespace position. -/
theorem accT_first : ∀ {s : Str} {i : Nat} {t : Node} {j : Nat},
    AccT s i t j → first_match t = ((skipWs s i : Nat) : Int)
  | _, _, _, _, .const_ref s i core j r k hrun hc hr => by
    simp only [first_match, mkTok]
    omega
  | _, _, _, _, .const_noref s i core j hrun hc => by
    simp only [first_match, mkTok]
    omega
  | _, _, _, _, .plain_ref s i core j r k hrun hc hr => by
    show first_match core = _
    have h := accC_first hc
    rw [skipWs_idem] at h
    exact h
  | _, _, _, _, .plain_noref s i core j hrun hc => by
    show first_match core = _
    have h := accC_first hc
    rw [skipWs_idem] at h
    exact h

/-- `core_type` nodes start at the skipped-whitespace position. -/
theorem accC_first : ∀ {s : Str} {i : Nat} {t : Node} {j : Nat},
    AccC s i t j → first_match t = ((skipWs s i : Nat) : Int)
  | _, _, _, _, .tname s i hne => by
    simp only [first_match, mkTok]
    omega
  | _, _, _, _, .template s i tl m hne hlt htl hgt => by
    simp only [first_match, mkTok]
    omega
end

/-- `typelist` nodes start at the skipped-whitespace position. -/
theorem accL_first : ∀ {s : Str} {i : Nat} {t : Node} {j : Nat},
    AccL s i t j → first_match t = ((skipWs s i : Nat) : Int)
  | _, _, _, _, .single s i ty j ht => by
    show first_match ty = _
    exact accT_first ht
  | _, _, _, _, .cons s i ty j rest m ht hc hrest => by
    show first_match ty = _
    exact accT_first ht

mutual
/-- `type` nodes end at the returned index. -/
theorem accT_last : ∀ {s : Str} {i : Nat} {t : Node} {j : Nat},
    AccT s i t j → last_match t = ((j : Nat) : Int)
  | _, _, _, _, .const_ref s i core j r k hrun hc hr => by
    simp only [last_match, lastOfList]
    exact accRef_last hr
  | _, _, _, _, .const_noref s i core j hrun hc => by
    simp only [last_match, lastOfList]
    exact accC_last hc
  | _, _, _, _, .plain_ref s i core j r k hrun hc hr => by
    simp only [last_match, lastOfList]
    exact accRef_last hr
  | _, _, _, _, .plain_noref s i core j hrun hc => by
    simp only [last_match, lastOfList]
    exact accC_last hc

/-- `core_type` nodes end at the returned index. -/
theorem accC_last : ∀ {s : Str} {i : Nat} {t : Node} {j : Nat},
    AccC s i t j → last_match t = ((j : Nat) : Int)
  | _, _, _, _, .tname s i hne => by
    simp only [last_match, lastOfList, mkTok]
    omega
  | _, _, _, _, .template s i tl m hne hlt htl hgt => by
    simp only [last_match, lastOfList, mkTok, List.length_cons, List.length_nil]
    omega

/-- `typelist` nodes end at the returned index. -/
theorem accL_last : ∀ {s : Str} {i : Nat} {t : Node} {j : Nat},
    AccL s i t j → last_match t = ((j : Nat) : Int)
  | _, _, _, _, .single s i ty j ht => by
    simp only [last_match, lastOfList]
    exact accT_last ht
  | _, _, _, _, .cons s i ty j rest m ht hc hrest => by
    simp only [last_match, lastOfList]
    exact accL_last hrest
end

/-- `param` nodes start at the skipped-whitespace position. -/
theorem accParam_first : ∀ {s : Str} {i : Nat} {t : Node} {j : Nat},
    AccParam s i t j → first_match t = ((skipWs s i : Nat) : Int)
  | _, _, _, _, .plain s i ty j nm k ht hn => by
    show first_match ty = _
    exact accT_first ht
  | _, _, _, _, .defval s i ty j nm k iv q ht hn he hiv => by
    show first_match ty = _
    exact accT_first ht

/-- `param` nodes end at the returned index. -/
theorem accParam_last : ∀ {s : Str} {i : Nat} {t : Node} {j : Nat},
    AccParam s i t j → last_match t = ((j : Nat) : Int)
  | _, _, _, _, .plain s i ty j nm k ht hn => by
    cases hn
    simp only [last_match, lastOfList, mkTok]
    omega
  | _, _, _, _, .defval s i ty j nm k iv q ht hn he hiv => by
    simp only [last_match, lastOfList]
    exact parse_init_value_last s (skipWs s k + 1) iv q hiv

/-- `params` nodes start at the skipped-whitespace position. -/
theorem accParams_first : ∀ {s : Str} {i : Nat} {t : Node} {j : Nat},
    AccParams s i t j → first_match t = ((skipWs s i : Nat) : Int)
  | _, _, _, _, .single s i p j hp => by
    show first_match p = _
    exact accParam_first hp
  | _, _, _, _, .cons s i p j rest m hp hc hrest => by
    show first_match p = _
    exact accParam_first hp

/-- `params` nodes end at the returned index. -/
theorem accParams_last : ∀ {s : Str} {i : Nat} {t : Node} {j : Nat},
    AccParams s i t j → last_match t = ((j : Nat) : Int)
  | _, _, _, _, .single s i p j hp => by
    simp only [last_match, lastOfList]
    exact accParam_last hp
  | _, _, _, _, .cons s i p j rest m hp hc hrest => by
    simp only [last_match, lastOfList]
    exact accParams_last hrest


/-- `tmapRewrite` leaves non-`TNAME` tokens unchanged. -/
theorem tmapRewrite_nonTname (tmap : List (Str × Str)) (tk : Tok)
    (h : tk.ttype ≠ "TNAME".data) : tmapRewrite tmap tk = tk := by
  simp [tmapRewrite, h]

/-- One `advance` step, written with the copied gap explicit. -/
theorem advance_gapTo (s w : Str) (p : Int) (tk : Tok)
    (hp : p ≤ (tk.column : Int) - 1) (h1 : 1 ≤ tk.endColumn) :
    StringEmit.advance { sref := s, sval := w, pos := p } tk
      = { sref := s, sval := w ++ gapTo s p (tk.column - 1) ++ tk.value,
          pos := ((tk.endColumn - 1 : Nat) : Int) } := by
  simp only [StringEmit.advance]
  by_cases hneg : p < 0
  · rw [if_neg (by omega : ¬ ((p : Int) ≥ 0)), if_neg (by omega)]
    simp only [gapTo, if_pos hneg, List.append_nil]
    congr 1
    omega
  · rw [if_pos (by omega : ((p : Int) ≥ 0))]
    simp only [gapTo, if_neg hneg]
    by_cases hgap : ((tk.column : Int) - 1) > p
    · rw [if_pos hgap]
      have hslice : pySlice s p ((tk.column : Int) - 1)
          = natSlice s p.toNat (tk.column - 1) := by
        simp only [pySlice, natSlice]
        congr 1
        omega
      rw [hslice]
      simp only [StringEmit.mk.injEq]
      exact ⟨trivial, trivial, by omega⟩
    · rw [if_neg hgap]
      have hpe : p.toNat = tk.column - 1 := by omega
      rw [hpe, natSlice_self, List.append_nil]
      simp only [StringEmit.mk.injEq]
      exact ⟨trivial, trivial, by omega⟩

/-- `emit_string` with the rewrite policy on a token just advances. -/
theorem emit_rw_token (tk : Tok) (e : StringEmit) :
    emit_string rwEmitFn (.token tk) e = e.advance tk := by
  rw [emit_string.eq_def]
  norm_num [rwEmitFn]

/-- `emit_string` with the rewrite policy on a non-`param_defval` tree
recurses into the children. -/
theorem emit_rw_tree (d : Str) (cs : List Node) (e : StringEmit)
    (hd : d ≠ "param_defval".data) :
    emit_string rwEmitFn (.tree d cs) e
      = emit_string.emit_list rwEmitFn d cs e := by
  rw [emit_string.eq_def]
  have hfn : rwEmitFn (.tree d cs) = 0 := by simp [rwEmitFn, hd]
  dsimp only
  rw [hfn]
  norm_num

/-- `emit_string` with the rewrite policy skips a `param_defval` tree,
moving the cursor to the subtree's end. -/
theorem emit_rw_defval (cs : List Node) (e : StringEmit) (hpos : e.pos ≥ 0) :
    emit_string rwEmitFn (.tree "param_defval".data cs) e
      = { e with pos := lastOfList cs } := by
  rw [emit_string.eq_def]
  have hfn : rwEmitFn (.tree "param_defval".data cs) = -1 := by simp [rwEmitFn]
  dsimp only
  rw [hfn]
  norm_num [StringEmit.skip, last_match, hpos]

/-- Emission of a rewritten `refspec` subtree. -/
theorem emitA_ref {s : Str} {i : Nat} {t : Node} {j : Nat}
    (h : AccRef s i t j) (tmap : List (Str × Str)) (w : Str) (p : Int)
    (hp : p ≤ first_match t) :
    emit_string rwEmitFn (mapTokens (tmapRewrite tmap) t)
      { sref := s, sval := w, pos := p }
    = { sref := s, sval := w ++ gapTo s p (first_match t).toNat ++ rend tmap s t,
        pos := ((j : Nat) : Int) } := by
  cases h with
  | ref hc =>
    rw [accRef_first (AccRef.ref s i hc)] at hp
    show emit_string rwEmitFn
        (.tree "refspec".data
          [.token (tmapRewrite tmap (mkTok "REF" ['&'] (skipWs s i)))])
        { sref := s, sval := w, pos := p } = _
    rw [emit_rw_tree _ _ _ (by decide)]
    show emit_string rwEmitFn
        (.token (tmapRewrite tmap (mkTok "REF" ['&'] (skipWs s i))))
        { sref := s, sval := w, pos := p } = _
    rw [emit_rw_token,
      tmapRewrite_nonTname tmap _ (by simp only [mkTok]; decide),
      advance_gapTo s w p _ (by simp only [mkTok]; omega)
        (by simp only [mkTok]; omega)]
    simp only [StringEmit.mk.injEq]
    refine ⟨trivial, ?_, by simp only [mkTok, List.length_singleton]; omega⟩
    rw [accRef_first (AccRef.ref s i hc)]
    simp [rend, rendList, tmapRewrite, mkTok]
  | ptr hc =>
    rw [accRef_first (AccRef.ptr s i hc)] at hp
    show emit_string rwEmitFn
        (.tree "refspec".data
          [.token (tmapRewrite tmap (mkTok "PTR" ['*'] (skipWs s i)))])
        { sref := s, sval := w, pos := p } = _
    rw [emit_rw_tree _ _ _ (by decide)]
    show emit_string rwEmitFn
        (.token (tmapRewrite tmap (mkTok "PTR" ['*'] (skipWs s i))))
        { sref := s, sval := w, pos := p } = _
    rw [emit_rw_token,
      tmapRewrite_nonTname tmap _ (by simp only [mkTok]; decide),
      advance_gapTo s w p _ (by simp only [mkTok]; omega)
        (by simp only [mkTok]; omega)]
    simp only [StringEmit.mk.injEq]
    refine ⟨trivial, ?_, by simp only [mkTok, List.length_singleton]; omega⟩
    rw [accRef_first (AccRef.ptr s i hc)]
    simp [rend, rendList, tmapRewrite, mkTok]

theorem gapTo_natCast (s : Str) (n a : Nat) :
    gapTo s ((n : Nat) : Int) a = natSlice s n a := by
  simp [gapTo]

theorem isDefvalNode_token (tk : Tok) : isDefvalNode (.token tk) = false := rfl

theorem accRef_not_defval {s : Str} {i : Nat} {t : Node} {j : Nat}
    (h : AccRef s i t j) : isDefvalNode t = false := by
  cases h <;> rfl

theorem accC_not_defval {s : Str} {i : Nat} {t : Node} {j : Nat}
    (h : AccC s i t j) : isDefvalNode t = false := by
  cases h <;> rfl

theorem accT_not_defval {s : Str} {i : Nat} {t : Node} {j : Nat}
    (h : AccT s i t j) : isDefvalNode t = false := by
  cases h <;> rfl

theorem accL_not_defval {s : Str} {i : Nat} {t : Node} {j : Nat}
    (h : AccL s i t j) : isDefvalNode t = false := by
  cases h <;> rfl

mutual
/-- Emission of a rewritten `type` subtree. -/
theorem emitA_T : ∀ {s : Str} {i : Nat} {t : Node} {j : Nat},
    AccT s i t j → ∀ (tmap : List (Str × Str)) (w : Str) (p : Int),
    p ≤ first_match t →
    emit_string rwEmitFn (mapTokens (tmapRewrite tmap) t)
      { sref := s, sval := w, pos := p }
    = { sref := s, sval := w ++ gapTo s p (first_match t).toNat ++ rend tmap s t,
        pos := ((j : Nat) : Int) }
  | _, _, _, _, .const_ref s i core j r k hrun hc hr => fun tmap w p hp => by
    have hCfst := accC_first hc
    have hCfst' : ((skipWs s i + (runOf isTnameChar s (skipWs s i)).length : Nat) : Int)
        ≤ first_match core := by
      rw [hCfst]
      exact_mod_cast skipWs_ge s _
    have hRfst := accRef_first hr
    have hRfst' : ((j : Nat) : Int) ≤ first_match r := by
      rw [hRfst]
      exact_mod_cast skipWs_ge s j
    have hconst : tmapRewrite tmap
        (mkTok "CONST" (runOf isTnameChar s (skipWs s i)) (skipWs s i))
        = mkTok "CONST" (runOf isTnameChar s (skipWs s i)) (skipWs s i) :=
      tmapRewrite_nonTname tmap _ (by simp only [mkTok]; decide)
    show emit_string rwEmitFn
        (.tree "type".data
          [.token (tmapRewrite tmap
            (mkTok "CONST" (runOf isTnameChar s (skipWs s i)) (skipWs s i))),
           mapTokens (tmapRewrite tmap) core,
           mapTokens (tmapRewrite tmap) r])
        { sref := s, sval := w, pos := p } = _
    rw [emit_rw_tree _ _ _ (by decide)]
    show emit_string rwEmitFn (mapTokens (tmapRewrite tmap) r)
        (emit_string rwEmitFn (mapTokens (tmapRewrite tmap) core)
          (emit_string rwEmitFn
            (.token (tmapRewrite tmap
              (mkTok "CONST" (runOf isTnameChar s (skipWs s i)) (skipWs s i))))
            { sref := s, sval := w, pos := p })) = _
    rw [emit_rw_token, hconst,
      advance_gapTo s w p _
        (by simp only [mkTok]
            rw [accT_first (AccT.const_ref s i core j r k hrun hc hr)] at hp
            omega)
        (by simp only [mkTok]; omega)]
    rw [show ((mkTok "CONST" (runOf isTnameChar s (skipWs s i))
        (skipWs s i)).endColumn - 1 : Nat)
        = skipWs s i + (runOf isTnameChar s (skipWs s i)).length by
      simp only [mkTok]; omega]
    rw [emitA_C hc tmap _ _ hCfst']
    rw [emitA_ref hr tmap _ _ hRfst']
    simp only [StringEmit.mk.injEq]
    refine ⟨trivial, ?_, trivial⟩
    rw [accT_first (AccT.const_ref s i core j r k hrun hc hr)]
    have hrend : rend tmap s (.tree "type".data
        [.token (mkTok "CONST" (runOf isTnameChar s (skipWs s i)) (skipWs s i)),
         core, r])
        = runOf isTnameChar s (skipWs s i)
          ++ natSlice s (skipWs s i + (runOf isTnameChar s (skipWs s i)).length)
              (first_match core).toNat
          ++ (rend tmap s core
            ++ natSlice s j (first_match r).toNat ++ rend tmap s r) := by
      have hD1 : isDefvalNode core = false := accC_not_defval hc
      have hD2 : isDefvalNode r = false := accRef_not_defval hr
      simp only [rend, rendList, hD1, hD2, hconst]
      rw [accC_last hc]
      simp only [last_match, mkTok, Int.toNat_natCast]
      rw [show ((((skipWs s i +
          (runOf isTnameChar s (skipWs s i)).length + 1 : Nat) : Int) - 1)).toNat
          = skipWs s i + (runOf isTnameChar s (skipWs s i)).length by omega]
      simp [List.append_assoc]
    rw [hrend, gapTo_natCast, gapTo_natCast, Int.toNat_natCast]
    simp [List.append_assoc, mkTok]
  | _, _, _, _, .const_noref s i core j hrun hc => fun tmap w p hp => by
    have hCfst := accC_first hc
    have hCfst' : ((skipWs s i + (runOf isTnameChar s (skipWs s i)).length : Nat) : Int)
        ≤ first_match core := by
      rw [hCfst]
      exact_mod_cast skipWs_ge s _
    have hconst : tmapRewrite tmap
        (mkTok "CONST" (runOf isTnameChar s (skipWs s i)) (skipWs s i))
        = mkTok "CONST" (runOf isTnameChar s (skipWs s i)) (skipWs s i) :=
      tmapRewrite_nonTname tmap _ (by simp only [mkTok]; decide)
    show emit_string rwEmitFn
        (.tree "type".data
          [.token (tmapRewrite tmap
            (mkTok "CONST" (runOf isTnameChar s (skipWs s i)) (skipWs s i))),
           mapTokens (tmapRewrite tmap) core])
        { sref := s, sval := w, pos := p } = _
    rw [emit_rw_tree _ _ _ (by decide)]
    show emit_string rwEmitFn (mapTokens (tmapRewrite tmap) core)
        (emit_string rwEmitFn
          (.token (tmapRewrite tmap
            (mkTok "CONST" (runOf isTnameChar s (skipWs s i)) (skipWs s i))))
          { sref := s, sval := w, pos := p }) = _
    rw [emit_rw_token, hconst,
      advance_gapTo s w p _
        (by simp only [mkTok]
            rw [accT_first (AccT.const_noref s i core j hrun hc)] at hp
            omega)
        (by simp only [mkTok]; omega)]
    rw [show ((mkTok "CONST" (runOf isTnameChar s (skipWs s i))
        (skipWs s i)).endColumn - 1 : Nat)
        = skipWs s i + (runOf isTnameChar s (skipWs s i)).length by
      simp only [mkTok]; omega]
    rw [emitA_C hc tmap _ _ hCfst']
    simp only [StringEmit.mk.injEq]
    refine ⟨trivial, ?_, trivial⟩
    rw [accT_first (AccT.const_noref s i core j hrun hc)]
    have hrend : rend tmap s (.tree "type".data
        [.token (mkTok "CONST" (runOf isTnameChar s (skipWs s i)) (skipWs s i)),
         core])
        = runOf isTnameChar s (skipWs s i)
          ++ natSlice s (skipWs s i + (runOf isTnameChar s (skipWs s i)).length)
              (first_match core).toNat
          ++ rend tmap s core := by
      have hD1 : isDefvalNode core = false := accC_not_defval hc
      simp only [rend, rendList, hD1, hconst]
      simp only [last_match, mkTok, Int.toNat_natCast]
      rw [show ((((skipWs s i +
          (runOf isTnameChar s (skipWs s i)).length + 1 : Nat) : Int) - 1)).toNat
          = skipWs s i + (runOf isTnameChar s (skipWs s i)).length by omega]
      simp [List.append_assoc]
    rw [hrend, gapTo_natCast, Int.toNat_natCast]
    simp [List.append_assoc, mkTok]
  | _, _, _, _, .plain_ref s i core j r k hrun hc hr => fun tmap w p hp => by
    have hCfst := accC_first hc
    rw [skipWs_idem] at hCfst
    have hRfst := accRef_first hr
    have hRfst' : ((j : Nat) : Int) ≤ first_match r := by
      rw [hRfst]
      exact_mod_cast skipWs_ge s j
    show emit_string rwEmitFn
        (.tree "type".data
          [mapTokens (tmapRewrite tmap) core, mapTokens (tmapRewrite tmap) r])
        { sref := s, sval := w, pos := p } = _
    rw [emit_rw_tree _ _ _ (by decide)]
    show emit_string rwEmitFn (mapTokens (tmapRewrite tmap) r)
        (emit_string rwEmitFn (mapTokens (tmapRewrite tmap) core)
          { sref := s, sval := w, pos := p }) = _
    rw [emitA_C hc tmap _ _ (by
      rw [hCfst]
      rw [accT_first (AccT.plain_ref s i core j r k hrun hc hr)] at hp
      exact hp)]
    rw [emitA_ref hr tmap _ _ hRfst']
    simp only [StringEmit.mk.injEq]
    refine ⟨trivial, ?_, trivial⟩
    rw [accT_first (AccT.plain_ref s i core j r k hrun hc hr)]
    have hrend : rend tmap s (.tree "type".data [core, r])
        = rend tmap s core ++ natSlice s j (first_match r).toNat
          ++ rend tmap s r := by
      have hD2 : isDefvalNode r = false := accRef_not_defval hr
      simp only [rend, rendList, hD2]
      rw [accC_last hc]
      simp [Int.toNat_natCast, List.append_assoc]
    rw [hrend, hCfst, gapTo_natCast, Int.toNat_natCast]
    simp [List.append_assoc, mkTok]
  | _, _, _, _, .plain_noref s i core j hrun hc => fun tmap w p hp => by
    have hCfst := accC_first hc
    rw [skipWs_idem] at hCfst
    show emit_string rwEmitFn
        (.tree "type".data [mapTokens (tmapRewrite tmap) core])
        { sref := s, sval := w, pos := p } = _
    rw [emit_rw_tree _ _ _ (by decide)]
    show emit_string rwEmitFn (mapTokens (tmapRewrite tmap) core)
        { sref := s, sval := w, pos := p } = _
    rw [emitA_C hc tmap _ _ (by
      rw [hCfst]
      rw [accT_first (AccT.plain_noref s i core j hrun hc)] at hp
      exact hp)]
    simp only [StringEmit.mk.injEq]
    refine ⟨trivial, ?_, trivial⟩
    rw [accT_first (AccT.plain_noref s i core j hrun hc)]
    have hrend : rend tmap s (.tree "type".data [core]) = rend tmap s core := by
      simp [rend, rendList]
    rw [hrend, hCfst]

/-- Emission of a rewritten `core_type` subtree. -/
theorem emitA_C : ∀ {s : Str} {i : Nat} {t : Node} {j : Nat},
    AccC s i t j → ∀ (tmap : List (Str × Str)) (w : Str) (p : Int),
    p ≤ first_match t →
    emit_string rwEmitFn (mapTokens (tmapRewrite tmap) t)
      { sref := s, sval := w, pos := p }
    = { sref := s, sval := w ++ gapTo s p (first_match t).toNat ++ rend tmap s t,
        pos := ((j : Nat) : Int) }
  | _, _, _, _, .tname s i hne => fun tmap w p hp => by
    have hsp := tmapRewrite_spans tmap
      (mkTok "TNAME" (runOf isTnameChar s (skipWs s i)) (skipWs s i))
    show emit_string rwEmitFn
        (.tree "core_type".data
          [.token (tmapRewrite tmap
            (mkTok "TNAME" (runOf isTnameChar s (skipWs s i)) (skipWs s i)))])
        { sref := s, sval := w, pos := p } = _
    rw [emit_rw_tree _ _ _ (by decide)]
    show emit_string rwEmitFn
        (.token (tmapRewrite tmap
          (mkTok "TNAME" (runOf isTnameChar s (skipWs s i)) (skipWs s i))))
        { sref := s, sval := w, pos := p } = _
    rw [emit_rw_token,
      advance_gapTo s w p _
        (by rw [hsp.1]
            simp only [mkTok]
            rw [accC_first (AccC.tname s i hne)] at hp
            omega)
        (by rw [hsp.2.1]; simp only [mkTok]; omega)]
    simp only [StringEmit.mk.injEq]
    refine ⟨trivial, ?_, by rw [hsp.2.1]; simp only [mkTok]; omega⟩
    rw [hsp.1, accC_first (AccC.tname s i hne)]
    simp only [mkTok, Int.toNat_natCast, Nat.add_sub_cancel]
    simp [rend, rendList]
  | _, _, _, _, .template s i tl m hne hlt htl hgt => fun tmap w p hp => by
    have hsp := tmapRewrite_spans tmap
      (mkTok "TNAME" (runOf isTnameChar s (skipWs s i)) (skipWs s i))
    have hLT : tmapRewrite tmap (mkTok "LT" ['<']
        (skipWs s (skipWs s i + (runOf isTnameChar s (skipWs s i)).length)))
        = mkTok "LT" ['<']
          (skipWs s (skipWs s i + (runOf isTnameChar s (skipWs s i)).length)) :=
      tmapRewrite_nonTname tmap _ (by simp only [mkTok]; decide)
    have hGT : tmapRewrite tmap (mkTok "GT" ['>'] (skipWs s m))
        = mkTok "GT" ['>'] (skipWs s m) :=
      tmapRewrite_nonTname tmap _ (by simp only [mkTok]; decide)
    have hLfst := accL_first htl
    have hLfst' : ((skipWs s (skipWs s i +
        (runOf isTnameChar s (skipWs s i)).length) + 1 : Nat) : Int)
        ≤ first_match tl := by
      rw [hLfst]
      exact_mod_cast skipWs_ge s _
    show emit_string rwEmitFn
        (.tree "core_type".data
          [.tree "template".data
            [.token (tmapRewrite tmap
              (mkTok "TNAME" (runOf isTnameChar s (skipWs s i)) (skipWs s i))),
             .token (tmapRewrite tmap (mkTok "LT" ['<']
               (skipWs s (skipWs s i + (runOf isTnameChar s (skipWs s i)).length)))),
             mapTokens (tmapRewrite tmap) tl,
             .token (tmapRewrite tmap (mkTok "GT" ['>'] (skipWs s m)))]])
        { sref := s, sval := w, pos := p } = _
    rw [emit_rw_tree _ _ _ (by decide)]
    show emit_string rwEmitFn
        (.tree "template".data
          [.token (tmapRewrite tmap
            (mkTok "TNAME" (runOf isTnameChar s (skipWs s i)) (skipWs s i))),
           .token (tmapRewrite tmap (mkTok "LT" ['<']
             (skipWs s (skipWs s i + (runOf isTnameChar s (skipWs s i)).length)))),
           mapTokens (tmapRewrite tmap) tl,
           .token (tmapRewrite tmap (mkTok "GT" ['>'] (skipWs s m)))])
        { sref := s, sval := w, pos := p } = _
    rw [emit_rw_tree _ _ _ (by decide)]
    show emit_string rwEmitFn
        (.token (tmapRewrite tmap (mkTok "GT" ['>'] (skipWs s m))))
        (emit_string rwEmitFn (mapTokens (tmapRewrite tmap) tl)
          (emit_string rwEmitFn
            (.token (tmapRewrite tmap (mkTok "LT" ['<']
              (skipWs s (skipWs s i + (runOf isTnameChar s (skipWs s i)).length)))))
            (emit_string rwEmitFn
              (.token (tmapRewrite tmap
                (mkTok "TNAME" (runOf isTnameChar s (skipWs s i)) (skipWs s i))))
              { sref := s, sval := w, pos := p }))) = _
    simp only [emit_rw_token]
    rw [advance_gapTo s w p
        (tmapRewrite tmap
          (mkTok "TNAME" (runOf isTnameChar s (skipWs s i)) (skipWs s i)))
        (by rw [hsp.1]
            simp only [mkTok]
            rw [accC_first (AccC.template s i tl m hne hlt htl hgt)] at hp
            omega)
        (by rw [hsp.2.1]; simp only [mkTok]; omega)]
    rw [show ((tmapRewrite tmap
        (mkTok "TNAME" (runOf isTnameChar s (skipWs s i))
          (skipWs s i))).endColumn - 1 : Nat)
        = skipWs s i + (runOf isTnameChar s (skipWs s i)).length by
      rw [hsp.2.1]; simp only [mkTok]; omega]
    rw [hLT, hGT]
    rw [advance_gapTo s _ _
        (mkTok "LT" ['<']
          (skipWs s (skipWs s i + (runOf isTnameChar s (skipWs s i)).length)))
        (by simp only [mkTok]
            have := skipWs_ge s
              (skipWs s i + (runOf isTnameChar s (skipWs s i)).length)
            omega)
        (by simp only [mkTok]; omega)]
    rw [show ((mkTok "LT" ['<']
        (skipWs s (skipWs s i +
          (runOf isTnameChar s (skipWs s i)).length))).endColumn - 1 : Nat)
        = skipWs s (skipWs s i + (runOf isTnameChar s (skipWs s i)).length) + 1 by
      simp only [mkTok, List.length_singleton]; omega]
    rw [emitA_L htl tmap _ _ hLfst']
    rw [advance_gapTo s _ _
        (mkTok "GT" ['>'] (skipWs s m))
        (by simp only [mkTok]
            have := skipWs_ge s m
            omega)
        (by simp only [mkTok]; omega)]
    simp only [StringEmit.mk.injEq]
    refine ⟨trivial, ?_, by simp only [mkTok, List.length_singleton]; omega⟩
    rw [accC_first (AccC.template s i tl m hne hlt htl hgt)]
    have hrend : rend tmap s (.tree "core_type".data
        [.tree "template".data
          [.token (mkTok "TNAME" (runOf isTnameChar s (skipWs s i)) (skipWs s i)),
           .token (mkTok "LT" ['<']
             (skipWs s (skipWs s i + (runOf isTnameChar s (skipWs s i)).length))),
           tl,
           .token (mkTok "GT" ['>'] (skipWs s m))]])
        = (tmapRewrite tmap
            (mkTok "TNAME" (runOf isTnameChar s (skipWs s i)) (skipWs s i))).value
          ++ natSlice s (skipWs s i + (runOf isTnameChar s (skipWs s i)).length)
              (skipWs s (skipWs s i + (runOf isTnameChar s (skipWs s i)).length))
          ++ (['<']
            ++ natSlice s
                (skipWs s (skipWs s i +
                  (runOf isTnameChar s (skipWs s i)).length) + 1)
                (first_match tl).toNat
            ++ (rend tmap s tl
              ++ natSlice s m (skipWs s m)
              ++ ['>'])) := by
      have hDtl : isDefvalNode tl = false := accL_not_defval htl
      simp only [rend, rendList, isDefvalNode_token, hDtl, hLT, hGT]
      rw [accL_first htl, accL_last htl]
      simp only [first_match, last_match, mkTok, Int.toNat_natCast,
        List.length_singleton]
      rw [show ((((skipWs s i +
          (runOf isTnameChar s (skipWs s i)).length + 1 : Nat) : Int) - 1)).toNat
          = skipWs s i + (runOf isTnameChar s (skipWs s i)).length by omega]
      rw [show (((skipWs s (skipWs s i +
          (runOf isTnameChar s (skipWs s i)).length) + 1 : Nat) : Int) - 1).toNat
          = skipWs s (skipWs s i + (runOf isTnameChar s (skipWs s i)).length) by
        omega]
      rw [show ((((skipWs s (skipWs s i +
          (runOf isTnameChar s (skipWs s i)).length) + 1 + 1 : Nat) : Int)
          - 1)).toNat
          = skipWs s (skipWs s i + (runOf isTnameChar s (skipWs s i)).length) + 1 by
        omega]
      rw [show ((((skipWs s m + 1 : Nat) : Int) - 1)).toNat = skipWs s m by omega]
      simp [List.append_assoc, tmapRewrite]
    rw [hrend, gapTo_natCast, gapTo_natCast, gapTo_natCast, Int.toNat_natCast]
    rw [show ((tmapRewrite tmap
        (mkTok "TNAME" (runOf isTnameChar s (skipWs s i))
          (skipWs s i))).column - 1 : Nat) = skipWs s i by
      rw [hsp.1]; simp only [mkTok]; omega]
    simp [List.append_assoc, mkTok]

/-- Emission of a rewritten `typelist` subtree. -/
theorem emitA_L : ∀ {s : Str} {i : Nat} {t : Node} {j : Nat},
    AccL s i t j → ∀ (tmap : List (Str × Str)) (w : Str) (p : Int),
    p ≤ first_match t →
    emit_string rwEmitFn (mapTokens (tmapRewrite tmap) t)
      { sref := s, sval := w, pos := p }
    = { sref := s, sval := w ++ gapTo s p (first_match t).toNat ++ rend tmap s t,
        pos := ((j : Nat) : Int) }
  | _, _, _, _, .single s i ty j ht => fun tmap w p hp => by
    show emit_string rwEmitFn
        (.tree "typelist".data [mapTokens (tmapRewrite tmap) ty])
        { sref := s, sval := w, pos := p } = _
    rw [emit_rw_tree _ _ _ (by decide)]
    show emit_string rwEmitFn (mapTokens (tmapRewrite tmap) ty)
        { sref := s, sval := w, pos := p } = _
    rw [emitA_T ht tmap _ _ (by
      rw [accT_first ht]
      rw [accL_first (AccL.single s i ty j ht)] at hp
      exact hp)]
    simp only [StringEmit.mk.injEq]
    refine ⟨trivial, ?_, trivial⟩
    rw [accT_first ht, accL_first (AccL.single s i ty j ht)]
    simp [rend, rendList]
  | _, _, _, _, .cons s i ty j rest m ht hc hrest => fun tmap w p hp => by
    have hCOMMA : tmapRewrite tmap (mkTok "COMMA" [','] (skipWs s j))
        = mkTok "COMMA" [','] (skipWs s j) :=
      tmapRewrite_nonTname tmap _ (by simp only [mkTok]; decide)
    have hRfst := accL_first hrest
    have hRfst' : ((skipWs s j + 1 : Nat) : Int) ≤ first_match rest := by
      rw [hRfst]
      exact_mod_cast skipWs_ge s _
    show emit_string rwEmitFn
        (.tree "typelist".data
          [mapTokens (tmapRewrite tmap) ty,
           .token (tmapRewrite tmap (mkTok "COMMA" [','] (skipWs s j))),
           mapTokens (tmapRewrite tmap) rest])
        { sref := s, sval := w, pos := p } = _
    rw [emit_rw_tree _ _ _ (by decide)]
    show emit_string rwEmitFn (mapTokens (tmapRewrite tmap) rest)
        (emit_string rwEmitFn
          (.token (tmapRewrite tmap (mkTok "COMMA" [','] (skipWs s j))))
          (emit_string rwEmitFn (mapTokens (tmapRewrite tmap) ty)
            { sref := s, sval := w, pos := p })) = _
    rw [emitA_T ht tmap _ _ (by
      rw [accT_first ht]
      rw [accL_first (AccL.cons s i ty j rest m ht hc hrest)] at hp
      exact hp)]
    rw [emit_rw_token, hCOMMA,
      advance_gapTo s _ _ _
        (by simp only [mkTok]
            have := skipWs_ge s j
            omega)
        (by simp only [mkTok]; omega)]
    rw [show ((mkTok "COMMA" [','] (skipWs s j)).endColumn - 1 : Nat)
        = skipWs s j + 1 by simp only [mkTok, List.length_singleton]; omega]
    rw [emitA_L hrest tmap _ _ hRfst']
    simp only [StringEmit.mk.injEq]
    refine ⟨trivial, ?_, trivial⟩
    rw [accT_first ht, accL_first (AccL.cons s i ty j rest m ht hc hrest)]
    have hrend : rend tmap s (.tree "typelist".data
        [ty, .token (mkTok "COMMA" [','] (skipWs s j)), rest])
        = rend tmap s ty ++ natSlice s j (skipWs s j)
          ++ ([','] ++ natSlice s (skipWs s j + 1) (first_match rest).toNat
            ++ rend tmap s rest) := by
      have hDrest : isDefvalNode rest = false := accL_not_defval hrest
      have hDc : isDefvalNode (.token (mkTok "COMMA" [','] (skipWs s j))) = false :=
        rfl
      simp only [rend, rendList, hDrest, hDc, hCOMMA]
      rw [accT_last ht, accL_first hrest]
      simp only [first_match, last_match, mkTok, Int.toNat_natCast,
        List.length_singleton]
      rw [show ((((skipWs s j + 1 : Nat) : Int) - 1)).toNat = skipWs s j by omega]
      rw [show ((((skipWs s j + 1 + 1 : Nat) : Int) - 1)).toNat = skipWs s j + 1 by
        omega]
      simp [List.append_assoc, tmapRewrite]
    rw [hrend, gapTo_natCast, gapTo_natCast, Int.toNat_natCast]
    simp [List.append_assoc, mkTok]
end

/-- Emission of a rewritten `param` subtree (default clauses skipped). -/
theorem emitA_Param : ∀ {s : Str} {i : Nat} {t : Node} {j : Nat},
    AccParam s i t j → ∀ (tmap : List (Str × Str)) (w : Str) (p : Int),
    p ≤ first_match t →
    emit_string rwEmitFn (mapTokens (tmapRewrite tmap) t)
      { sref := s, sval := w, pos := p }
    = { sref := s, sval := w ++ gapTo s p (first_match t).toNat ++ rend tmap s t,
        pos := ((j : Nat) : Int) }
  | _, _, _, _, .plain s i ty j nm k ht hn => fun tmap w p hp => by
    cases hn with
    | mk c hc hst =>
      have hCN : tmapRewrite tmap
          (mkTok "CNAME" (runOf isCnameChar s (skipWs s j)) (skipWs s j))
          = mkTok "CNAME" (runOf isCnameChar s (skipWs s j)) (skipWs s j) :=
        tmapRewrite_nonTname tmap _ (by simp only [mkTok]; decide)
      show emit_string rwEmitFn
          (.tree "param".data
            [mapTokens (tmapRewrite tmap) ty,
             .tree "param_name".data
               [.token (tmapRewrite tmap
                 (mkTok "CNAME" (runOf isCnameChar s (skipWs s j)) (skipWs s j)))]])
          { sref := s, sval := w, pos := p } = _
      rw [emit_rw_tree _ _ _ (by decide)]
      show emit_string rwEmitFn
          (.tree "param_name".data
            [.token (tmapRewrite tmap
              (mkTok "CNAME" (runOf isCnameChar s (skipWs s j)) (skipWs s j)))])
          (emit_string rwEmitFn (mapTokens (tmapRewrite tmap) ty)
            { sref := s, sval := w, pos := p }) = _
      rw [emitA_T ht tmap _ _ (by
        rw [accT_first ht]
        rw [accParam_first (AccParam.plain s i ty j
          (mkTok "CNAME" (runOf isCnameChar s (skipWs s j)) (skipWs s j))
          (skipWs s j + (runOf isCnameChar s (skipWs s j)).length)
          ht (AccName.mk s j c hc hst))] at hp
        exact hp)]
      rw [emit_rw_tree _ _ _ (by decide)]
      show emit_string rwEmitFn
          (.token (tmapRewrite tmap
            (mkTok "CNAME" (runOf isCnameChar s (skipWs s j)) (skipWs s j))))
          _ = _
      rw [emit_rw_token, hCN,
        advance_gapTo s _ _ _
          (by simp only [mkTok]
              have := skipWs_ge s j
              omega)
          (by simp only [mkTok]; omega)]
      simp only [StringEmit.mk.injEq]
      refine ⟨trivial, ?_, by simp only [mkTok]; omega⟩
      rw [accT_first ht,
        accParam_first (AccParam.plain s i ty j
          (mkTok "CNAME" (runOf isCnameChar s (skipWs s j)) (skipWs s j))
          (skipWs s j + (runOf isCnameChar s (skipWs s j)).length)
          ht (AccName.mk s j c hc hst))]
      have hD1 : isDefvalNode ty = false := accT_not_defval ht
      have hrend : rend tmap s (.tree "param".data
          [ty, .tree "param_name".data
            [.token (mkTok "CNAME" (runOf isCnameChar s (skipWs s j)) (skipWs s j))]])
          = rend tmap s ty ++ natSlice s j (skipWs s j)
            ++ runOf isCnameChar s (skipWs s j) := by
        have hDpn : isDefvalNode (.tree "param_name".data
            [.token (mkTok "CNAME" (runOf isCnameChar s (skipWs s j))
              (skipWs s j))]) = false := rfl
        simp only [rend, rendList, hD1, hDpn, hCN]
        rw [accT_last ht]
        simp only [first_match, mkTok, Int.toNat_natCast]
        rw [show ((((skipWs s j + 1 : Nat) : Int) - 1)).toNat = skipWs s j by omega]
        simp [List.append_assoc]
      rw [hrend, gapTo_natCast, Int.toNat_natCast]
      simp [List.append_assoc, mkTok]
  | _, _, _, _, .defval s i ty j nm k iv q ht hn he hiv => fun tmap w p hp => by
    cases hn with
    | mk c hc hst =>
      have hCN : tmapRewrite tmap
          (mkTok "CNAME" (runOf isCnameChar s (skipWs s j)) (skipWs s j))
          = mkTok "CNAME" (runOf isCnameChar s (skipWs s j)) (skipWs s j) :=
        tmapRewrite_nonTname tmap _ (by simp only [mkTok]; decide)
      have hEQ : tmapRewrite tmap (mkTok "EQUAL" ['=']
          (skipWs s (skipWs s j + (runOf isCnameChar s (skipWs s j)).length)))
          = mkTok "EQUAL" ['=']
            (skipWs s (skipWs s j + (runOf isCnameChar s (skipWs s j)).length)) :=
        tmapRewrite_nonTname tmap _ (by simp only [mkTok]; decide)
      have hivlast : last_match (mapTokens (tmapRewrite tmap) iv)
          = ((q : Nat) : Int) := by
        rw [last_match_map (tmapRewrite tmap)
          (fun tk => (tmapRewrite_spans tmap tk).2.1) iv]
        exact parse_init_value_last s
          (skipWs s (skipWs s j + (runOf isCnameChar s (skipWs s j)).length) + 1)
          iv q hiv
      show emit_string rwEmitFn
          (.tree "param".data
            [mapTokens (tmapRewrite tmap) ty,
             .tree "param_name".data
               [.token (tmapRewrite tmap
                 (mkTok "CNAME" (runOf isCnameChar s (skipWs s j)) (skipWs s j)))],
             .tree "param_defval".data
               [.token (tmapRewrite tmap (mkTok "EQUAL" ['=']
                 (skipWs s (skipWs s j +
                   (runOf isCnameChar s (skipWs s j)).length)))),
                mapTokens (tmapRewrite tmap) iv]])
          { sref := s, sval := w, pos := p } = _
      rw [emit_rw_tree _ _ _ (by decide)]
      show emit_string rwEmitFn
          (.tree "param_defval".data
            [.token (tmapRewrite tmap (mkTok "EQUAL" ['=']
              (skipWs s (skipWs s j + (runOf isCnameChar s (skipWs s j)).length)))),
             mapTokens (tmapRewrite tmap) iv])
          (emit_string rwEmitFn
            (.tree "param_name".data
              [.token (tmapRewrite tmap
                (mkTok "CNAME" (runOf isCnameChar s (skipWs s j)) (skipWs s j)))])
            (emit_string rwEmitFn (mapTokens (tmapRewrite tmap) ty)
              { sref := s, sval := w, pos := p })) = _
      rw [emitA_T ht tmap _ _ (by
        rw [accT_first ht]
        rw [accParam_first (AccParam.defval s i ty j
          (mkTok "CNAME" (runOf isCnameChar s (skipWs s j)) (skipWs s j))
          (skipWs s j + (runOf isCnameChar s (skipWs s j)).length) iv q ht
          (AccName.mk s j c hc hst) he hiv)] at hp
        exact hp)]
      rw [emit_rw_tree ("param_name".data)
        [.token (tmapRewrite tmap
          (mkTok "CNAME" (runOf isCnameChar s (skipWs s j)) (skipWs s j)))]
        _ (by decide)]
      show emit_string rwEmitFn
          (.tree "param_defval".data
            [.token (tmapRewrite tmap (mkTok "EQUAL" ['=']
              (skipWs s (skipWs s j + (runOf isCnameChar s (skipWs s j)).length)))),
             mapTokens (tmapRewrite tmap) iv])
          (emit_string rwEmitFn
            (.token (tmapRewrite tmap
              (mkTok "CNAME" (runOf isCnameChar s (skipWs s j)) (skipWs s j))))
            { sref := s,
              sval := w ++ gapTo s p (first_match ty).toNat ++ rend tmap s ty,
              pos := ((j : Nat) : Int) }) = _
      rw [emit_rw_token, hCN,
        advance_gapTo s _ _ _
          (by simp only [mkTok]
              have := skipWs_ge s j
              omega)
          (by simp only [mkTok]; omega)]
      rw [emit_rw_defval _ _ (by exact Int.natCast_nonneg _)]
      have hskippos : lastOfList
          [.token (tmapRewrite tmap (mkTok "EQUAL" ['=']
            (skipWs s (skipWs s j + (runOf isCnameChar s (skipWs s j)).length)))),
           mapTokens (tmapRewrite tmap) iv] = ((q : Nat) : Int) := by
        simp only [lastOfList]
        exact hivlast
      rw [hskippos]
      simp only [StringEmit.mk.injEq]
      refine ⟨trivial, ?_, trivial⟩
      rw [accT_first ht,
        accParam_first (AccParam.defval s i ty j
          (mkTok "CNAME" (runOf isCnameChar s (skipWs s j)) (skipWs s j))
          (skipWs s j + (runOf isCnameChar s (skipWs s j)).length) iv q ht
          (AccName.mk s j c hc hst) he hiv)]
      have hD1 : isDefvalNode ty = false := accT_not_defval ht
      have hrend : rend tmap s (.tree "param".data
          [ty, .tree "param_name".data
            [.token (mkTok "CNAME" (runOf isCnameChar s (skipWs s j))
              (skipWs s j))],
           .tree "param_defval".data
             [.token (mkTok "EQUAL" ['=']
               (skipWs s (skipWs s j +
                 (runOf isCnameChar s (skipWs s j)).length))), iv]])
          = rend tmap s ty ++ natSlice s j (skipWs s j)
            ++ runOf isCnameChar s (skipWs s j) := by
        have hDpn : isDefvalNode (.tree "param_name".data
            [.token (mkTok "CNAME" (runOf isCnameChar s (skipWs s j))
              (skipWs s j))]) = false := rfl
        have hDdv : isDefvalNode (.tree "param_defval".data
            [.token (mkTok "EQUAL" ['=']
              (skipWs s (skipWs s j +
                (runOf isCnameChar s (skipWs s j)).length))), iv]) = true := rfl
        simp only [rend, rendList, hD1, hDpn, hDdv, hCN]
        rw [accT_last ht]
        simp only [first_match, mkTok, Int.toNat_natCast]
        rw [show ((((skipWs s j + 1 : Nat) : Int) - 1)).toNat = skipWs s j by omega]
        simp [List.append_assoc]
      rw [hrend, gapTo_natCast, Int.toNat_natCast]
      simp [List.append_assoc, mkTok]

/-- Emission of a rewritten `params` subtree. -/
theorem emitA_Params : ∀ {s : Str} {i : Nat} {t : Node} {j : Nat},
    AccParams s i t j → ∀ (tmap : List (Str × Str)) (w : Str) (p : Int),
    p ≤ first_match t →
    emit_string rwEmitFn (mapTokens (tmapRewrite tmap) t)
      { sref := s, sval := w, pos := p }
    = { sref := s, sval := w ++ gapTo s p (first_match t).toNat ++ rend tmap s t,
        pos := ((j : Nat) : Int) }
  | _, _, _, _, .single s i pm j hpm => fun tmap w p hp => by
    show emit_string rwEmitFn
        (.tree "params".data [mapTokens (tmapRewrite tmap) pm])
        { sref := s, sval := w, pos := p } = _
    rw [emit_rw_tree _ _ _ (by decide)]
    show emit_string rwEmitFn (mapTokens (tmapRewrite tmap) pm)
        { sref := s, sval := w, pos := p } = _
    rw [emitA_Param hpm tmap _ _ (by
      rw [accParam_first hpm]
      rw [accParams_first (AccParams.single s i pm j hpm)] at hp
      exact hp)]
    simp only [StringEmit.mk.injEq]
    refine ⟨trivial, ?_, trivial⟩
    rw [accParam_first hpm, accParams_first (AccParams.single s i pm j hpm)]
    simp [rend, rendList]
  | _, _, _, _, .cons s i pm j rest m hpm hc hrest => fun tmap w p hp => by
    have hCOMMA : tmapRewrite tmap (mkTok "COMMA" [','] (skipWs s j))
        = mkTok "COMMA" [','] (skipWs s j) :=
      tmapRewrite_nonTname tmap _ (by simp only [mkTok]; decide)
    have hRfst := accParams_first hrest
    have hRfst' : ((skipWs s j + 1 : Nat) : Int) ≤ first_match rest := by
      rw [hRfst]
      exact_mod_cast skipWs_ge s _
    show emit_string rwEmitFn
        (.tree "params".data
          [mapTokens (tmapRewrite tmap) pm,
           .token (tmapRewrite tmap (mkTok "COMMA" [','] (skipWs s j))),
           mapTokens (tmapRewrite tmap) rest])
        { sref := s, sval := w, pos := p } = _
    rw [emit_rw_tree _ _ _ (by decide)]
    show emit_string rwEmitFn (mapTokens (tmapRewrite tmap) rest)
        (emit_string rwEmitFn
          (.token (tmapRewrite tmap (mkTok "COMMA" [','] (skipWs s j))))
          (emit_string rwEmitFn (mapTokens (tmapRewrite tmap) pm)
            { sref := s, sval := w, pos := p })) = _
    rw [emitA_Param hpm tmap _ _ (by
      rw [accParam_first hpm]
      rw [accParams_first (AccParams.cons s i pm j rest m hpm hc hrest)] at hp
      exact hp)]
    rw [emit_rw_token, hCOMMA,
      advance_gapTo s _ _ _
        (by simp only [mkTok]
            have := skipWs_ge s j
            omega)
        (by simp only [mkTok]; omega)]
    rw [show ((mkTok "COMMA" [','] (skipWs s j)).endColumn - 1 : Nat)
        = skipWs s j + 1 by simp only [mkTok, List.length_singleton]; omega]
    rw [emitA_Params hrest tmap _ _ hRfst']
    simp only [StringEmit.mk.injEq]
    refine ⟨trivial, ?_, trivial⟩
    rw [accParam_first hpm, accParams_first (AccParams.cons s i pm j rest m hpm hc hrest)]
    have hDrest : isDefvalNode rest = false := by
      cases hrest <;> rfl
    have hrend : rend tmap s (.tree "params".data
        [pm, .token (mkTok "COMMA" [','] (skipWs s j)), rest])
        = rend tmap s pm ++ natSlice s j (skipWs s j)
          ++ ([','] ++ natSlice s (skipWs s j + 1) (first_match rest).toNat
            ++ rend tmap s rest) := by
      have hDc : isDefvalNode (.token (mkTok "COMMA" [','] (skipWs s j))) = false :=
        rfl
      simp only [rend, rendList, hDrest, hDc, hCOMMA]
      rw [accParam_last hpm, accParams_first hrest]
      simp only [first_match, last_match, mkTok, Int.toNat_natCast,
        List.length_singleton]
      rw [show ((((skipWs s j + 1 : Nat) : Int) - 1)).toNat = skipWs s j by omega]
      rw [show ((((skipWs s j + 1 + 1 : Nat) : Int) - 1)).toNat = skipWs s j + 1 by
        omega]
      simp [List.append_assoc, tmapRewrite]
    rw [hrend, gapTo_natCast, gapTo_natCast, Int.toNat_natCast]
    simp [List.append_assoc, mkTok]

theorem accParams_not_defval {s : Str} {i : Nat} {t : Node} {j : Nat}
    (h : AccParams s i t j) : isDefvalNode t = false := by
  cases h <;> rfl

/-- Emission of a rewritten full signature from the fresh −1 cursor: the
output is exactly the rendered text. -/
theorem emitA_Start {s : Str} {t : Node} {E : Nat}
    (h : AccStart s t E) (tmap : List (Str × Str)) :
    emit_string rwEmitFn (mapTokens (tmapRewrite tmap) t)
      { sref := s, sval := [], pos := -1 }
    = { sref := s, sval := rend tmap s t, pos := ((E : Nat) : Int) } := by
  cases h with
  | mk ty i fnTok j ps m ht hn hlp hps hrp hend =>
    cases hn with
    | mk c hc hst =>
      have hCN : tmapRewrite tmap
          (mkTok "CNAME" (runOf isCnameChar s (skipWs s i)) (skipWs s i))
          = mkTok "CNAME" (runOf isCnameChar s (skipWs s i)) (skipWs s i) :=
        tmapRewrite_nonTname tmap _ (by simp only [mkTok]; decide)
      have hLP : tmapRewrite tmap (mkTok "LPAR" ['(']
          (skipWs s (skipWs s i + (runOf isCnameChar s (skipWs s i)).length)))
          = mkTok "LPAR" ['(']
            (skipWs s (skipWs s i + (runOf isCnameChar s (skipWs s i)).length)) :=
        tmapRewrite_nonTname tmap _ (by simp only [mkTok]; decide)
      have hRP : tmapRewrite tmap (mkTok "RPAR" [')'] (skipWs s m))
          = mkTok "RPAR" [')'] (skipWs s m) :=
        tmapRewrite_nonTname tmap _ (by simp only [mkTok]; decide)
      have hPfst := accParams_first hps
      have hPfst' : ((skipWs s (skipWs s i +
          (runOf isCnameChar s (skipWs s i)).length) + 1 : Nat) : Int)
          ≤ first_match ps := by
        rw [hPfst]
        exact_mod_cast skipWs_ge s _
      show emit_string rwEmitFn
          (.tree "start".data
            [mapTokens (tmapRewrite tmap) ty,
             .tree "fnname".data
               [.token (tmapRewrite tmap
                 (mkTok "CNAME" (runOf isCnameChar s (skipWs s i)) (skipWs s i)))],
             .token (tmapRewrite tmap (mkTok "LPAR" ['(']
               (skipWs s (skipWs s i + (runOf isCnameChar s (skipWs s i)).length)))),
             mapTokens (tmapRewrite tmap) ps,
             .token (tmapRewrite tmap (mkTok "RPAR" [')'] (skipWs s m)))])
          { sref := s, sval := [], pos := -1 } = _
      rw [emit_rw_tree _ _ _ (by decide)]
      show emit_string rwEmitFn
          (.token (tmapRewrite tmap (mkTok "RPAR" [')'] (skipWs s m))))
          (emit_string rwEmitFn (mapTokens (tmapRewrite tmap) ps)
            (emit_string rwEmitFn
              (.token (tmapRewrite tmap (mkTok "LPAR" ['(']
                (skipWs s (skipWs s i +
                  (runOf isCnameChar s (skipWs s i)).length)))))
              (emit_string rwEmitFn
                (.tree "fnname".data
                  [.token (tmapRewrite tmap
                    (mkTok "CNAME" (runOf isCnameChar s (skipWs s i))
                      (skipWs s i)))])
                (emit_string rwEmitFn (mapTokens (tmapRewrite tmap) ty)
                  { sref := s, sval := [], pos := -1 })))) = _
      simp only [emit_rw_token]
      rw [emitA_T ht tmap _ _ (by
        rw [accT_first ht]
        omega)]
      rw [emit_rw_tree ("fnname".data)
        [.token (tmapRewrite tmap
          (mkTok "CNAME" (runOf isCnameChar s (skipWs s i)) (skipWs s i)))]
        _ (by decide)]
      show StringEmit.advance
          (emit_string rwEmitFn (mapTokens (tmapRewrite tmap) ps)
            (StringEmit.advance
              (emit_string rwEmitFn
                (.token (tmapRewrite tmap
                  (mkTok "CNAME" (runOf isCnameChar s (skipWs s i)) (skipWs s i))))
                { sref := s,
                  sval := [] ++ gapTo s (-1) (first_match ty).toNat
                    ++ rend tmap s ty,
                  pos := ((i : Nat) : Int) })
              (tmapRewrite tmap (mkTok "LPAR" ['(']
                (skipWs s (skipWs s i +
                  (runOf isCnameChar s (skipWs s i)).length))))))
          (tmapRewrite tmap (mkTok "RPAR" [')'] (skipWs s m))) = _
      rw [emit_rw_token, hCN,
        advance_gapTo s _ _ _
          (by simp only [mkTok]
              have := skipWs_ge s i
              omega)
          (by simp only [mkTok]; omega)]
      rw [show ((mkTok "CNAME" (runOf isCnameChar s (skipWs s i))
          (skipWs s i)).endColumn - 1 : Nat)
          = skipWs s i + (runOf isCnameChar s (skipWs s i)).length by
        simp only [mkTok]; omega]
      rw [hLP, hRP]
      rw [advance_gapTo s _ _
          (mkTok "LPAR" ['(']
            (skipWs s (skipWs s i + (runOf isCnameChar s (skipWs s i)).length)))
          (by simp only [mkTok]
              have := skipWs_ge s
                (skipWs s i + (runOf isCnameChar s (skipWs s i)).length)
              omega)
          (by simp only [mkTok]; omega)]
      rw [show ((mkTok "LPAR" ['(']
          (skipWs s (skipWs s i +
            (runOf isCnameChar s (skipWs s i)).length))).endColumn - 1 : Nat)
          = skipWs s (skipWs s i + (runOf isCnameChar s (skipWs s i)).length) + 1 by
        simp only [mkTok, List.length_singleton]; omega]
      rw [emitA_Params hps tmap _ _ hPfst']
      rw [advance_gapTo s _ _
          (mkTok "RPAR" [')'] (skipWs s m))
          (by simp only [mkTok]
              have := skipWs_ge s m
              omega)
          (by simp only [mkTok]; omega)]
      simp only [StringEmit.mk.injEq]
      refine ⟨trivial, ?_, by simp only [mkTok, List.length_singleton]; omega⟩
      have hD1 : isDefvalNode ty = false := accT_not_defval ht
      have hDfn : isDefvalNode (.tree "fnname".data
          [.token (mkTok "CNAME" (runOf isCnameChar s (skipWs s i))
            (skipWs s i))]) = false := rfl
      have hDps : isDefvalNode ps = false := accParams_not_defval hps
      have hrend : rend tmap s (.tree "start".data
          [ty,
           .tree "fnname".data
             [.token (mkTok "CNAME" (runOf isCnameChar s (skipWs s i))
               (skipWs s i))],
           .token (mkTok "LPAR" ['(']
             (skipWs s (skipWs s i + (runOf isCnameChar s (skipWs s i)).length))),
           ps,
           .token (mkTok "RPAR" [')'] (skipWs s m))])
          = rend tmap s ty ++ natSlice s i (skipWs s i)
            ++ (runOf isCnameChar s (skipWs s i)
              ++ natSlice s (skipWs s i + (runOf isCnameChar s (skipWs s i)).length)
                  (skipWs s (skipWs s i +
                    (runOf isCnameChar s (skipWs s i)).length))
              ++ (['(']
                ++ natSlice s
                    (skipWs s (skipWs s i +
                      (runOf isCnameChar s (skipWs s i)).length) + 1)
                    (first_match ps).toNat
                ++ (rend tmap s ps
                  ++ natSlice s m (skipWs s m)
                  ++ [')']))) := by
        simp only [rend, rendList, hD1, hDfn, hDps, isDefvalNode_token, hCN]
        rw [accT_last ht, accParams_first hps, accParams_last hps]
        simp only [first_match, last_match, lastOfList, mkTok, Int.toNat_natCast,
          List.length_singleton]
        rw [show ((((skipWs s i + 1 : Nat) : Int) - 1)).toNat = skipWs s i by omega]
        rw [show ((((skipWs s i + (runOf isCnameChar s (skipWs s i)).length + 1
            : Nat) : Int) - 1)).toNat
            = skipWs s i + (runOf isCnameChar s (skipWs s i)).length by omega]
        rw [show (((skipWs s (skipWs s i +
            (runOf isCnameChar s (skipWs s i)).length) + 1 : Nat) : Int) - 1).toNat
            = skipWs s (skipWs s i + (runOf isCnameChar s (skipWs s i)).length) by
          omega]
        rw [show ((((skipWs s (skipWs s i +
            (runOf isCnameChar s (skipWs s i)).length) + 1 + 1 : Nat) : Int)
            - 1)).toNat
            = skipWs s (skipWs s i +
                (runOf isCnameChar s (skipWs s i)).length) + 1 by omega]
        rw [show ((((skipWs s m + 1 : Nat) : Int) - 1)).toNat = skipWs s m by omega]
        simp [List.append_assoc, tmapRewrite]
      rw [hrend, gapTo_natCast, gapTo_natCast, gapTo_natCast]
      simp [List.append_assoc, mkTok, gapTo]

/-- The namespace rewrite of an accepted signature is exactly the rendered
text of its (token-renamed) parse tree. -/
theorem rewrite_signature_rend (s : Str) (t : Node) (tmap : List (Str × Str))
    (h : parse_start s = some t) :
    rewrite_signature s tmap = some (rend tmap s t) := by
  simp only [rewrite_signature, h, Option.map_some']
  obtain ⟨E, hacc⟩ := parse_start_acc s t h
  simp only [rewrite_sig]
  rw [emitA_Start hacc tmap]

/-! ## C8, stage 3: the rendered text reparses (string-position toolkit) -/

/-- `get?` reads the head of the dropped suffix. -/
theorem head_drop (s : Str) (i : Nat) : s.get? i = (s.drop i).head? := by
  rw [List.get?_eq_getElem?, List.head?_eq_getElem?, List.getElem?_drop,
    Nat.add_zero]

/-- `get?` through a known `drop` equation. -/
theorem get?_of_drop (s : Str) (i : Nat) (rest : Str) (hd : s.drop i = rest) :
    s.get? i = rest.head? := by
  rw [head_drop, hd]

/-- Shifting a known `drop` equation. -/
theorem drop_shift (s : Str) (i n : Nat) (rest : Str) (hd : s.drop i = rest) :
    s.drop (i + n) = rest.drop n := by
  subst hd
  rw [List.drop_drop, Nat.add_comm]

/-- The element right after a `takeWhile` prefix fails the predicate. -/
theorem get_takeWhile_len (p : Char → Bool) :
    ∀ (l : List Char) (c : Char),
      l.get? (l.takeWhile p).length = some c → p c = false
  | [], c, h => by cases h
  | d :: t, c, h => by
    by_cases hd : p d
    · rw [List.takeWhile_cons, if_pos hd] at h
      exact get_takeWhile_len p t c h
    · rw [List.takeWhile_cons, if_neg hd] at h
      simp only [List.length_nil, List.get?] at h
      cases h
      simpa using hd

/-- The character ending a maximal run fails the run's predicate. -/
theorem runOf_stop (p : Char → Bool) (s : Str) (i : Nat) (c : Char)
    (h : s.get? (i + (runOf p s i).length) = some c) : p c = false := by
  have hh : (s.drop i).get? ((s.drop i).takeWhile p).length = some c := by
    rw [List.get?_eq_getElem?, List.getElem?_drop, ← List.get?_eq_getElem?]
    exact h
  exact get_takeWhile_len p (s.drop i) c hh

/-- `takeWhile` over an all-satisfying prefix glued to a failing head. -/
theorem takeWhile_all_head (p : Char → Bool) :
    ∀ (g k : List Char), (∀ c ∈ g, p c = true) →
      (∀ c, k.head? = some c → p c = false) →
      (g ++ k).takeWhile p = g
  | [], k, _, hk => by
    cases k with
    | nil => rfl
    | cons d t =>
      simp only [List.nil_append, List.takeWhile_cons]
      rw [if_neg (by simp [hk d rfl])]
  | d :: g, k, hg, hk => by
    simp only [List.cons_append, List.takeWhile_cons]
    rw [if_pos (hg d (List.mem_cons_self d g))]
    rw [takeWhile_all_head p g k (fun c hc => hg c (List.mem_cons_of_mem d hc)) hk]

/-- `dropWhile` passes over an all-satisfying prefix. -/
theorem dropWhile_all (p : Char → Bool) :
    ∀ (g k : List Char), (∀ c ∈ g, p c = true) →
      (g ++ k).dropWhile p = k.dropWhile p
  | [], k, _ => by simp
  | d :: g, k, hg => by
    simp only [List.cons_append, List.dropWhile_cons]
    rw [if_pos (hg d (List.mem_cons_self d g))]
    exact dropWhile_all p g k fun c hc => hg c (List.mem_cons_of_mem d hc)

/-- `skipWs` through a known `drop` decomposition. -/
theorem skipWs_drop (s : Str) (i : Nat) (g k : Str) (hd : s.drop i = g ++ k)
    (hg : ∀ c ∈ g, isWsChar c = true)
    (hk : ∀ c, k.head? = some c → isWsChar c = false) :
    skipWs s i = i + g.length := by
  rw [skipWs, hd, takeWhile_all_head isWsChar g k hg hk]

/-- Reading past a `takeWhile` prefix is reading the `dropWhile` head. -/
theorem get?_len_takeWhile (p : Char → Bool) :
    ∀ l : List Char, l.get? (l.takeWhile p).length = (l.dropWhile p).head?
  | [] => rfl
  | d :: t => by
    by_cases hd : p d
    · rw [List.takeWhile_cons, if_pos hd, List.dropWhile_cons, if_pos hd]
      simpa using get?_len_takeWhile p t
    · rw [List.takeWhile_cons, if_neg hd, List.dropWhile_cons, if_neg hd]
      rfl

/-- A head surviving `dropWhile` fails the predicate. -/
theorem dropWhile_head_false (p : Char → Bool) :
    ∀ (l : List Char) (c : Char), (l.dropWhile p).head? = some c → p c = false
  | [], c, h => by cases h
  | d :: t, c, h => by
    by_cases hd : p d
    · rw [List.dropWhile_cons, if_pos hd] at h
      exact dropWhile_head_false p t c h
    · rw [List.dropWhile_cons, if_neg hd] at h
      cases h
      simpa using hd

/-- Every character of a maximal run satisfies its predicate. -/
theorem runOf_all (p : Char → Bool) (s : Str) (i : Nat) :
    ∀ c ∈ runOf p s i, p c = true := fun _ hc => List.mem_takeWhile_imp hc

/-- A nonempty `takeWhile` keeps the head of the list. -/
theorem takeWhile_head (p : Char → Bool) :
    ∀ l : List Char, l.takeWhile p ≠ [] → (l.takeWhile p).head? = l.head?
  | [], h => absurd rfl h
  | d :: t, h => by
    by_cases hd : p d
    · rw [List.takeWhile_cons, if_pos hd]; rfl
    · rw [List.takeWhile_cons, if_neg hd] at h; exact absurd rfl h

/-- A satisfying head survives `takeWhile`. -/
theorem takeWhile_cons_of_head (p : Char → Bool) :
    ∀ (l : List Char) (c : Char), l.head? = some c → p c = true →
      ∃ t, l.takeWhile p = c :: t
  | [], c, hc, _ => by cases hc
  | d :: t, c, hc, hp => by
    have hd : d = c := by simpa using hc
    subst hd
    rw [List.takeWhile_cons, if_pos hp]
    exact ⟨t.takeWhile p, rfl⟩

/-- A nonempty run starts with the character at its start position. -/
theorem runOf_head (p : Char → Bool) (s : Str) (i : Nat)
    (h : runOf p s i ≠ []) : (runOf p s i).head? = s.get? i := by
  rw [head_drop]
  exact takeWhile_head p (s.drop i) h

/-- A satisfying character at the start position makes the run nonempty. -/
theorem runOf_cons (p : Char → Bool) (s : Str) (i : Nat) (c : Char)
    (hc : s.get? i = some c) (hp : p c = true) :
    ∃ t, runOf p s i = c :: t := by
  rw [head_drop] at hc
  exact takeWhile_cons_of_head p (s.drop i) c hc hp

/-- The whitespace gap the renderer copies is a `takeWhile` of the suffix. -/
theorem wsGap (s : Str) (a : Nat) :
    natSlice s a (skipWs s a) = (s.drop a).takeWhile isWsChar := by
  rw [natSlice, skipWs, Nat.add_sub_cancel_left]
  exact (List.prefix_iff_eq_take.mp (List.takeWhile_prefix isWsChar)).symm

/-- Whitespace gaps contain only whitespace. -/
theorem wsGap_all (s : Str) (a : Nat) :
    ∀ c ∈ natSlice s a (skipWs s a), isWsChar c = true := by
  rw [wsGap]
  exact fun _ hc => List.mem_takeWhile_imp hc

/-- Length of a whitespace gap. -/
theorem wsGap_len (s : Str) (a : Nat) :
    (natSlice s a (skipWs s a)).length = skipWs s a - a := by
  rw [wsGap, skipWs, Nat.add_sub_cancel_left]

/-- An empty whitespace gap means no whitespace was skipped. -/
theorem wsGap_empty (s : Str) (a : Nat)
    (h : natSlice s a (skipWs s a) = []) : skipWs s a = a := by
  have hl := wsGap_len s a
  rw [h] at hl
  simp only [List.length_nil] at hl
  have := skipWs_ge s a
  omega

/-- Whitespace characters are not `TNAME` characters. -/
theorem ws_not_tname (c : Char) (h : isWsChar c = true) :
    isTnameChar c = false := by
  have hh : c = ' ' ∨ c = '\t' ∨ c = '\n' ∨ c = '\r' ∨ c = '\x0b' ∨
      c = '\x0c' := by
    simpa only [isWsChar, Bool.or_eq_true, decide_eq_true_eq, or_assoc] using h
  rcases hh with h | h | h | h | h | h <;> subst h <;> decide

/-- `TNAME` characters are not whitespace. -/
theorem tname_not_ws (c : Char) (h : isTnameChar c = true) :
    isWsChar c = false := by
  cases hw : isWsChar c
  · rfl
  · rw [ws_not_tname c hw] at h; cases h

/-- `CNAME` start characters are `TNAME` characters. -/
theorem cname_start_tname (c : Char) (h : isCnameStart c = true) :
    isTnameChar c = true := by
  simp only [isCnameStart, Bool.or_eq_true, decide_eq_true_eq] at h
  simp only [isTnameChar, Bool.or_eq_true, decide_eq_true_eq]
  rcases h with h | h
  · exact Or.inl (Or.inl (by simp [Char.isAlphanum, h]))
  · exact Or.inl (Or.inr h)

/-- `CNAME` continuation characters are `TNAME` characters. -/
theorem cname_tname (c : Char) (h : isCnameChar c = true) :
    isTnameChar c = true := by
  simp only [isCnameChar, Bool.or_eq_true, decide_eq_true_eq] at h
  simp only [isTnameChar, Bool.or_eq_true, decide_eq_true_eq]
  rcases h with h | h
  · exact Or.inl (Or.inl h)
  · exact Or.inl (Or.inr h)

/-- `CNAME` start characters are not whitespace. -/
theorem cname_start_not_ws (c : Char) (h : isCnameStart c = true) :
    isWsChar c = false := tname_not_ws c (cname_start_tname c h)

/-- Whitespace characters are not `CNAME` characters. -/
theorem ws_not_cname (c : Char) (h : isWsChar c = true) :
    isCnameChar c = false := by
  have hh : c = ' ' ∨ c = '\t' ∨ c = '\n' ∨ c = '\r' ∨ c = '\x0b' ∨
      c = '\x0c' := by
    simpa only [isWsChar, Bool.or_eq_true, decide_eq_true_eq, or_assoc] using h
  rcases hh with h | h | h | h | h | h <;> subst h <;> decide

/-- Heads of an all-`P` prefix glued to a `P`-headed list satisfy `P`. -/
theorem head_append_all (P : Char → Prop) (g l : Str)
    (hg : ∀ c ∈ g, P c) (hl : ∀ c, l.head? = some c → P c) :
    ∀ c, (g ++ l).head? = some c → P c := by
  cases g with
  | nil => exact hl
  | cons d t =>
    intro c hc
    have hd : d = c := by simpa using hc
    exact hd ▸ hg d (List.mem_cons_self d t)

/-- Membership in a `lookup` association list. -/
theorem lookup_mem : ∀ (tmap : List (Str × Str)) (k v : Str),
    tmap.lookup k = some v → (k, v) ∈ tmap
  | [], k, v, h => by cases h
  | (a, b) :: t, k, v, h => by
    cases hk : k == a with
    | true =>
      simp only [List.lookup, hk] at h
      have ha : k = a := by simpa using hk
      have hv : b = v := by simpa using h
      subst ha
      subst hv
      exact List.mem_cons_self _ _
    | false =>
      simp only [List.lookup, hk] at h
      exact List.mem_cons_of_mem _ (lookup_mem t k v h)

/-- Facts about any value the token map can produce. -/
theorem tmapVal_ok (tmap : List (Str × Str)) (htm : tmapValsOK tmap = true)
    (k v : Str) (h : tmap.lookup k = some v) :
    v ≠ [] ∧ (∀ c ∈ v, isTnameChar c = true) ∧ v ≠ "const".data := by
  have hm := lookup_mem tmap k v h
  rw [tmapValsOK, List.all_eq_true] at htm
  have hv := htm _ hm
  simp only [Bool.and_eq_true, Bool.not_eq_true', bne_iff_ne, ne_eq,
    List.all_eq_true] at hv
  refine ⟨?_, hv.1.2, hv.2⟩
  intro hnil
  rw [hnil] at hv
  simp at hv

/-- A renamed `TNAME` value stays a nonempty `TNAME` run. -/
theorem renamed_tname_val (tmap : List (Str × Str)) (htm : tmapValsOK tmap = true)
    (tk : Tok) (hne : tk.value ≠ [])
    (hall : ∀ c ∈ tk.value, isTnameChar c = true) :
    (tmapRewrite tmap tk).value ≠ [] ∧
    (∀ c ∈ (tmapRewrite tmap tk).value, isTnameChar c = true) := by
  rw [tmapRewrite]
  by_cases hty : tk.ttype = "TNAME".data
  · rw [if_pos hty]
    cases hl : tmap.lookup tk.value with
    | none => exact ⟨hne, hall⟩
    | some v =>
      obtain ⟨h1, h2, _⟩ := tmapVal_ok tmap htm tk.value v hl
      exact ⟨h1, h2⟩
  · rw [if_neg hty]
    exact ⟨hne, hall⟩

/-- A renamed `TNAME` value is not `const` when the original is not. -/
theorem renamed_ne_const (tmap : List (Str × Str)) (htm : tmapValsOK tmap = true)
    (tk : Tok) (hval : tk.value ≠ "const".data) :
    (tmapRewrite tmap tk).value ≠ "const".data := by
  rw [tmapRewrite]
  by_cases hty : tk.ttype = "TNAME".data
  · rw [if_pos hty]
    cases hl : tmap.lookup tk.value with
    | none => exact hval
    | some v => exact (tmapVal_ok tmap htm tk.value v hl).2.2
  · rw [if_neg hty]
    exact hval

/-- A renamed `TNAME` value is never itself a key of a key-free map. -/
theorem renamed_lookup_none (tmap : List (Str × Str))
    (hkf : tmapKeyFree tmap = true) (tk : Tok)
    (hty : tk.ttype = "TNAME".data) :
    tmap.lookup (tmapRewrite tmap tk).value = none := by
  rcases hl : tmap.lookup tk.value with _ | v
  · have hr : tmapRewrite tmap tk = tk := by
      rw [tmapRewrite, if_pos hty, hl]
    rw [hr]
    exact hl
  · have hr : tmapRewrite tmap tk = { tk with value := v } := by
      rw [tmapRewrite, if_pos hty, hl]
    rw [hr]
    have hm := lookup_mem tmap tk.value v hl
    rw [tmapKeyFree, List.all_eq_true] at hkf
    have h2 := hkf _ hm
    simp only [Option.isNone_iff_eq_none] at h2
    exact h2

/-- Head of an append with a nonempty left part. -/
theorem head?_append_ne (l z : Str) (h : l ≠ []) : (l ++ z).head? = l.head? := by
  cases l with
  | nil => exact absurd rfl h
  | cons d t => rfl

/-- A list with a failing head survives `dropWhile` unchanged. -/
theorem dropWhile_head_neg (p : Char → Bool) (l : Str)
    (h : ∀ c, l.head? = some c → p c = false) : l.dropWhile p = l := by
  cases l with
  | nil => rfl
  | cons d t =>
    rw [List.dropWhile_cons, if_neg (by simp [h d rfl])]

/-- The first character after a whitespace gap glued to a suffix whose
head reads the post-gap source position: if the source run ending at `a`
is maximal, that character is not a `TNAME` character. -/
theorem boundary_not_tname (s : Str) (a : Nat) (rest k2 : Str)
    (hrest : rest = natSlice s a (skipWs s a) ++ k2)
    (hk2 : ∀ c, k2.head? = some c → s.get? (skipWs s a) = some c)
    (hstop : ∀ c, s.get? a = some c → isTnameChar c = false) :
    ∀ c, rest.head? = some c → isTnameChar c = false := by
  intro c hc
  rcases hgap : natSlice s a (skipWs s a) with _ | ⟨d, gt⟩
  · have ha := wsGap_empty s a hgap
    rw [hrest, hgap, List.nil_append] at hc
    have hgc := hk2 c hc
    rw [ha] at hgc
    exact hstop c hgc
  · rw [hrest, hgap] at hc
    simp only [List.cons_append, List.head?_cons] at hc
    have hd : d = c := by simpa using hc
    have hw : isWsChar d = true :=
      wsGap_all s a d (by rw [hgap]; exact List.mem_cons_self d gt)
    exact hd ▸ ws_not_tname d hw

/-- `CNAME` start characters are `CNAME` characters. -/
theorem cname_start_cname (c : Char) (h : isCnameStart c = true) :
    isCnameChar c = true := by
  simp only [isCnameStart, Bool.or_eq_true, decide_eq_true_eq] at h
  simp only [isCnameChar, Bool.or_eq_true, decide_eq_true_eq]
  rcases h with h | h
  · exact Or.inl (by simp [Char.isAlphanum, h])
  · exact Or.inr h

/-- Completeness of `lex_cname` on a rendered `CNAME` token. -/
theorem compName : ∀ {s : Str} {i : Nat} {nm : Tok} {j : Nat},
    AccName s i nm j → ∀ (out g k : Str) (π : Nat),
    out.drop π = g ++ (nm.value ++ k) →
    (∀ c ∈ g, isWsChar c = true) →
    (∀ c, k.head? = some c → isCnameChar c = false) →
    lex_cname out π = some (mkTok "CNAME" nm.value (π + g.length),
      π + g.length + nm.value.length)
  | _, _, _, _, .mk s i c hc hst => fun out g k π hdrop hg hk => by
    simp only [mkTok] at hdrop ⊢
    obtain ⟨tr, hrun⟩ := runOf_cons isCnameChar s (skipWs s i) c hc
      (cname_start_cname c hst)
    have hnmv_ne : runOf isCnameChar s (skipWs s i) ≠ [] := by
      rw [hrun]; simp
    have hnmv_all : ∀ ch ∈ runOf isCnameChar s (skipWs s i),
        isCnameChar ch = true := runOf_all _ s _
    have hhead : (runOf isCnameChar s (skipWs s i)).head? = some c := by
      rw [hrun]; rfl
    have hheadnk : ∀ ch,
        (runOf isCnameChar s (skipWs s i) ++ k).head? = some ch → ch = c := by
      rw [head?_append_ne _ _ hnmv_ne, hhead]
      intro ch hch
      simpa using hch.symm
    have hskip : skipWs out π = π + g.length :=
      skipWs_drop out π g _ hdrop hg (by
        intro ch hch
        rw [hheadnk ch hch]
        exact cname_start_not_ws c hst)
    have hdrop2 : out.drop (π + g.length)
        = runOf isCnameChar s (skipWs s i) ++ k := by
      rw [drop_shift out π g.length _ hdrop, List.drop_left]
    have hget : out.get? (π + g.length) = some c := by
      rw [get?_of_drop out _ _ hdrop2, head?_append_ne _ _ hnmv_ne, hhead]
    have hrout : runOf isCnameChar out (π + g.length)
        = runOf isCnameChar s (skipWs s i) := by
      unfold runOf
      rw [hdrop2]
      exact takeWhile_all_head _ _ _ hnmv_all hk
    simp only [lex_cname, hskip, hget, if_pos hst, hrout, mkTok]

/-- A `head?` hit is a member. -/
theorem head?_mem (l : Str) (c : Char) (h : l.head? = some c) : c ∈ l := by
  cases l with
  | nil => cases h
  | cons d t =>
    have hd : d = c := by simpa using h
    exact hd ▸ List.mem_cons_self d t

/-- A `core_type` derivation needs a nonempty `TNAME` run at its start. -/
theorem accC_ne : ∀ {s : Str} {a : Nat} {C : Node} {j : Nat},
    AccC s a C j → runOf isTnameChar s (skipWs s a) ≠ []
  | _, _, _, _, .tname _ _ hne => hne
  | _, _, _, _, .template _ _ _ _ hne _ _ _ => hne

/-- The source character opening a `core_type` is a `TNAME` character. -/
theorem accC_start_char {s : Str} {a : Nat} {C : Node} {j : Nat}
    (h : AccC s a C j) :
    ∃ ch, s.get? (skipWs s a) = some ch ∧ isTnameChar ch = true := by
  have hne := accC_ne h
  have hhd := runOf_head isTnameChar s (skipWs s a) hne
  rcases hl : runOf isTnameChar s (skipWs s a) with _ | ⟨d, t⟩
  · exact absurd hl hne
  · refine ⟨d, ?_, ?_⟩
    · rw [← hhd, hl]; rfl
    · exact runOf_all isTnameChar s (skipWs s a) d (by rw [hl]; exact List.mem_cons_self d t)

/-- A whitespace gap opening onto a `TNAME` character after a maximal run
is nonempty. -/
theorem wsGap_ne (s : Str) (a : Nat)
    (hstop : ∀ ch, s.get? a = some ch → isTnameChar ch = false)
    (hstart : ∃ ch, s.get? (skipWs s a) = some ch ∧ isTnameChar ch = true) :
    natSlice s a (skipWs s a) ≠ [] := by
  intro hemp
  obtain ⟨ch, hg, ht⟩ := hstart
  rw [wsGap_empty s a hemp] at hg
  rw [hstop ch hg] at ht
  cases ht

/-- Unfolding the two-child renderer step. -/
theorem rendList_cons (tmap : List (Str × Str)) (s : Str) (c c' : Node)
    (cs : List Node) :
    rendList tmap s (c :: c' :: cs)
    = rend tmap s c ++
      ((if isDefvalNode c' then []
        else natSlice s (last_match c).toNat (first_match c').toNat) ++
       rendList tmap s (c' :: cs)) := by
  simp [rendList, List.append_assoc]

/-- The rendering of a `core_type` starts with its renamed `TNAME` value. -/
theorem rendC_decomp (tmap : List (Str × Str)) :
    ∀ {s : Str} {a : Nat} {C : Node} {j : Nat}, AccC s a C j →
    ∃ z, rend tmap s C
      = (tmapRewrite tmap
          (mkTok "TNAME" (runOf isTnameChar s (skipWs s a)) (skipWs s a))).value
        ++ z
  | _, _, _, _, .tname s a _ => ⟨[], by simp [rend, rendList]⟩
  | _, _, _, _, .template s a tl m _ _ _ _ =>
    ⟨(if isDefvalNode (.token (mkTok "LT" ['<']
          (skipWs s (skipWs s a + (runOf isTnameChar s (skipWs s a)).length))))
        then []
        else natSlice s
          (last_match (.token (mkTok "TNAME"
            (runOf isTnameChar s (skipWs s a)) (skipWs s a)))).toNat
          (first_match (.token (mkTok "LT" ['<']
            (skipWs s (skipWs s a +
              (runOf isTnameChar s (skipWs s a)).length))))).toNat) ++
      rendList tmap s
        [.token (mkTok "LT" ['<']
           (skipWs s (skipWs s a + (runOf isTnameChar s (skipWs s a)).length))),
         tl, .token (mkTok "GT" ['>'] (skipWs s m))], by
      have h1 : rend tmap s (.tree "core_type".data
          [.tree "template".data
            [.token (mkTok "TNAME" (runOf isTnameChar s (skipWs s a)) (skipWs s a)),
             .token (mkTok "LT" ['<']
               (skipWs s (skipWs s a + (runOf isTnameChar s (skipWs s a)).length))),
             tl, .token (mkTok "GT" ['>'] (skipWs s m))]])
          = rendList tmap s
            [.token (mkTok "TNAME" (runOf isTnameChar s (skipWs s a)) (skipWs s a)),
             .token (mkTok "LT" ['<']
               (skipWs s (skipWs s a + (runOf isTnameChar s (skipWs s a)).length))),
             tl, .token (mkTok "GT" ['>'] (skipWs s m))] := by
        simp [rend, rendList]
      rw [h1, rendList_cons]
      rfl⟩

/-- A child list led by a `core_type` renders to a `TNAME`-led string. -/
theorem rendList_head_core (tmap : List (Str × Str))
    (htm : tmapValsOK tmap = true) {s : Str} {a : Nat} {core : Node} {b : Nat}
    (rest : List Node) (hc : AccC s a core b)
    (hsplit : rendList tmap s (core :: rest) = rend tmap s core
      ++ (rendList tmap s (core :: rest)).drop (rend tmap s core).length) :
    ∃ ch z, rendList tmap s (core :: rest) = ch :: z ∧ isWsChar ch = false := by
  obtain ⟨z0, hz0⟩ := rendC_decomp tmap hc
  have hfacts := renamed_tname_val tmap htm
    (mkTok "TNAME" (runOf isTnameChar s (skipWs s a)) (skipWs s a))
    (by simpa [mkTok] using accC_ne hc)
    (by simpa [mkTok] using runOf_all isTnameChar s (skipWs s a))
  rcases hval : (tmapRewrite tmap
      (mkTok "TNAME" (runOf isTnameChar s (skipWs s a)) (skipWs s a))).value
    with _ | ⟨ch, zz⟩
  · exact absurd hval hfacts.1
  · have hch : isTnameChar ch = true :=
      hfacts.2 ch (by rw [hval]; exact List.mem_cons_self ch zz)
    refine ⟨ch, zz ++ z0 ++ (rendList tmap s (core :: rest)).drop
      (rend tmap s core).length, ?_, tname_not_ws ch hch⟩
    rw [hsplit, hz0, hval]
    simp [List.append_assoc]

/-- The rendering of an accepted `type` starts with a non-whitespace
character. -/
theorem rendT_head (tmap : List (Str × Str)) (htm : tmapValsOK tmap = true) :
    ∀ {s : Str} {i : Nat} {ty : Node} {j : Nat}, AccT s i ty j →
    ∃ ch z, rend tmap s ty = ch :: z ∧ isWsChar ch = false
  | _, _, _, _, .const_ref s i core j r k hrun hc hr => by
    have hCt : tmapRewrite tmap
        (mkTok "CONST" (runOf isTnameChar s (skipWs s i)) (skipWs s i))
        = mkTok "CONST" (runOf isTnameChar s (skipWs s i)) (skipWs s i) :=
      tmapRewrite_nonTname tmap _ (by simp only [mkTok]; decide)
    have hpre : ∃ z, rend tmap s (.tree "type".data
        [.token (mkTok "CONST" (runOf isTnameChar s (skipWs s i)) (skipWs s i)),
         core, r]) = "const".data ++ z := by
      have h1 : rend tmap s (.tree "type".data
          [.token (mkTok "CONST" (runOf isTnameChar s (skipWs s i)) (skipWs s i)),
           core, r])
          = rendList tmap s
            [.token (mkTok "CONST" (runOf isTnameChar s (skipWs s i)) (skipWs s i)),
             core, r] := by
        simp [rend]
      have h3 : rend tmap s
          (.token (mkTok "CONST" (runOf isTnameChar s (skipWs s i)) (skipWs s i)))
          = "const".data := by
        simp only [rend, hCt, mkTok]
        exact hrun
      rw [h1, rendList_cons, h3]
      exact ⟨_, rfl⟩
    obtain ⟨z, hz⟩ := hpre
    exact ⟨'c', "onst".data ++ z, by rw [hz]; rfl, by decide⟩
  | _, _, _, _, .const_noref s i core j hrun hc => by
    have hCt : tmapRewrite tmap
        (mkTok "CONST" (runOf isTnameChar s (skipWs s i)) (skipWs s i))
        = mkTok "CONST" (runOf isTnameChar s (skipWs s i)) (skipWs s i) :=
      tmapRewrite_nonTname tmap _ (by simp only [mkTok]; decide)
    have hpre : ∃ z, rend tmap s (.tree "type".data
        [.token (mkTok "CONST" (runOf isTnameChar s (skipWs s i)) (skipWs s i)),
         core]) = "const".data ++ z := by
      have h1 : rend tmap s (.tree "type".data
          [.token (mkTok "CONST" (runOf isTnameChar s (skipWs s i)) (skipWs s i)),
           core])
          = rendList tmap s
            [.token (mkTok "CONST" (runOf isTnameChar s (skipWs s i)) (skipWs s i)),
             core] := by
        simp [rend]
      have h3 : rend tmap s
          (.token (mkTok "CONST" (runOf isTnameChar s (skipWs s i)) (skipWs s i)))
          = "const".data := by
        simp only [rend, hCt, mkTok]
        exact hrun
      rw [h1, rendList_cons, h3]
      exact ⟨_, rfl⟩
    obtain ⟨z, hz⟩ := hpre
    exact ⟨'c', "onst".data ++ z, by rw [hz]; rfl, by decide⟩
  | _, _, _, _, .plain_ref s i core j r k hrun hc hr => by
    have h1 : rend tmap s (.tree "type".data [core, r])
        = rendList tmap s [core, r] := by simp [rend]
    have hsplit : rendList tmap s [core, r] = rend tmap s core
        ++ (rendList tmap s [core, r]).drop (rend tmap s core).length := by
      rw [rendList_cons, List.drop_left]
    obtain ⟨ch, z, hz, hw⟩ := rendList_head_core tmap htm [r] hc hsplit
    exact ⟨ch, z, by rw [h1, hz], hw⟩
  | _, _, _, _, .plain_noref s i core j hrun hc => by
    have h1 : rend tmap s (.tree "type".data [core])
        = rendList tmap s [core] := by simp [rend]
    have hsplit : rendList tmap s [core] = rend tmap s core
        ++ (rendList tmap s [core]).drop (rend tmap s core).length := by
      show rend tmap s core
        = rend tmap s core ++ (rend tmap s core).drop (rend tmap s core).length
      rw [List.drop_length, List.append_nil]
    obtain ⟨ch, z, hz, hw⟩ := rendList_head_core tmap htm [] hc hsplit
    exact ⟨ch, z, by rw [h1, hz], hw⟩

/-- Rendering of a bare-`TNAME` `core_type`. -/
theorem rendC_tname_eq (tmap : List (Str × Str)) (s : Str) (a : Nat) :
    rend tmap s (.tree "core_type".data
      [.token (mkTok "TNAME" (runOf isTnameChar s (skipWs s a)) (skipWs s a))])
    = (tmapRewrite tmap
        (mkTok "TNAME" (runOf isTnameChar s (skipWs s a)) (skipWs s a))).value := by
  simp [rend, rendList]

/-- Rendering of a `template` `core_type`. -/
theorem rendC_template_eq (tmap : List (Str × Str)) (s : Str) (a : Nat)
    (tl : Node) (m : Nat)
    (htl : AccL s
      (skipWs s (skipWs s a + (runOf isTnameChar s (skipWs s a)).length) + 1)
      tl m) :
    rend tmap s (.tree "core_type".data
      [.tree "template".data
        [.token (mkTok "TNAME" (runOf isTnameChar s (skipWs s a)) (skipWs s a)),
         .token (mkTok "LT" ['<']
           (skipWs s (skipWs s a + (runOf isTnameChar s (skipWs s a)).length))),
         tl,
         .token (mkTok "GT" ['>'] (skipWs s m))]])
    = (tmapRewrite tmap
        (mkTok "TNAME" (runOf isTnameChar s (skipWs s a)) (skipWs s a))).value
      ++ (natSlice s (skipWs s a + (runOf isTnameChar s (skipWs s a)).length)
            (skipWs s (skipWs s a + (runOf isTnameChar s (skipWs s a)).length))
        ++ ('<' :: (natSlice s
              (skipWs s (skipWs s a +
                (runOf isTnameChar s (skipWs s a)).length) + 1)
              (skipWs s (skipWs s (skipWs s a +
                (runOf isTnameChar s (skipWs s a)).length) + 1))
          ++ (rend tmap s tl
            ++ (natSlice s m (skipWs s m) ++ ['>']))))) := by
  have hLT : tmapRewrite tmap (mkTok "LT" ['<']
      (skipWs s (skipWs s a + (runOf isTnameChar s (skipWs s a)).length)))
      = mkTok "LT" ['<']
        (skipWs s (skipWs s a + (runOf isTnameChar s (skipWs s a)).length)) :=
    tmapRewrite_nonTname tmap _ (by simp only [mkTok]; decide)
  have hGT : tmapRewrite tmap (mkTok "GT" ['>'] (skipWs s m))
      = mkTok "GT" ['>'] (skipWs s m) :=
    tmapRewrite_nonTname tmap _ (by simp only [mkTok]; decide)
  have hDtl : isDefvalNode tl = false := accL_not_defval htl
  simp only [rend, rendList, isDefvalNode_token, hDtl, hLT, hGT]
  rw [accL_first htl, accL_last htl]
  simp only [first_match, last_match, mkTok, Int.toNat_natCast,
    List.length_singleton]
  rw [show ((((skipWs s a +
      (runOf isTnameChar s (skipWs s a)).length + 1 : Nat) : Int) - 1)).toNat
      = skipWs s a + (runOf isTnameChar s (skipWs s a)).length by omega]
  rw [show (((skipWs s (skipWs s a +
      (runOf isTnameChar s (skipWs s a)).length) + 1 : Nat) : Int) - 1).toNat
      = skipWs s (skipWs s a + (runOf isTnameChar s (skipWs s a)).length) by
    omega]
  rw [show ((((skipWs s (skipWs s a +
      (runOf isTnameChar s (skipWs s a)).length) + 1 + 1 : Nat) : Int)
      - 1)).toNat
      = skipWs s (skipWs s a + (runOf isTnameChar s (skipWs s a)).length) + 1 by
    omega]
  simp [List.append_assoc]

/-- Rendering of a `const`-prefixed `type` without refspec. -/
theorem rendT_const_noref_eq (tmap : List (Str × Str)) (s : Str) (i : Nat)
    (core : Node) (j : Nat)
    (hc : AccC s (skipWs s i + (runOf isTnameChar s (skipWs s i)).length) core j) :
    rend tmap s (.tree "type".data
      [.token (mkTok "CONST" (runOf isTnameChar s (skipWs s i)) (skipWs s i)),
       core])
    = runOf isTnameChar s (skipWs s i)
      ++ (natSlice s (skipWs s i + (runOf isTnameChar s (skipWs s i)).length)
            (skipWs s (skipWs s i + (runOf isTnameChar s (skipWs s i)).length))
        ++ rend tmap s core) := by
  have hCt : tmapRewrite tmap
      (mkTok "CONST" (runOf isTnameChar s (skipWs s i)) (skipWs s i))
      = mkTok "CONST" (runOf isTnameChar s (skipWs s i)) (skipWs s i) :=
    tmapRewrite_nonTname tmap _ (by simp only [mkTok]; decide)
  have hD1 : isDefvalNode core = false := accC_not_defval hc
  simp only [rend, rendList, hD1, hCt]
  rw [accC_first hc]
  simp only [last_match, mkTok, Int.toNat_natCast]
  rw [show ((((skipWs s i +
      (runOf isTnameChar s (skipWs s i)).length + 1 : Nat) : Int) - 1)).toNat
      = skipWs s i + (runOf isTnameChar s (skipWs s i)).length by omega]
  simp [List.append_assoc]

/-- Rendering of a `const`-prefixed `type` with refspec. -/
theorem rendT_const_ref_eq (tmap : List (Str × Str)) (s : Str) (i : Nat)
    (core : Node) (j : Nat) (r : Node) (k : Nat)
    (hc : AccC s (skipWs s i + (runOf isTnameChar s (skipWs s i)).length) core j)
    (hr : AccRef s j r k) :
    rend tmap s (.tree "type".data
      [.token (mkTok "CONST" (runOf isTnameChar s (skipWs s i)) (skipWs s i)),
       core, r])
    = runOf isTnameChar s (skipWs s i)
      ++ (natSlice s (skipWs s i + (runOf isTnameChar s (skipWs s i)).length)
            (skipWs s (skipWs s i + (runOf isTnameChar s (skipWs s i)).length))
        ++ (rend tmap s core
          ++ (natSlice s j (skipWs s j) ++ rend tmap s r))) := by
  have hCt : tmapRewrite tmap
      (mkTok "CONST" (runOf isTnameChar s (skipWs s i)) (skipWs s i))
      = mkTok "CONST" (runOf isTnameChar s (skipWs s i)) (skipWs s i) :=
    tmapRewrite_nonTname tmap _ (by simp only [mkTok]; decide)
  have hD1 : isDefvalNode core = false := accC_not_defval hc
  have hD2 : isDefvalNode r = false := accRef_not_defval hr
  simp only [rend, rendList, hD1, hD2, hCt]
  rw [accC_first hc, accC_last hc, accRef_first hr]
  simp only [last_match, mkTok, Int.toNat_natCast]
  rw [show ((((skipWs s i +
      (runOf isTnameChar s (skipWs s i)).length + 1 : Nat) : Int) - 1)).toNat
      = skipWs s i + (runOf isTnameChar s (skipWs s i)).length by omega]
  simp [List.append_assoc]

/-- Rendering of a plain `type` without refspec. -/
theorem rendT_plain_noref_eq (tmap : List (Str × Str)) (s : Str) (core : Node) :
    rend tmap s (.tree "type".data [core]) = rend tmap s core := by
  simp [rend, rendList]

/-- Rendering of a plain `type` with refspec. -/
theorem rendT_plain_ref_eq (tmap : List (Str × Str)) (s : Str) (a : Nat)
    (core : Node) (j : Nat) (r : Node) (k : Nat)
    (hc : AccC s a core j) (hr : AccRef s j r k) :
    rend tmap s (.tree "type".data [core, r])
    = rend tmap s core ++ (natSlice s j (skipWs s j) ++ rend tmap s r) := by
  have hD2 : isDefvalNode r = false := accRef_not_defval hr
  simp only [rend, rendList, hD2]
  rw [accC_last hc, accRef_first hr]
  simp [Int.toNat_natCast, List.append_assoc]

/-- Rendering of a `refspec`. -/
theorem rendRef_eq (tmap : List (Str × Str)) :
    ∀ {s : Str} {b : Nat} {r : Node} {k : Nat}, AccRef s b r k →
    ∃ rc, rend tmap s r = [rc] ∧ s.get? (skipWs s b) = some rc ∧
      k = skipWs s b + 1 ∧ (rc = '&' ∨ rc = '*')
  | _, _, _, _, .ref s b h =>
    ⟨'&', by simp [rend, rendList, tmapRewrite, mkTok], h, rfl, Or.inl rfl⟩
  | _, _, _, _, .ptr s b h =>
    ⟨'*', by simp [rend, rendList, tmapRewrite, mkTok], h, rfl, Or.inr rfl⟩

/-- Rendering of a single-`type` `typelist`. -/
theorem rendL_single_eq (tmap : List (Str × Str)) (s : Str) (ty : Node) :
    rend tmap s (.tree "typelist".data [ty]) = rend tmap s ty := by
  simp [rend, rendList]

/-- Rendering of a comma `typelist`. -/
theorem rendL_cons_eq (tmap : List (Str × Str)) (s : Str) (i : Nat) (ty : Node)
    (j : Nat) (rest : Node) (m : Nat)
    (ht : AccT s i ty j) (hrest : AccL s (skipWs s j + 1) rest m) :
    rend tmap s (.tree "typelist".data
      [ty, .token (mkTok "COMMA" [','] (skipWs s j)), rest])
    = rend tmap s ty
      ++ (natSlice s j (skipWs s j)
        ++ (',' :: (natSlice s (skipWs s j + 1) (skipWs s (skipWs s j + 1))
          ++ rend tmap s rest))) := by
  have hCOMMA : tmapRewrite tmap (mkTok "COMMA" [','] (skipWs s j))
      = mkTok "COMMA" [','] (skipWs s j) :=
    tmapRewrite_nonTname tmap _ (by simp only [mkTok]; decide)
  have hDrest : isDefvalNode rest = false := accL_not_defval hrest
  have hDc : isDefvalNode (.token (mkTok "COMMA" [','] (skipWs s j))) = false :=
    rfl
  simp only [rend, rendList, hDrest, hDc, hCOMMA]
  rw [accT_last ht, accL_first hrest]
  simp only [first_match, last_match, mkTok, Int.toNat_natCast,
    List.length_singleton]
  rw [show ((((skipWs s j + 1 : Nat) : Int) - 1)).toNat = skipWs s j by omega]
  rw [show ((((skipWs s j + 1 + 1 : Nat) : Int) - 1)).toNat = skipWs s j + 1 by
    omega]
  simp [List.append_assoc]

/-- Rendering of a plain `param`. -/
theorem rendP_plain_eq (tmap : List (Str × Str)) (s : Str) (i : Nat) (ty : Node)
    (j : Nat) (ht : AccT s i ty j) :
    rend tmap s (.tree "param".data
      [ty, .tree "param_name".data
        [.token (mkTok "CNAME" (runOf isCnameChar s (skipWs s j)) (skipWs s j))]])
    = rend tmap s ty
      ++ (natSlice s j (skipWs s j) ++ runOf isCnameChar s (skipWs s j)) := by
  have hCN : tmapRewrite tmap
      (mkTok "CNAME" (runOf isCnameChar s (skipWs s j)) (skipWs s j))
      = mkTok "CNAME" (runOf isCnameChar s (skipWs s j)) (skipWs s j) :=
    tmapRewrite_nonTname tmap _ (by simp only [mkTok]; decide)
  have hD1 : isDefvalNode ty = false := accT_not_defval ht
  have hDpn : isDefvalNode (.tree "param_name".data
      [.token (mkTok "CNAME" (runOf isCnameChar s (skipWs s j))
        (skipWs s j))]) = false := rfl
  simp only [rend, rendList, hD1, hDpn, hCN]
  rw [accT_last ht]
  simp only [first_match, mkTok, Int.toNat_natCast]
  rw [show ((((skipWs s j + 1 : Nat) : Int) - 1)).toNat = skipWs s j by omega]
  simp [List.append_assoc]

/-- Rendering of a `param` with a default value (the default is dropped). -/
theorem rendP_defval_eq (tmap : List (Str × Str)) (s : Str) (i : Nat) (ty : Node)
    (j k : Nat) (iv : Node) (ht : AccT s i ty j) :
    rend tmap s (.tree "param".data
      [ty, .tree "param_name".data
        [.token (mkTok "CNAME" (runOf isCnameChar s (skipWs s j)) (skipWs s j))],
       .tree "param_defval".data
         [.token (mkTok "EQUAL" ['='] (skipWs s k)), iv]])
    = rend tmap s ty
      ++ (natSlice s j (skipWs s j) ++ runOf isCnameChar s (skipWs s j)) := by
  have hCN : tmapRewrite tmap
      (mkTok "CNAME" (runOf isCnameChar s (skipWs s j)) (skipWs s j))
      = mkTok "CNAME" (runOf isCnameChar s (skipWs s j)) (skipWs s j) :=
    tmapRewrite_nonTname tmap _ (by simp only [mkTok]; decide)
  have hD1 : isDefvalNode ty = false := accT_not_defval ht
  have hDpn : isDefvalNode (.tree "param_name".data
      [.token (mkTok "CNAME" (runOf isCnameChar s (skipWs s j))
        (skipWs s j))]) = false := rfl
  have hDdv : isDefvalNode (.tree "param_defval".data
      [.token (mkTok "EQUAL" ['='] (skipWs s k)), iv]) = true := rfl
  simp only [rend, rendList, hD1, hDpn, hDdv, hCN]
  rw [accT_last ht]
  simp only [first_match, mkTok, Int.toNat_natCast]
  rw [show ((((skipWs s j + 1 : Nat) : Int) - 1)).toNat = skipWs s j by omega]
  simp [List.append_assoc]

/-- Rendering of a single-`param` `params`. -/
theorem rendPs_single_eq (tmap : List (Str × Str)) (s : Str) (p : Node) :
    rend tmap s (.tree "params".data [p]) = rend tmap s p := by
  simp [rend, rendList]

/-- Rendering of a comma `params`. -/
theorem rendPs_cons_eq (tmap : List (Str × Str)) (s : Str) (i : Nat) (p : Node)
    (j : Nat) (rest : Node) (m : Nat)
    (hp : AccParam s i p j) (hrest : AccParams s (skipWs s j + 1) rest m) :
    rend tmap s (.tree "params".data
      [p, .token (mkTok "COMMA" [','] (skipWs s j)), rest])
    = rend tmap s p
      ++ (natSlice s j (skipWs s j)
        ++ (',' :: (natSlice s (skipWs s j + 1) (skipWs s (skipWs s j + 1))
          ++ rend tmap s rest))) := by
  have hCOMMA : tmapRewrite tmap (mkTok "COMMA" [','] (skipWs s j))
      = mkTok "COMMA" [','] (skipWs s j) :=
    tmapRewrite_nonTname tmap _ (by simp only [mkTok]; decide)
  have hDrest : isDefvalNode rest = false := accParams_not_defval hrest
  have hDc : isDefvalNode (.token (mkTok "COMMA" [','] (skipWs s j))) = false :=
    rfl
  simp only [rend, rendList, hDrest, hDc, hCOMMA]
  rw [accParam_last hp, accParams_first hrest]
  simp only [first_match, last_match, mkTok, Int.toNat_natCast,
    List.length_singleton]
  rw [show ((((skipWs s j + 1 : Nat) : Int) - 1)).toNat = skipWs s j by omega]
  rw [show ((((skipWs s j + 1 + 1 : Nat) : Int) - 1)).toNat = skipWs s j + 1 by
    omega]
  simp [List.append_assoc]

/-- Rendering of a full `start` tree. -/
theorem rendStart_eq (tmap : List (Str × Str)) (s : Str) (ty : Node) (i : Nat)
    (ps : Node) (m : Nat)
    (ht : AccT s 0 ty i)
    (hps : AccParams s
      (skipWs s (skipWs s i + (runOf isCnameChar s (skipWs s i)).length) + 1)
      ps m) :
    rend tmap s (.tree "start".data
      [ty,
       .tree "fnname".data
         [.token (mkTok "CNAME" (runOf isCnameChar s (skipWs s i))
           (skipWs s i))],
       .token (mkTok "LPAR" ['(']
         (skipWs s (skipWs s i + (runOf isCnameChar s (skipWs s i)).length))),
       ps,
       .token (mkTok "RPAR" [')'] (skipWs s m))])
    = rend tmap s ty
      ++ (natSlice s i (skipWs s i)
        ++ (runOf isCnameChar s (skipWs s i)
          ++ (natSlice s (skipWs s i + (runOf isCnameChar s (skipWs s i)).length)
                (skipWs s (skipWs s i +
                  (runOf isCnameChar s (skipWs s i)).length))
            ++ ('(' :: (natSlice s
                  (skipWs s (skipWs s i +
                    (runOf isCnameChar s (skipWs s i)).length) + 1)
                  (skipWs s (skipWs s (skipWs s i +
                    (runOf isCnameChar s (skipWs s i)).length) + 1))
              ++ (rend tmap s ps
                ++ (natSlice s m (skipWs s m) ++ [')']))))))) := by
  have hCN : tmapRewrite tmap
      (mkTok "CNAME" (runOf isCnameChar s (skipWs s i)) (skipWs s i))
      = mkTok "CNAME" (runOf isCnameChar s (skipWs s i)) (skipWs s i) :=
    tmapRewrite_nonTname tmap _ (by simp only [mkTok]; decide)
  have hLP : tmapRewrite tmap (mkTok "LPAR" ['(']
      (skipWs s (skipWs s i + (runOf isCnameChar s (skipWs s i)).length)))
      = mkTok "LPAR" ['(']
        (skipWs s (skipWs s i + (runOf isCnameChar s (skipWs s i)).length)) :=
    tmapRewrite_nonTname tmap _ (by simp only [mkTok]; decide)
  have hRP : tmapRewrite tmap (mkTok "RPAR" [')'] (skipWs s m))
      = mkTok "RPAR" [')'] (skipWs s m) :=
    tmapRewrite_nonTname tmap _ (by simp only [mkTok]; decide)
  have hD1 : isDefvalNode ty = false := accT_not_defval ht
  have hDfn : isDefvalNode (.tree "fnname".data
      [.token (mkTok "CNAME" (runOf isCnameChar s (skipWs s i))
        (skipWs s i))]) = false := rfl
  have hDps : isDefvalNode ps = false := accParams_not_defval hps
  simp only [rend, rendList, hD1, hDfn, hDps, isDefvalNode_token, hCN, hLP, hRP]
  rw [accT_last ht, accParams_first hps, accParams_last hps]
  simp only [first_match, last_match, lastOfList, mkTok, Int.toNat_natCast,
    List.length_singleton]
  rw [show ((((skipWs s i + 1 : Nat) : Int) - 1)).toNat = skipWs s i by omega]
  rw [show ((((skipWs s i + (runOf isCnameChar s (skipWs s i)).length + 1
      : Nat) : Int) - 1)).toNat
      = skipWs s i + (runOf isCnameChar s (skipWs s i)).length by omega]
  rw [show (((skipWs s (skipWs s i +
      (runOf isCnameChar s (skipWs s i)).length) + 1 : Nat) : Int) - 1).toNat
      = skipWs s (skipWs s i + (runOf isCnameChar s (skipWs s i)).length) by
    omega]
  rw [show ((((skipWs s (skipWs s i +
      (runOf isCnameChar s (skipWs s i)).length) + 1 + 1 : Nat) : Int)
      - 1)).toNat
      = skipWs s (skipWs s i +
          (runOf isCnameChar s (skipWs s i)).length) + 1 by omega]
  rw [show ((((skipWs s m + 1 : Nat) : Int) - 1)).toNat = skipWs s m by omega]
  simp [List.append_assoc]

/-- `tnFree` of a tree is `tnFree` of all its children. -/
theorem tnFree_tree (tmap : List (Str × Str)) (d : Str) (cs : List Node) :
    tnFree tmap (.tree d cs) = cs.all (tnFree tmap) := by
  induction cs with
  | nil => rfl
  | cons c cs ih =>
    show (nodeTokens c ++ nodeTokens.nodeTokensList cs).all _ = _
    rw [List.all_append]
    show (tnFree tmap c && tnFree tmap (.tree d cs)) = _
    rw [ih, List.all_cons]

/-- The maximal `TNAME` run of the output at a rendered `core_type` start
is the renamed `TNAME` value. -/
theorem run_out_eq (tmap : List (Str × Str)) (htm : tmapValsOK tmap = true) :
    ∀ {s : Str} {a : Nat} {core : Node} {b : Nat}, AccC s a core b →
    ∀ (out kk : Str) (pos : Nat),
    out.drop pos = rend tmap s core ++ kk →
    (coreTname core = true → ∀ c, kk.head? = some c → isTnameChar c = false) →
    runOf isTnameChar out pos
      = (tmapRewrite tmap
          (mkTok "TNAME" (runOf isTnameChar s (skipWs s a)) (skipWs s a))).value
  | _, _, _, _, .tname s a hne => fun out kk pos hdrop hk1 => by
    have hfacts := renamed_tname_val tmap htm
      (mkTok "TNAME" (runOf isTnameChar s (skipWs s a)) (skipWs s a))
      (by simpa [mkTok] using hne)
      (by simpa [mkTok] using runOf_all isTnameChar s (skipWs s a))
    rw [rendC_tname_eq] at hdrop
    unfold runOf
    rw [hdrop]
    exact takeWhile_all_head _ _ _ hfacts.2
      (hk1 (by simp [coreTname, mkTok]))
  | _, _, _, _, .template s a tl m hne hlt htl hgt => fun out kk pos hdrop hk1 => by
    have hfacts := renamed_tname_val tmap htm
      (mkTok "TNAME" (runOf isTnameChar s (skipWs s a)) (skipWs s a))
      (by simpa [mkTok] using hne)
      (by simpa [mkTok] using runOf_all isTnameChar s (skipWs s a))
    rw [rendC_template_eq tmap s a tl m htl] at hdrop
    rw [List.append_assoc] at hdrop
    unfold runOf
    rw [hdrop]
    refine takeWhile_all_head _ _ _ hfacts.2 ?_
    rw [List.append_assoc]
    refine head_append_all _ _ _
      (fun c hc => ws_not_tname c (wsGap_all s _ c hc)) ?_
    intro c hc
    have : '<' = c := by simpa using hc
    rw [← this]
    decide

/-- A `core_type` derivation's node is a `core_type` tree. -/
theorem accC_shape : ∀ {s : Str} {a : Nat} {C : Node} {b : Nat},
    AccC s a C b → ∃ cs, C = .tree "core_type".data cs
  | _, _, _, _, .tname _ _ _ => ⟨_, rfl⟩
  | _, _, _, _, .template _ _ _ _ _ _ _ _ => ⟨_, rfl⟩

/-- `get?` after skipping whitespace reads the first significant suffix
character. -/
theorem get?_skipWs_drop (out : Str) (a : Nat) (kk : Str)
    (hd : out.drop a = kk) :
    out.get? (skipWs out a) = (kk.dropWhile isWsChar).head? := by
  rw [skipWs, hd, List.get?_eq_getElem?, ← List.getElem?_drop, hd,
    ← List.get?_eq_getElem?, get?_len_takeWhile]

mutual
/-- Reparse completeness for rendered `type` subtrees. -/
theorem compT : ∀ {s : Str} {i : Nat} {ty : Node} {j : Nat}, AccT s i ty j →
    ∀ (tmap : List (Str × Str)) (out g kk : Str) (π fuel : Nat),
    tmapValsOK tmap = true → tmapKeyFree tmap = true →
    out.drop π = g ++ (rend tmap s ty ++ kk) →
    (∀ c ∈ g, isWsChar c = true) →
    (endsTname ty = true → ∀ c, kk.head? = some c → isTnameChar c = false) →
    (endsRef ty = false → ∀ c, (kk.dropWhile isWsChar).head? = some c →
      c ≠ '&' ∧ c ≠ '*' ∧ c ≠ '<') →
    (rend tmap s ty).length + 1 ≤ fuel →
    ∃ ty2, parse_type fuel out π
        = some (ty2, π + g.length + (rend tmap s ty).length) ∧
      tnFree tmap ty2 = true ∧ noDefval ty2 = true
  | _, _, _, _, .const_ref s i core j r k hrun hc hr =>
    fun tmap out g kk π fuel htm hkf hdrop hg hk1 hk2 hfuel => by
    have hrend := rendT_const_ref_eq tmap s i core j r k hc hr
    obtain ⟨rc, hrc, hgetrc, hkpos, hrcor⟩ := rendRef_eq tmap hr
    rw [hrend, hrc] at hdrop hfuel ⊢
    rw [hrun] at hdrop hfuel hc ⊢
    simp only [List.append_assoc, List.cons_append, List.nil_append] at hdrop
    set G1 := natSlice s (skipWs s i + ("const".data : Str).length)
      (skipWs s (skipWs s i + ("const".data : Str).length)) with hG1
    set G2 := natSlice s j (skipWs s j) with hG2
    have hG1ws : ∀ c ∈ G1, isWsChar c = true := by
      intro c hc1
      rw [hG1] at hc1
      exact wsGap_all s _ c hc1
    have hG2ws : ∀ c ∈ G2, isWsChar c = true := by
      intro c hc1
      rw [hG2] at hc1
      exact wsGap_all s _ c hc1
    have hG1ne : G1 ≠ [] := by
      rw [hG1]
      refine wsGap_ne s _ ?_ ?_
      · intro ch0 hch0
        refine runOf_stop isTnameChar s (skipWs s i) ch0 ?_
        rw [hrun]
        exact hch0
      · exact accC_start_char hc
    have hrcws : isWsChar rc = false := by
      rcases hrcor with h1 | h1 <;> rw [h1] <;> decide
    have hrctname : isTnameChar rc = false := by
      rcases hrcor with h1 | h1 <;> rw [h1] <;> decide
    simp only [List.length_append, List.length_cons, List.length_nil] at hfuel
    obtain ⟨f, rfl⟩ : ∃ f, fuel = f + 1 := ⟨fuel - 1, by omega⟩
    have hheadrest : ∀ c0,
        (("const".data : Str)
          ++ (G1 ++ (rend tmap s core ++ (G2 ++ (rc :: kk))))).head?
          = some c0 → isWsChar c0 = false := by
      intro c0 hc0
      have h5 : 'c' = c0 := by simpa using hc0
      rw [← h5]
      decide
    have hskip : skipWs out π = π + g.length := by
      refine skipWs_drop out π g _ hdrop hg ?_
      intro c0 hc0
      exact hheadrest c0 hc0
    have hdropK : out.drop (π + g.length)
        = ("const".data : Str)
          ++ (G1 ++ (rend tmap s core ++ (G2 ++ (rc :: kk)))) := by
      rw [drop_shift out π g.length _ hdrop, List.drop_left]
      simp
    have hrun0 : runOf isTnameChar out (π + g.length) = "const".data := by
      unfold runOf
      rw [hdropK]
      refine takeWhile_all_head _ _ _ (by intro c hc1; fin_cases hc1 <;> rfl) ?_
      rw [head?_append_ne _ _ hG1ne]
      intro c hc1
      exact ws_not_tname c (hG1ws c (head?_mem G1 c hc1))
    have hdropCore : out.drop (π + g.length + ("const".data : Str).length)
        = G1 ++ (rend tmap s core ++ (G2 ++ (rc :: kk))) := by
      rw [drop_shift out (π + g.length) ("const".data : Str).length _ hdropK,
        List.drop_left]
    have hk1C : coreTname core = true →
        ∀ c, (G2 ++ (rc :: kk)).head? = some c → isTnameChar c = false := by
      intro _
      refine head_append_all _ G2 _
        (fun c hc2 => ws_not_tname c (hG2ws c hc2)) ?_
      intro c hc2
      have h5 : rc = c := by simpa using hc2
      rw [← h5]
      exact hrctname
    have hk2C : coreTname core = true →
        ∀ c, ((G2 ++ (rc :: kk)).dropWhile isWsChar).head? = some c →
        c ≠ '<' := by
      intro _ c hc2
      rw [dropWhile_all _ G2 _ hG2ws] at hc2
      rw [dropWhile_head_neg isWsChar _ (by
        intro c0 hc0
        have h5 : rc = c0 := by simpa using hc0
        rw [← h5]
        exact hrcws)] at hc2
      have h5 : rc = c := by simpa using hc2
      rw [← h5]
      rcases hrcor with h1 | h1 <;> rw [h1] <;> decide
    obtain ⟨C2, hpc, htnC, hndC⟩ := compC hc tmap out G1 (G2 ++ (rc :: kk))
      (π + g.length + ("const".data : Str).length) f htm hkf hdropCore hG1ws
      hk1C hk2C (by omega)
    have hdropG1 : out.drop (π + g.length + ("const".data : Str).length
        + G1.length) = rend tmap s core ++ (G2 ++ (rc :: kk)) := by
      rw [drop_shift out (π + g.length + ("const".data : Str).length)
        G1.length _ hdropCore, List.drop_left]
    have hdropP : out.drop (π + g.length + ("const".data : Str).length
        + G1.length + (rend tmap s core).length) = G2 ++ (rc :: kk) := by
      rw [drop_shift out (π + g.length + ("const".data : Str).length
        + G1.length) (rend tmap s core).length _ hdropG1, List.drop_left]
    have hskipP : skipWs out (π + g.length + ("const".data : Str).length
        + G1.length + (rend tmap s core).length)
        = π + g.length + ("const".data : Str).length + G1.length
          + (rend tmap s core).length + G2.length := by
      refine skipWs_drop out _ G2 _ hdropP hG2ws ?_
      intro c0 hc0
      have h5 : rc = c0 := by simpa using hc0
      rw [← h5]
      exact hrcws
    have hgetRC : out.get? (π + g.length + ("const".data : Str).length
        + G1.length + (rend tmap s core).length + G2.length) = some rc := by
      rw [get?_of_drop out _ _ (by
        rw [drop_shift out (π + g.length + ("const".data : Str).length
          + G1.length + (rend tmap s core).length) G2.length _ hdropP,
          List.drop_left])]
      rfl
    rcases hrcor with h1 | h1
    · subst h1
      have hrefspec : parse_refspec out (π + g.length
          + ("const".data : Str).length + G1.length
          + (rend tmap s core).length)
          = some (.tree "refspec".data
              [.token (mkTok "REF" ['&'] (π + g.length
                + ("const".data : Str).length + G1.length
                + (rend tmap s core).length + G2.length))],
            π + g.length + ("const".data : Str).length + G1.length
              + (rend tmap s core).length + G2.length + 1) := by
        simp only [parse_refspec]
        rw [hskipP]
        simp only [hgetRC]
        rw [if_true]
      refine ⟨.tree "type".data
        [.token (mkTok "CONST" "const".data (π + g.length)), C2,
         .tree "refspec".data
          [.token (mkTok "REF" ['&'] (π + g.length
            + ("const".data : Str).length + G1.length
            + (rend tmap s core).length + G2.length))]], ?_, ?_, ?_⟩
      · simp only [parse_type]
        rw [hskip, hrun0, if_pos rfl]
        simp only [hpc, hrefspec]
        simp only [Option.some.injEq, Prod.mk.injEq]
        refine ⟨trivial, ?_⟩
        simp only [List.length_append, List.length_cons, List.length_nil]
        omega
      · rw [tnFree_tree]
        simp only [List.all_cons, List.all_nil, Bool.and_true]
        rw [htnC]
        simp [tnFree, nodeTokens, nodeTokens.nodeTokensList, mkTok]
      · simp [noDefval, noDefvalList, hndC]
    · subst h1
      have hrefspec : parse_refspec out (π + g.length
          + ("const".data : Str).length + G1.length
          + (rend tmap s core).length)
          = some (.tree "refspec".data
              [.token (mkTok "PTR" ['*'] (π + g.length
                + ("const".data : Str).length + G1.length
                + (rend tmap s core).length + G2.length))],
            π + g.length + ("const".data : Str).length + G1.length
              + (rend tmap s core).length + G2.length + 1) := by
        simp only [parse_refspec]
        rw [hskipP]
        simp only [hgetRC]
        rw [if_neg (by decide), if_true]
      refine ⟨.tree "type".data
        [.token (mkTok "CONST" "const".data (π + g.length)), C2,
         .tree "refspec".data
          [.token (mkTok "PTR" ['*'] (π + g.length
            + ("const".data : Str).length + G1.length
            + (rend tmap s core).length + G2.length))]], ?_, ?_, ?_⟩
      · simp only [parse_type]
        rw [hskip, hrun0, if_pos rfl]
        simp only [hpc, hrefspec]
        simp only [Option.some.injEq, Prod.mk.injEq]
        refine ⟨trivial, ?_⟩
        simp only [List.length_append, List.length_cons, List.length_nil]
        omega
      · rw [tnFree_tree]
        simp only [List.all_cons, List.all_nil, Bool.and_true]
        rw [htnC]
        simp [tnFree, nodeTokens, nodeTokens.nodeTokensList, mkTok]
      · simp [noDefval, noDefvalList, hndC]
  | _, _, _, _, .const_noref s i core j hrun hc =>
    fun tmap out g kk π fuel htm hkf hdrop hg hk1 hk2 hfuel => by
    have hrend := rendT_const_noref_eq tmap s i core j hc
    rw [hrend] at hdrop hfuel ⊢
    rw [hrun] at hdrop hfuel hc ⊢
    set G1 := natSlice s (skipWs s i + ("const".data : Str).length)
      (skipWs s (skipWs s i + ("const".data : Str).length)) with hG1
    have hG1ws : ∀ c ∈ G1, isWsChar c = true := by
      intro c hc1
      rw [hG1] at hc1
      exact wsGap_all s _ c hc1
    have hG1ne : G1 ≠ [] := by
      rw [hG1]
      refine wsGap_ne s _ ?_ ?_
      · intro ch0 hch0
        refine runOf_stop isTnameChar s (skipWs s i) ch0 ?_
        rw [hrun]
        exact hch0
      · exact accC_start_char hc
    simp only [List.length_append] at hfuel
    obtain ⟨f, rfl⟩ : ∃ f, fuel = f + 1 := ⟨fuel - 1, by omega⟩
    obtain ⟨cs0, hcs0⟩ := accC_shape hc
    have hendsRef : endsRef (Node.tree "type".data
        [.token (mkTok "CONST" "const".data (skipWs s i)), core]) = false := by
      rw [hcs0]; rfl
    have hct_imp : coreTname core = true →
        endsTname (Node.tree "type".data
          [.token (mkTok "CONST" "const".data (skipWs s i)), core]) = true := by
      intro h
      have he : endsTname (Node.tree "type".data
          [.token (mkTok "CONST" "const".data (skipWs s i)), core])
          = coreTname core := rfl
      rw [he, h]
    have hheadrest : ∀ c0,
        (("const".data : Str) ++ (G1 ++ rend tmap s core) ++ kk).head?
          = some c0 → isWsChar c0 = false := by
      intro c0 hc0
      have h5 : 'c' = c0 := by simpa using hc0
      rw [← h5]
      decide
    have hskip : skipWs out π = π + g.length :=
      skipWs_drop out π g _ hdrop hg hheadrest
    have hdropK : out.drop (π + g.length)
        = ("const".data : Str) ++ (G1 ++ (rend tmap s core ++ kk)) := by
      rw [drop_shift out π g.length _ hdrop, List.drop_left]
      simp [List.append_assoc]
    have hrun0 : runOf isTnameChar out (π + g.length) = "const".data := by
      unfold runOf
      rw [hdropK]
      refine takeWhile_all_head _ _ _ (by intro c hc1; fin_cases hc1 <;> rfl) ?_
      rw [head?_append_ne _ _ hG1ne]
      intro c hc1
      exact ws_not_tname c (hG1ws c (head?_mem G1 c hc1))
    have hdropCore : out.drop (π + g.length + ("const".data : Str).length)
        = G1 ++ (rend tmap s core ++ kk) := by
      rw [drop_shift out (π + g.length) ("const".data : Str).length _ hdropK,
        List.drop_left]
    have hk1C : coreTname core = true →
        ∀ c, kk.head? = some c → isTnameChar c = false :=
      fun hcore => hk1 (hct_imp hcore)
    obtain ⟨C2, hpc, htnC, hndC⟩ := compC hc tmap out G1 kk
      (π + g.length + ("const".data : Str).length) f htm hkf hdropCore hG1ws
      hk1C (fun hcore c0 hc0 => ((hk2 hendsRef) c0 hc0).2.2)
      (by omega)
    have hdropG1 : out.drop (π + g.length + ("const".data : Str).length
        + G1.length) = rend tmap s core ++ kk := by
      rw [drop_shift out (π + g.length + ("const".data : Str).length)
        G1.length _ hdropCore, List.drop_left]
    have hdropP : out.drop (π + g.length + ("const".data : Str).length
        + G1.length + (rend tmap s core).length) = kk := by
      rw [drop_shift out (π + g.length + ("const".data : Str).length
        + G1.length) (rend tmap s core).length _ hdropG1, List.drop_left]
    have hgetP : out.get?
        (skipWs out (π + g.length + ("const".data : Str).length
          + G1.length + (rend tmap s core).length))
        = (kk.dropWhile isWsChar).head? := get?_skipWs_drop out _ kk hdropP
    refine ⟨.tree "type".data
      [.token (mkTok "CONST" "const".data (π + g.length)), C2], ?_, ?_, ?_⟩
    · simp only [parse_type]
      rw [hskip, hrun0, if_pos rfl]
      simp only [hpc]
      rcases hpeek : (kk.dropWhile isWsChar).head? with _ | c
      · simp only [parse_refspec, hgetP, hpeek]
        simp only [Option.some.injEq, Prod.mk.injEq]
        refine ⟨trivial, ?_⟩
        simp only [List.length_append]
        omega
      · obtain ⟨hamp, hstar, _⟩ := hk2 hendsRef c hpeek
        simp only [parse_refspec, hgetP, hpeek]
        rw [if_neg hamp, if_neg hstar]
        simp only [Option.some.injEq, Prod.mk.injEq]
        refine ⟨trivial, ?_⟩
        simp only [List.length_append]
        omega
    · rw [tnFree_tree]
      simp only [List.all_cons, List.all_nil, Bool.and_true]
      rw [htnC]
      simp [tnFree, nodeTokens, nodeTokens.nodeTokensList, mkTok]
    · simp [noDefval, noDefvalList, hndC]
  | _, _, _, _, .plain_ref s i core j r k hrun hc hr =>
    fun tmap out g kk π fuel htm hkf hdrop hg hk1 hk2 hfuel => by
    have hrend := rendT_plain_ref_eq tmap s (skipWs s i) core j r k hc hr
    obtain ⟨rc, hrc, hgetrc, hkpos, hrcor⟩ := rendRef_eq tmap hr
    rw [hrend, hrc] at hdrop hfuel ⊢
    simp only [List.append_assoc, List.cons_append, List.nil_append] at hdrop
    set G2 := natSlice s j (skipWs s j) with hG2
    have hG2ws : ∀ c ∈ G2, isWsChar c = true := by
      intro c hc2
      rw [hG2] at hc2
      exact wsGap_all s j c hc2
    have hrcws : isWsChar rc = false := by
      rcases hrcor with h1 | h1 <;> rw [h1] <;> decide
    have hrctname : isTnameChar rc = false := by
      rcases hrcor with h1 | h1 <;> rw [h1] <;> decide
    obtain ⟨z0, hz0⟩ := rendC_decomp tmap hc
    rw [skipWs_idem] at hz0
    have hne' := accC_ne hc
    rw [skipWs_idem] at hne'
    have hfacts := renamed_tname_val tmap htm
      (mkTok "TNAME" (runOf isTnameChar s (skipWs s i)) (skipWs s i))
      (by simpa [mkTok] using hne')
      (by simpa [mkTok] using runOf_all isTnameChar s (skipWs s i))
    obtain ⟨ch, zz, hval⟩ := List.exists_cons_of_ne_nil hfacts.1
    have hch : isTnameChar ch = true :=
      hfacts.2 ch (by rw [hval]; exact List.mem_cons_self ch zz)
    simp only [List.length_append, List.length_cons, List.length_nil] at hfuel
    obtain ⟨f, rfl⟩ : ∃ f, fuel = f + 1 := ⟨fuel - 1, by omega⟩
    have hheadrest : ∀ c0,
        (rend tmap s core ++ (G2 ++ (rc :: kk))).head? = some c0 →
        isWsChar c0 = false := by
      intro c0 hc0
      rw [head?_append_ne _ _ (by rw [hz0, hval]; simp), hz0] at hc0
      rw [head?_append_ne _ _ (by rw [hval]; simp), hval] at hc0
      have hcc : ch = c0 := by simpa using hc0
      rw [← hcc]
      exact tname_not_ws ch hch
    have hskip : skipWs out π = π + g.length :=
      skipWs_drop out π g _ hdrop hg hheadrest
    have hdropC : out.drop (π + g.length)
        = rend tmap s core ++ (G2 ++ (rc :: kk)) := by
      rw [drop_shift out π g.length _ hdrop, List.drop_left]
    have hk1C : coreTname core = true →
        ∀ c, (G2 ++ (rc :: kk)).head? = some c → isTnameChar c = false := by
      intro _
      refine head_append_all _ G2 _
        (fun c hc2 => ws_not_tname c (hG2ws c hc2)) ?_
      intro c hc2
      have h5 : rc = c := by simpa using hc2
      rw [← h5]
      exact hrctname
    have hk2C : coreTname core = true →
        ∀ c, ((G2 ++ (rc :: kk)).dropWhile isWsChar).head? = some c →
        c ≠ '<' := by
      intro _ c hc2
      rw [dropWhile_all _ G2 _ hG2ws] at hc2
      rw [dropWhile_head_neg isWsChar _ (by
        intro c0 hc0
        have h5 : rc = c0 := by simpa using hc0
        rw [← h5]
        exact hrcws)] at hc2
      have h5 : rc = c := by simpa using hc2
      rw [← h5]
      rcases hrcor with h1 | h1 <;> rw [h1] <;> decide
    have hrun0 : runOf isTnameChar out (π + g.length)
        = (tmapRewrite tmap
            (mkTok "TNAME" (runOf isTnameChar s (skipWs s i))
              (skipWs s i))).value := by
      have hx := run_out_eq tmap htm hc out (G2 ++ (rc :: kk)) (π + g.length)
        hdropC hk1C
      rw [skipWs_idem] at hx
      exact hx
    have hne_const : (tmapRewrite tmap
        (mkTok "TNAME" (runOf isTnameChar s (skipWs s i))
          (skipWs s i))).value ≠ "const".data :=
      renamed_ne_const tmap htm _ (by simpa [mkTok] using hrun)
    obtain ⟨C2, hpc, htnC, hndC⟩ := compC hc tmap out [] (G2 ++ (rc :: kk))
      (π + g.length) f htm hkf (by simpa using hdropC) (by simp)
      hk1C hk2C (by omega)
    simp only [List.length_nil, Nat.add_zero] at hpc
    have hdropP : out.drop (π + g.length + (rend tmap s core).length)
        = G2 ++ (rc :: kk) := by
      rw [drop_shift out (π + g.length) (rend tmap s core).length _ hdropC,
        List.drop_left]
    have hskipP : skipWs out (π + g.length + (rend tmap s core).length)
        = π + g.length + (rend tmap s core).length + G2.length := by
      refine skipWs_drop out _ G2 _ hdropP hG2ws ?_
      intro c0 hc0
      have h5 : rc = c0 := by simpa using hc0
      rw [← h5]
      exact hrcws
    have hgetRC : out.get?
        (π + g.length + (rend tmap s core).length + G2.length)
        = some rc := by
      rw [get?_of_drop out _ _ (by
        rw [drop_shift out (π + g.length + (rend tmap s core).length) G2.length
          _ hdropP, List.drop_left])]
      rfl
    rcases hrcor with h1 | h1
    · subst h1
      have hrefspec : parse_refspec out
          (π + g.length + (rend tmap s core).length)
          = some (.tree "refspec".data
              [.token (mkTok "REF" ['&']
                (π + g.length + (rend tmap s core).length + G2.length))],
            π + g.length + (rend tmap s core).length + G2.length + 1) := by
        simp only [parse_refspec]
        rw [hskipP]
        simp only [hgetRC]
        rw [if_true]
      refine ⟨.tree "type".data
        [C2, .tree "refspec".data
          [.token (mkTok "REF" ['&']
            (π + g.length + (rend tmap s core).length + G2.length))]],
        ?_, ?_, ?_⟩
      · simp only [parse_type]
        rw [hskip, hrun0, if_neg hne_const]
        simp only [hpc, hrefspec]
        simp only [Option.some.injEq, Prod.mk.injEq]
        refine ⟨trivial, ?_⟩
        simp only [List.length_append, List.length_cons, List.length_nil]
        omega
      · rw [tnFree_tree]
        simp only [List.all_cons, List.all_nil, Bool.and_true]
        rw [htnC]
        simp [tnFree, nodeTokens, nodeTokens.nodeTokensList, mkTok]
      · simp [noDefval, noDefvalList, hndC]
    · subst h1
      have hrefspec : parse_refspec out
          (π + g.length + (rend tmap s core).length)
          = some (.tree "refspec".data
              [.token (mkTok "PTR" ['*']
                (π + g.length + (rend tmap s core).length + G2.length))],
            π + g.length + (rend tmap s core).length + G2.length + 1) := by
        simp only [parse_refspec]
        rw [hskipP]
        simp only [hgetRC]
        rw [if_neg (by decide), if_true]
      refine ⟨.tree "type".data
        [C2, .tree "refspec".data
          [.token (mkTok "PTR" ['*']
            (π + g.length + (rend tmap s core).length + G2.length))]],
        ?_, ?_, ?_⟩
      · simp only [parse_type]
        rw [hskip, hrun0, if_neg hne_const]
        simp only [hpc, hrefspec]
        simp only [Option.some.injEq, Prod.mk.injEq]
        refine ⟨trivial, ?_⟩
        simp only [List.length_append, List.length_cons, List.length_nil]
        omega
      · rw [tnFree_tree]
        simp only [List.all_cons, List.all_nil, Bool.and_true]
        rw [htnC]
        simp [tnFree, nodeTokens, nodeTokens.nodeTokensList, mkTok]
      · simp [noDefval, noDefvalList, hndC]
  | _, _, _, _, .plain_noref s i core j hrun hc =>
    fun tmap out g kk π fuel htm hkf hdrop hg hk1 hk2 hfuel => by
    have hrend := rendT_plain_noref_eq tmap s core
    rw [hrend] at hdrop hfuel ⊢
    obtain ⟨z0, hz0⟩ := rendC_decomp tmap hc
    rw [skipWs_idem] at hz0
    have hne' := accC_ne hc
    rw [skipWs_idem] at hne'
    have hfacts := renamed_tname_val tmap htm
      (mkTok "TNAME" (runOf isTnameChar s (skipWs s i)) (skipWs s i))
      (by simpa [mkTok] using hne')
      (by simpa [mkTok] using runOf_all isTnameChar s (skipWs s i))
    obtain ⟨ch, zz, hval⟩ := List.exists_cons_of_ne_nil hfacts.1
    have hch : isTnameChar ch = true :=
      hfacts.2 ch (by rw [hval]; exact List.mem_cons_self ch zz)
    obtain ⟨f, rfl⟩ : ∃ f, fuel = f + 1 := ⟨fuel - 1, by omega⟩
    obtain ⟨cs0, hcs0⟩ := accC_shape hc
    have hendsRef : endsRef (Node.tree "type".data [core]) = false := by
      rw [hcs0]; rfl
    have hct_imp : coreTname core = true →
        endsTname (Node.tree "type".data [core]) = true := by
      intro h
      have he : endsTname (Node.tree "type".data [core]) = coreTname core := rfl
      rw [he, h]
    have hheadrest : ∀ c0, (rend tmap s core ++ kk).head? = some c0 →
        isWsChar c0 = false := by
      intro c0 hc0
      rw [head?_append_ne _ _ (by rw [hz0, hval]; simp), hz0] at hc0
      rw [head?_append_ne _ _ (by rw [hval]; simp), hval] at hc0
      have hcc : ch = c0 := by simpa using hc0
      rw [← hcc]
      exact tname_not_ws ch hch
    have hskip : skipWs out π = π + g.length :=
      skipWs_drop out π g _ hdrop hg hheadrest
    have hdropC : out.drop (π + g.length) = rend tmap s core ++ kk := by
      rw [drop_shift out π g.length _ hdrop, List.drop_left]
    have hk1C : coreTname core = true →
        ∀ c, kk.head? = some c → isTnameChar c = false :=
      fun hcore => hk1 (hct_imp hcore)
    have hrun0 : runOf isTnameChar out (π + g.length)
        = (tmapRewrite tmap
            (mkTok "TNAME" (runOf isTnameChar s (skipWs s i))
              (skipWs s i))).value := by
      have hx := run_out_eq tmap htm hc out kk (π + g.length) hdropC hk1C
      rw [skipWs_idem] at hx
      exact hx
    have hne_const : (tmapRewrite tmap
        (mkTok "TNAME" (runOf isTnameChar s (skipWs s i))
          (skipWs s i))).value ≠ "const".data :=
      renamed_ne_const tmap htm _ (by simpa [mkTok] using hrun)
    obtain ⟨C2, hpc, htnC, hndC⟩ := compC hc tmap out [] kk (π + g.length) f
      htm hkf (by simpa using hdropC) (by simp)
      hk1C (fun hcore c0 hc0 => ((hk2 hendsRef) c0 hc0).2.2)
      (by omega)
    simp only [List.length_nil, Nat.add_zero] at hpc
    have hdropP : out.drop (π + g.length + (rend tmap s core).length) = kk := by
      rw [drop_shift out (π + g.length) (rend tmap s core).length _ hdropC,
        List.drop_left]
    have hgetP : out.get?
        (skipWs out (π + g.length + (rend tmap s core).length))
        = (kk.dropWhile isWsChar).head? := get?_skipWs_drop out _ kk hdropP
    refine ⟨.tree "type".data [C2], ?_, ?_, ?_⟩
    · simp only [parse_type]
      rw [hskip, hrun0, if_neg hne_const]
      simp only [hpc]
      rcases hpeek : (kk.dropWhile isWsChar).head? with _ | c
      · simp only [parse_refspec, hgetP, hpeek]
      · obtain ⟨hamp, hstar, _⟩ := hk2 hendsRef c hpeek
        simp only [parse_refspec, hgetP, hpeek]
        rw [if_neg hamp, if_neg hstar]
    · rw [tnFree_tree]
      simp only [List.all_cons, List.all_nil, Bool.and_true]
      exact htnC
    · simp [noDefval, noDefvalList, hndC]

/-- Reparse completeness for rendered `core_type` subtrees. -/
theorem compC : ∀ {s : Str} {a : Nat} {C : Node} {b : Nat}, AccC s a C b →
    ∀ (tmap : List (Str × Str)) (out g kk : Str) (π fuel : Nat),
    tmapValsOK tmap = true → tmapKeyFree tmap = true →
    out.drop π = g ++ (rend tmap s C ++ kk) →
    (∀ c ∈ g, isWsChar c = true) →
    (coreTname C = true → ∀ c, kk.head? = some c → isTnameChar c = false) →
    (coreTname C = true → ∀ c, (kk.dropWhile isWsChar).head? = some c →
      c ≠ '<') →
    (rend tmap s C).length ≤ fuel →
    ∃ C2, parse_core_type fuel out π
        = some (C2, π + g.length + (rend tmap s C).length) ∧
      tnFree tmap C2 = true ∧ noDefval C2 = true
  | _, _, _, _, .tname s a hne =>
    fun tmap out g kk π fuel htm hkf hdrop hg hk1 hk2 hfuel => by
    have hfacts := renamed_tname_val tmap htm
      (mkTok "TNAME" (runOf isTnameChar s (skipWs s a)) (skipWs s a))
      (by simpa [mkTok] using hne)
      (by simpa [mkTok] using runOf_all isTnameChar s (skipWs s a))
    obtain ⟨ch, zz, hval⟩ := List.exists_cons_of_ne_nil hfacts.1
    have hch : isTnameChar ch = true :=
      hfacts.2 ch (by rw [hval]; exact List.mem_cons_self ch zz)
    have hct : coreTname (Node.tree "core_type".data
        [.token (mkTok "TNAME" (runOf isTnameChar s (skipWs s a))
          (skipWs s a))]) = true := by
      simp [coreTname, mkTok]
    obtain ⟨f, rfl⟩ : ∃ f, fuel = f + 1 := ⟨fuel - 1, by
      rw [rendC_tname_eq, hval] at hfuel
      simp only [List.length_cons] at hfuel
      omega⟩
    rw [rendC_tname_eq] at hdrop ⊢
    have hskip : skipWs out π = π + g.length := by
      refine skipWs_drop out π g _ hdrop hg ?_
      intro c0 hc0
      rw [head?_append_ne _ _ (by rw [hval]; simp), hval] at hc0
      have hcc : ch = c0 := by simpa using hc0
      rw [← hcc]
      exact tname_not_ws ch hch
    have hdrop2 : out.drop (π + g.length)
        = (tmapRewrite tmap
            (mkTok "TNAME" (runOf isTnameChar s (skipWs s a))
              (skipWs s a))).value ++ kk := by
      rw [drop_shift out π g.length _ hdrop, List.drop_left]
    have hrout : runOf isTnameChar out (π + g.length)
        = (tmapRewrite tmap
            (mkTok "TNAME" (runOf isTnameChar s (skipWs s a))
              (skipWs s a))).value := by
      unfold runOf
      rw [hdrop2]
      exact takeWhile_all_head _ _ _ hfacts.2 (hk1 hct)
    have hdrop3 : out.drop (π + g.length
        + (tmapRewrite tmap
            (mkTok "TNAME" (runOf isTnameChar s (skipWs s a))
              (skipWs s a))).value.length) = kk := by
      rw [drop_shift out (π + g.length) _ _ hdrop2, List.drop_left]
    have hget2 : out.get? (skipWs out (π + g.length
        + (tmapRewrite tmap
            (mkTok "TNAME" (runOf isTnameChar s (skipWs s a))
              (skipWs s a))).value.length))
        = (kk.dropWhile isWsChar).head? := get?_skipWs_drop out _ kk hdrop3
    refine ⟨.tree "core_type".data
      [.token (mkTok "TNAME"
        ((tmapRewrite tmap (mkTok "TNAME" (runOf isTnameChar s (skipWs s a))
          (skipWs s a))).value) (π + g.length))], ?_, ?_, ?_⟩
    · simp only [parse_core_type]
      rw [hskip, hrout, if_neg (by rw [hval]; simp)]
      rcases hpeek : ((kk.dropWhile isWsChar).head?) with _ | c
      · simp only [hget2, hpeek]
      · simp only [hget2, hpeek]
        rw [if_neg (hk2 hct c hpeek)]
    · have hlook := renamed_lookup_none tmap hkf
        (mkTok "TNAME" (runOf isTnameChar s (skipWs s a)) (skipWs s a))
        (by simp [mkTok])
      simp only [mkTok] at hlook
      simp [tnFree, nodeTokens, nodeTokens.nodeTokensList, mkTok, hlook]
    · rfl
  | _, _, _, _, .template s a tl m hne hlt htl hgt =>
    fun tmap out g kk π fuel htm hkf hdrop hg hk1 hk2 hfuel => by
    have hfacts := renamed_tname_val tmap htm
      (mkTok "TNAME" (runOf isTnameChar s (skipWs s a)) (skipWs s a))
      (by simpa [mkTok] using hne)
      (by simpa [mkTok] using runOf_all isTnameChar s (skipWs s a))
    have hrC := rendC_template_eq tmap s a tl m htl
    obtain ⟨f, rfl⟩ : ∃ f, fuel = f + 1 := ⟨fuel - 1, by
      rw [hrC] at hfuel
      simp only [List.length_append, List.length_cons] at hfuel
      omega⟩
    rw [hrC] at hdrop ⊢
    simp only [List.append_assoc, List.cons_append, List.nil_append] at hdrop
    set RTL := rend tmap s tl with hRTL
    set VAL := (tmapRewrite tmap
      (mkTok "TNAME" (runOf isTnameChar s (skipWs s a)) (skipWs s a))).value
      with hVAL
    set GLT := natSlice s
      (skipWs s a + (runOf isTnameChar s (skipWs s a)).length)
      (skipWs s (skipWs s a + (runOf isTnameChar s (skipWs s a)).length))
      with hGLT
    set GI := natSlice s
      (skipWs s (skipWs s a + (runOf isTnameChar s (skipWs s a)).length) + 1)
      (skipWs s
        (skipWs s (skipWs s a + (runOf isTnameChar s (skipWs s a)).length) + 1))
      with hGI
    set G3 := natSlice s m (skipWs s m) with hG3
    obtain ⟨ch, zz, hval⟩ := List.exists_cons_of_ne_nil hfacts.1
    have hch : isTnameChar ch = true :=
      hfacts.2 ch (by rw [hval]; exact List.mem_cons_self ch zz)
    have hGLTws : ∀ c ∈ GLT, isWsChar c = true := by
      intro c hc
      rw [hGLT] at hc
      exact wsGap_all s _ c hc
    have hGIws : ∀ c ∈ GI, isWsChar c = true := by
      intro c hc
      rw [hGI] at hc
      exact wsGap_all s _ c hc
    have hG3ws : ∀ c ∈ G3, isWsChar c = true := by
      intro c hc
      rw [hG3] at hc
      exact wsGap_all s _ c hc
    have hskip : skipWs out π = π + g.length := by
      refine skipWs_drop out π g _ hdrop hg ?_
      intro c0 hc0
      rw [head?_append_ne _ _ (by rw [hval]; simp), hval] at hc0
      have hcc : ch = c0 := by simpa using hc0
      rw [← hcc]
      exact tname_not_ws ch hch
    have hdropV : out.drop (π + g.length)
        = VAL ++ (GLT ++ ('<' :: (GI ++ (RTL ++ (G3 ++ ('>' :: kk)))))) := by
      rw [drop_shift out π g.length _ hdrop, List.drop_left]
    have hrun0 : runOf isTnameChar out (π + g.length) = VAL := by
      unfold runOf
      rw [hdropV]
      refine takeWhile_all_head _ _ _ hfacts.2 ?_
      refine head_append_all _ GLT _
        (fun c hc => ws_not_tname c (hGLTws c hc)) ?_
      intro c hc
      have h5 : '<' = c := by simpa using hc
      rw [← h5]
      decide
    have hdropJ : out.drop (π + g.length + VAL.length)
        = GLT ++ ('<' :: (GI ++ (RTL ++ (G3 ++ ('>' :: kk))))) := by
      rw [drop_shift out (π + g.length) VAL.length _ hdropV, List.drop_left]
    have hskipJ : skipWs out (π + g.length + VAL.length)
        = π + g.length + VAL.length + GLT.length := by
      refine skipWs_drop out _ GLT _ hdropJ hGLTws ?_
      intro c hc
      have h5 : '<' = c := by simpa using hc
      rw [← h5]
      decide
    have hdropLT : out.drop (π + g.length + VAL.length + GLT.length)
        = '<' :: (GI ++ (RTL ++ (G3 ++ ('>' :: kk)))) := by
      rw [drop_shift out (π + g.length + VAL.length) GLT.length _ hdropJ,
        List.drop_left]
    have hgetLT : out.get? (π + g.length + VAL.length + GLT.length)
        = some '<' := by
      rw [get?_of_drop out _ _ hdropLT]
      rfl
    have hdropI : out.drop (π + g.length + VAL.length + GLT.length + 1)
        = GI ++ (RTL ++ (G3 ++ ('>' :: kk))) := by
      rw [drop_shift out (π + g.length + VAL.length + GLT.length) 1 _ hdropLT]
      rfl
    have hk1L : ∀ c, (G3 ++ ('>' :: kk)).head? = some c →
        isTnameChar c = false := by
      refine head_append_all _ G3 _
        (fun c hc => ws_not_tname c (hG3ws c hc)) ?_
      intro c hc
      have h5 : '>' = c := by simpa using hc
      rw [← h5]
      decide
    have hk2L : ∀ c, ((G3 ++ ('>' :: kk)).dropWhile isWsChar).head? = some c →
        c ≠ '&' ∧ c ≠ '*' ∧ c ≠ '<' ∧ c ≠ ',' := by
      intro c hc
      rw [dropWhile_all _ G3 _ hG3ws] at hc
      rw [dropWhile_head_neg isWsChar _ (by
        intro c0 hc0
        have h0 : '>' = c0 := by simpa using hc0
        rw [← h0]
        decide)] at hc
      have h0 : '>' = c := by simpa using hc
      rw [← h0]
      exact ⟨by decide, by decide, by decide, by decide⟩
    have hvl : VAL.length = zz.length + 1 := by rw [hval]; simp
    have hfuelL : RTL.length + 2 ≤ f := by
      rw [hrC] at hfuel
      simp only [List.length_append, List.length_cons, List.length_nil] at hfuel
      omega
    obtain ⟨tl2, hpl, htnL, hndL⟩ := compL htl tmap out GI (G3 ++ ('>' :: kk))
      (π + g.length + VAL.length + GLT.length + 1) f htm hkf hdropI hGIws
      hk1L hk2L hfuelL
    rw [← hRTL] at hpl
    have hdropRTL : out.drop
        (π + g.length + VAL.length + GLT.length + 1 + GI.length)
        = RTL ++ (G3 ++ ('>' :: kk)) := by
      rw [drop_shift out (π + g.length + VAL.length + GLT.length + 1) GI.length
        _ hdropI, List.drop_left]
    have hdropG3 : out.drop
        (π + g.length + VAL.length + GLT.length + 1 + GI.length + RTL.length)
        = G3 ++ ('>' :: kk) := by
      rw [drop_shift out
        (π + g.length + VAL.length + GLT.length + 1 + GI.length) RTL.length
        _ hdropRTL, List.drop_left]
    have hskipM2 : skipWs out
        (π + g.length + VAL.length + GLT.length + 1 + GI.length + RTL.length)
        = π + g.length + VAL.length + GLT.length + 1 + GI.length + RTL.length
          + G3.length := by
      refine skipWs_drop out _ G3 _ hdropG3 hG3ws ?_
      intro c hc
      have h5 : '>' = c := by simpa using hc
      rw [← h5]
      decide
    have hgetM2 : out.get?
        (π + g.length + VAL.length + GLT.length + 1 + GI.length + RTL.length
          + G3.length) = some '>' := by
      rw [get?_of_drop out _ _ (by
        rw [drop_shift out
          (π + g.length + VAL.length + GLT.length + 1 + GI.length + RTL.length)
          G3.length _ hdropG3, List.drop_left])]
      rfl
    refine ⟨.tree "core_type".data
      [.tree "template".data
        [.token (mkTok "TNAME" VAL (π + g.length)),
         .token (mkTok "LT" ['<'] (π + g.length + VAL.length + GLT.length)),
         tl2,
         .token (mkTok "GT" ['>']
           (π + g.length + VAL.length + GLT.length + 1 + GI.length + RTL.length
             + G3.length))]], ?_, ?_, ?_⟩
    · simp only [parse_core_type]
      rw [hskip, hrun0, if_neg (by rw [hval]; simp)]
      rw [hskipJ]
      simp only [hgetLT]
      rw [if_true]
      simp only [hpl]
      rw [hskipM2]
      simp only [hgetM2]
      rw [if_true]
      simp only [Option.some.injEq, Prod.mk.injEq]
      refine ⟨trivial, ?_⟩
      simp only [List.length_append, List.length_cons, List.length_nil]
      omega
    · have hlook := renamed_lookup_none tmap hkf
        (mkTok "TNAME" (runOf isTnameChar s (skipWs s a)) (skipWs s a))
        (by simp [mkTok])
      rw [← hVAL] at hlook
      rw [tnFree_tree]
      simp only [List.all_cons, List.all_nil, Bool.and_true]
      rw [tnFree_tree]
      simp only [List.all_cons, List.all_nil, Bool.and_true]
      rw [htnL]
      simp [tnFree, nodeTokens, nodeTokens.nodeTokensList, mkTok, hlook]
    · simp [noDefval, noDefvalList, hndL]

/-- Reparse completeness for rendered `typelist` subtrees. -/
theorem compL : ∀ {s : Str} {i : Nat} {L : Node} {j : Nat}, AccL s i L j →
    ∀ (tmap : List (Str × Str)) (out g kk : Str) (π fuel : Nat),
    tmapValsOK tmap = true → tmapKeyFree tmap = true →
    out.drop π = g ++ (rend tmap s L ++ kk) →
    (∀ c ∈ g, isWsChar c = true) →
    (∀ c, kk.head? = some c → isTnameChar c = false) →
    (∀ c, (kk.dropWhile isWsChar).head? = some c →
      c ≠ '&' ∧ c ≠ '*' ∧ c ≠ '<' ∧ c ≠ ',') →
    (rend tmap s L).length + 2 ≤ fuel →
    ∃ L2, parse_typelist fuel out π
        = some (L2, π + g.length + (rend tmap s L).length) ∧
      tnFree tmap L2 = true ∧ noDefval L2 = true
  | _, _, _, _, .single s i ty j ht =>
    fun tmap out g kk π fuel htm hkf hdrop hg hk1 hk2 hfuel => by
    have hrend := rendL_single_eq tmap s ty
    rw [hrend] at hdrop hfuel ⊢
    obtain ⟨f, rfl⟩ : ∃ f, fuel = f + 1 := ⟨fuel - 1, by omega⟩
    obtain ⟨ty2, hpt, htnT, hndT⟩ := compT ht tmap out g kk π f htm hkf hdrop hg
      (fun _ => hk1)
      (fun _ c hc => ⟨(hk2 c hc).1, (hk2 c hc).2.1, (hk2 c hc).2.2.1⟩)
      (by omega)
    have hdropT : out.drop (π + g.length) = rend tmap s ty ++ kk := by
      rw [drop_shift out π g.length _ hdrop, List.drop_left]
    have hdropP : out.drop (π + g.length + (rend tmap s ty).length) = kk := by
      rw [drop_shift out (π + g.length) (rend tmap s ty).length _ hdropT,
        List.drop_left]
    have hgetP : out.get?
        (skipWs out (π + g.length + (rend tmap s ty).length))
        = (kk.dropWhile isWsChar).head? := get?_skipWs_drop out _ kk hdropP
    refine ⟨.tree "typelist".data [ty2], ?_, ?_, ?_⟩
    · simp only [parse_typelist, hpt]
      rcases hpeek : (kk.dropWhile isWsChar).head? with _ | c
      · simp only [hgetP, hpeek]
      · have hcm : c ≠ ',' := (hk2 c hpeek).2.2.2
        simp only [hgetP, hpeek]
        rw [if_neg hcm]
    · rw [tnFree_tree]
      simp only [List.all_cons, List.all_nil, Bool.and_true]
      exact htnT
    · simp [noDefval, noDefvalList, hndT]
  | _, _, _, _, .cons s i ty j rest m ht hcm hrest =>
    fun tmap out g kk π fuel htm hkf hdrop hg hk1 hk2 hfuel => by
    have hrend := rendL_cons_eq tmap s i ty j rest m ht hrest
    rw [hrend] at hdrop hfuel ⊢
    simp only [List.append_assoc, List.cons_append, List.nil_append] at hdrop
    set G2 := natSlice s j (skipWs s j) with hG2
    set GC := natSlice s (skipWs s j + 1) (skipWs s (skipWs s j + 1)) with hGC
    have hG2ws : ∀ c ∈ G2, isWsChar c = true := by
      intro c hc1
      rw [hG2] at hc1
      exact wsGap_all s _ c hc1
    have hGCws : ∀ c ∈ GC, isWsChar c = true := by
      intro c hc1
      rw [hGC] at hc1
      exact wsGap_all s _ c hc1
    simp only [List.length_append, List.length_cons, List.length_nil] at hfuel
    obtain ⟨f, rfl⟩ : ∃ f, fuel = f + 1 := ⟨fuel - 1, by omega⟩
    obtain ⟨ty2, hpt, htnT, hndT⟩ := compT ht tmap out g
      (G2 ++ (',' :: (GC ++ (rend tmap s rest ++ kk)))) π f htm hkf hdrop hg
      (fun _ => by
        refine head_append_all _ G2 _
          (fun c hc1 => ws_not_tname c (hG2ws c hc1)) ?_
        intro c hc1
        have h5 : ',' = c := by simpa using hc1
        rw [← h5]
        decide)
      (fun _ c hc1 => by
        rw [dropWhile_all _ G2 _ hG2ws] at hc1
        rw [dropWhile_head_neg isWsChar _ (by
          intro c0 hc0
          have h5 : ',' = c0 := by simpa using hc0
          rw [← h5]
          decide)] at hc1
        have h5 : ',' = c := by simpa using hc1
        rw [← h5]
        exact ⟨by decide, by decide, by decide⟩)
      (by omega)
    have hdropT : out.drop (π + g.length)
        = rend tmap s ty ++ (G2 ++ (',' :: (GC ++ (rend tmap s rest ++ kk))))
        := by
      rw [drop_shift out π g.length _ hdrop, List.drop_left]
    have hdropP : out.drop (π + g.length + (rend tmap s ty).length)
        = G2 ++ (',' :: (GC ++ (rend tmap s rest ++ kk))) := by
      rw [drop_shift out (π + g.length) (rend tmap s ty).length _ hdropT,
        List.drop_left]
    have hskipT : skipWs out (π + g.length + (rend tmap s ty).length)
        = π + g.length + (rend tmap s ty).length + G2.length := by
      refine skipWs_drop out _ G2 _ hdropP hG2ws ?_
      intro c0 hc0
      have h5 : ',' = c0 := by simpa using hc0
      rw [← h5]
      decide
    have hdropCm : out.drop
        (π + g.length + (rend tmap s ty).length + G2.length)
        = ',' :: (GC ++ (rend tmap s rest ++ kk)) := by
      rw [drop_shift out (π + g.length + (rend tmap s ty).length) G2.length
        _ hdropP, List.drop_left]
    have hgetT : out.get?
        (π + g.length + (rend tmap s ty).length + G2.length) = some ',' := by
      rw [get?_of_drop out _ _ hdropCm]
      rfl
    have hdropR : out.drop
        (π + g.length + (rend tmap s ty).length + G2.length + 1)
        = GC ++ (rend tmap s rest ++ kk) := by
      rw [drop_shift out (π + g.length + (rend tmap s ty).length + G2.length)
        1 _ hdropCm]
      rfl
    obtain ⟨rest2, hpr, htnR, hndR⟩ := compL hrest tmap out GC kk
      (π + g.length + (rend tmap s ty).length + G2.length + 1) f htm hkf
      hdropR hGCws hk1 hk2 (by omega)
    refine ⟨.tree "typelist".data
      [ty2, .token (mkTok "COMMA" [',']
        (π + g.length + (rend tmap s ty).length + G2.length)), rest2],
      ?_, ?_, ?_⟩
    · simp only [parse_typelist, hpt]
      rw [hskipT]
      simp only [hgetT]
      rw [if_true]
      simp only [hpr]
      simp only [Option.some.injEq, Prod.mk.injEq]
      refine ⟨trivial, ?_⟩
      simp only [List.length_append, List.length_cons, List.length_nil]
      omega
    · rw [tnFree_tree]
      simp only [List.all_cons, List.all_nil, Bool.and_true]
      rw [htnT, htnR]
      simp [tnFree, nodeTokens, nodeTokens.nodeTokensList, mkTok]
    · simp [noDefval, noDefvalList, hndT, hndR]
end

/-- A `CNAME` start character is none of the grammar's punctuation marks. -/
theorem cname_start_ne (c : Char) (h : isCnameStart c = true) :
    c ≠ '&' ∧ c ≠ '*' ∧ c ≠ '<' ∧ c ≠ ',' ∧ c ≠ '=' ∧ c ≠ '(' ∧ c ≠ ')' := by
  refine ⟨?_, ?_, ?_, ?_, ?_, ?_, ?_⟩ <;>
    · intro he
      rw [he] at h
      exact absurd h (by decide)

/-- After a `type` whose rendering ends in a `TNAME` run, the source
character at the end position is not a `TNAME` character. -/
theorem accT_stop : ∀ {s : Str} {i : Nat} {ty : Node} {j : Nat},
    AccT s i ty j → endsTname ty = true →
    ∀ c0, s.get? j = some c0 → isTnameChar c0 = false
  | _, _, _, _, .const_ref s i core j r k hrun hc hr => fun hET => by
    cases hr with
    | ref h => exact Bool.noConfusion hET
    | ptr h => exact Bool.noConfusion hET
  | _, _, _, _, .const_noref s i core j hrun hc => fun hET => by
    cases hc with
    | tname hne => exact fun c0 hc0 => runOf_stop isTnameChar s _ c0 hc0
    | template tl m hne hlt htl hgt => exact Bool.noConfusion hET
  | _, _, _, _, .plain_ref s i core j r k hrun hc hr => fun hET => by
    cases hr with
    | ref h => exact Bool.noConfusion hET
    | ptr h => exact Bool.noConfusion hET
  | _, _, _, _, .plain_noref s i core j hrun hc => fun hET => by
    cases hc with
    | tname hne => exact fun c0 hc0 => runOf_stop isTnameChar s _ c0 hc0
    | template tl m hne hlt htl hgt => exact Bool.noConfusion hET


/-- Reparse completeness for rendered `param` subtrees. -/
theorem compParam : ∀ {s : Str} {i : Nat} {p : Node} {j : Nat},
    AccParam s i p j →
    ∀ (tmap : List (Str × Str)) (out g kk : Str) (π fuel : Nat),
    tmapValsOK tmap = true → tmapKeyFree tmap = true →
    out.drop π = g ++ (rend tmap s p ++ kk) →
    (∀ c ∈ g, isWsChar c = true) →
    (∀ c, kk.head? = some c → isCnameChar c = false) →
    (∀ c, (kk.dropWhile isWsChar).head? = some c → c ≠ '=') →
    (rend tmap s p).length + 1 ≤ fuel →
    ∃ p2, parse_param fuel out π
        = some (p2, π + g.length + (rend tmap s p).length) ∧
      tnFree tmap p2 = true ∧ noDefval p2 = true
  | _, _, _, _, .plain s i ty j nm k ht hn =>
    fun tmap out g kk π fuel htm hkf hdrop hg hk1 hk2 hfuel => by
    cases hn with
    | mk c hc hst =>
      have hrend := rendP_plain_eq tmap s i ty j ht
      rw [hrend] at hdrop hfuel ⊢
      simp only [List.append_assoc] at hdrop
      set G2 := natSlice s j (skipWs s j) with hG2
      have hG2ws : ∀ c1 ∈ G2, isWsChar c1 = true := by
        intro c1 hc1
        rw [hG2] at hc1
        exact wsGap_all s _ c1 hc1
      obtain ⟨tr, hnmv⟩ := runOf_cons isCnameChar s (skipWs s j) c hc
        (cname_start_cname c hst)
      have hnmvne : runOf isCnameChar s (skipWs s j) ≠ [] := by
        rw [hnmv]; simp
      have hcne := cname_start_ne c hst
      have hcws : isWsChar c = false := cname_start_not_ws c hst
      have hbound : endsTname ty = true → ∀ c0,
          (G2 ++ (runOf isCnameChar s (skipWs s j) ++ kk)).head? = some c0 →
          isTnameChar c0 = false := by
        intro hET
        refine boundary_not_tname s j _
          (runOf isCnameChar s (skipWs s j) ++ kk) (by rw [hG2]) ?_
          (accT_stop ht hET)
        intro c0 hc0
        rw [head?_append_ne _ _ hnmvne, hnmv] at hc0
        have h5 : c = c0 := by simpa using hc0
        rw [← h5]
        exact hc
      have hfnw : ∀ c0, (List.dropWhile isWsChar
          (G2 ++ (runOf isCnameChar s (skipWs s j) ++ kk))).head?
          = some c0 → c0 = c := by
        intro c0 hc0
        rw [dropWhile_all _ G2 _ hG2ws] at hc0
        rw [dropWhile_head_neg isWsChar _ (by
          intro c1 hc1
          rw [head?_append_ne _ _ hnmvne, hnmv] at hc1
          have h5 : c = c1 := by simpa using hc1
          rw [← h5]
          exact hcws)] at hc0
        rw [head?_append_ne _ _ hnmvne, hnmv] at hc0
        have h5 : c = c0 := by simpa using hc0
        exact h5.symm
      simp only [List.length_append] at hfuel
      obtain ⟨ty2, hpt, htnT, hndT⟩ := compT ht tmap out g
        (G2 ++ (runOf isCnameChar s (skipWs s j) ++ kk)) π fuel htm hkf hdrop
        hg hbound
        (fun _ c0 hc0 => by
          rw [hfnw c0 hc0]
          exact ⟨hcne.1, hcne.2.1, hcne.2.2.1⟩)
        (by omega)
      have hdropT : out.drop (π + g.length)
          = rend tmap s ty
            ++ (G2 ++ (runOf isCnameChar s (skipWs s j) ++ kk)) := by
        rw [drop_shift out π g.length _ hdrop, List.drop_left]
      have hdropN : out.drop (π + g.length + (rend tmap s ty).length)
          = G2 ++ (runOf isCnameChar s (skipWs s j) ++ kk) := by
        rw [drop_shift out (π + g.length) (rend tmap s ty).length _ hdropT,
          List.drop_left]
      have hname := compName (AccName.mk s j c hc hst) out G2 kk
        (π + g.length + (rend tmap s ty).length) hdropN hG2ws hk1
      simp only [mkTok] at hname
      have hdropG2 : out.drop (π + g.length + (rend tmap s ty).length
          + G2.length) = runOf isCnameChar s (skipWs s j) ++ kk := by
        rw [drop_shift out (π + g.length + (rend tmap s ty).length) G2.length
          _ hdropN, List.drop_left]
      have hdropE : out.drop (π + g.length + (rend tmap s ty).length
          + G2.length + (runOf isCnameChar s (skipWs s j)).length) = kk := by
        rw [drop_shift out
          (π + g.length + (rend tmap s ty).length + G2.length)
          (runOf isCnameChar s (skipWs s j)).length _ hdropG2, List.drop_left]
      have hgetE : out.get? (skipWs out (π + g.length
          + (rend tmap s ty).length + G2.length
          + (runOf isCnameChar s (skipWs s j)).length))
          = (kk.dropWhile isWsChar).head? := get?_skipWs_drop out _ kk hdropE
      refine ⟨.tree "param".data
        [ty2, .tree "param_name".data
          [.token (mkTok "CNAME" (runOf isCnameChar s (skipWs s j))
            (π + g.length + (rend tmap s ty).length + G2.length))]],
        ?_, ?_, ?_⟩
      · simp only [parse_param, hpt, hname]
        rcases hpeek : (kk.dropWhile isWsChar).head? with _ | c0
        · simp only [hgetE, hpeek]
          simp only [Option.some.injEq, Prod.mk.injEq, mkTok]
          refine ⟨trivial, ?_⟩
          simp only [List.length_append]
          omega
        · have hne0 : c0 ≠ '=' := hk2 c0 hpeek
          simp only [hgetE, hpeek]
          rw [if_neg hne0]
          simp only [Option.some.injEq, Prod.mk.injEq, mkTok]
          refine ⟨trivial, ?_⟩
          simp only [List.length_append]
          omega
      · rw [tnFree_tree]
        simp only [List.all_cons, List.all_nil, Bool.and_true]
        rw [htnT]
        simp [tnFree, nodeTokens, nodeTokens.nodeTokensList, mkTok]
      · simp [noDefval, noDefvalList, hndT]
  | _, _, _, _, .defval s i ty j nm k iv q ht hn he hiv =>
    fun tmap out g kk π fuel htm hkf hdrop hg hk1 hk2 hfuel => by
    cases hn with
    | mk c hc hst =>
      have hrend := rendP_defval_eq tmap s i ty j
        (skipWs s j + (runOf isCnameChar s (skipWs s j)).length) iv ht
      rw [hrend] at hdrop hfuel ⊢
      simp only [List.append_assoc] at hdrop
      set G2 := natSlice s j (skipWs s j) with hG2
      have hG2ws : ∀ c1 ∈ G2, isWsChar c1 = true := by
        intro c1 hc1
        rw [hG2] at hc1
        exact wsGap_all s _ c1 hc1
      obtain ⟨tr, hnmv⟩ := runOf_cons isCnameChar s (skipWs s j) c hc
        (cname_start_cname c hst)
      have hnmvne : runOf isCnameChar s (skipWs s j) ≠ [] := by
        rw [hnmv]; simp
      have hcne := cname_start_ne c hst
      have hcws : isWsChar c = false := cname_start_not_ws c hst
      have hbound : endsTname ty = true → ∀ c0,
          (G2 ++ (runOf isCnameChar s (skipWs s j) ++ kk)).head? = some c0 →
          isTnameChar c0 = false := by
        intro hET
        refine boundary_not_tname s j _
          (runOf isCnameChar s (skipWs s j) ++ kk) (by rw [hG2]) ?_
          (accT_stop ht hET)
        intro c0 hc0
        rw [head?_append_ne _ _ hnmvne, hnmv] at hc0
        have h5 : c = c0 := by simpa using hc0
        rw [← h5]
        exact hc
      have hfnw : ∀ c0, (List.dropWhile isWsChar
          (G2 ++ (runOf isCnameChar s (skipWs s j) ++ kk))).head?
          = some c0 → c0 = c := by
        intro c0 hc0
        rw [dropWhile_all _ G2 _ hG2ws] at hc0
        rw [dropWhile_head_neg isWsChar _ (by
          intro c1 hc1
          rw [head?_append_ne _ _ hnmvne, hnmv] at hc1
          have h5 : c = c1 := by simpa using hc1
          rw [← h5]
          exact hcws)] at hc0
        rw [head?_append_ne _ _ hnmvne, hnmv] at hc0
        have h5 : c = c0 := by simpa using hc0
        exact h5.symm
      simp only [List.length_append] at hfuel
      obtain ⟨ty2, hpt, htnT, hndT⟩ := compT ht tmap out g
        (G2 ++ (runOf isCnameChar s (skipWs s j) ++ kk)) π fuel htm hkf hdrop
        hg hbound
        (fun _ c0 hc0 => by
          rw [hfnw c0 hc0]
          exact ⟨hcne.1, hcne.2.1, hcne.2.2.1⟩)
        (by omega)
      have hdropT : out.drop (π + g.length)
          = rend tmap s ty
            ++ (G2 ++ (runOf isCnameChar s (skipWs s j) ++ kk)) := by
        rw [drop_shift out π g.length _ hdrop, List.drop_left]
      have hdropN : out.drop (π + g.length + (rend tmap s ty).length)
          = G2 ++ (runOf isCnameChar s (skipWs s j) ++ kk) := by
        rw [drop_shift out (π + g.length) (rend tmap s ty).length _ hdropT,
          List.drop_left]
      have hname := compName (AccName.mk s j c hc hst) out G2 kk
        (π + g.length + (rend tmap s ty).length) hdropN hG2ws hk1
      simp only [mkTok] at hname
      have hdropG2 : out.drop (π + g.length + (rend tmap s ty).length
          + G2.length) = runOf isCnameChar s (skipWs s j) ++ kk := by
        rw [drop_shift out (π + g.length + (rend tmap s ty).length) G2.length
          _ hdropN, List.drop_left]
      have hdropE : out.drop (π + g.length + (rend tmap s ty).length
          + G2.length + (runOf isCnameChar s (skipWs s j)).length) = kk := by
        rw [drop_shift out
          (π + g.length + (rend tmap s ty).length + G2.length)
          (runOf isCnameChar s (skipWs s j)).length _ hdropG2, List.drop_left]
      have hgetE : out.get? (skipWs out (π + g.length
          + (rend tmap s ty).length + G2.length
          + (runOf isCnameChar s (skipWs s j)).length))
          = (kk.dropWhile isWsChar).head? := get?_skipWs_drop out _ kk hdropE
      refine ⟨.tree "param".data
        [ty2, .tree "param_name".data
          [.token (mkTok "CNAME" (runOf isCnameChar s (skipWs s j))
            (π + g.length + (rend tmap s ty).length + G2.length))]],
        ?_, ?_, ?_⟩
      · simp only [parse_param, hpt, hname]
        rcases hpeek : (kk.dropWhile isWsChar).head? with _ | c0
        · simp only [hgetE, hpeek]
          simp only [Option.some.injEq, Prod.mk.injEq, mkTok]
          refine ⟨trivial, ?_⟩
          simp only [List.length_append]
          omega
        · have hne0 : c0 ≠ '=' := hk2 c0 hpeek
          simp only [hgetE, hpeek]
          rw [if_neg hne0]
          simp only [Option.some.injEq, Prod.mk.injEq, mkTok]
          refine ⟨trivial, ?_⟩
          simp only [List.length_append]
          omega
      · rw [tnFree_tree]
        simp only [List.all_cons, List.all_nil, Bool.and_true]
        rw [htnT]
        simp [tnFree, nodeTokens, nodeTokens.nodeTokensList, mkTok]
      · simp [noDefval, noDefvalList, hndT]

/-- Reparse completeness for rendered `params` subtrees. -/
theorem compParams : ∀ {s : Str} {i : Nat} {ps : Node} {j : Nat},
    AccParams s i ps j →
    ∀ (tmap : List (Str × Str)) (out g kk : Str) (π fuel : Nat),
    tmapValsOK tmap = true → tmapKeyFree tmap = true →
    out.drop π = g ++ (rend tmap s ps ++ kk) →
    (∀ c ∈ g, isWsChar c = true) →
    (∀ c, kk.head? = some c → isCnameChar c = false) →
    (∀ c, (kk.dropWhile isWsChar).head? = some c → c ≠ ',' ∧ c ≠ '=') →
    (rend tmap s ps).length + 2 ≤ fuel →
    ∃ ps2, parse_params fuel out π
        = some (ps2, π + g.length + (rend tmap s ps).length) ∧
      tnFree tmap ps2 = true ∧ noDefval ps2 = true
  | _, _, _, _, .single s i p j hp =>
    fun tmap out g kk π fuel htm hkf hdrop hg hk1 hk2 hfuel => by
    have hrend := rendPs_single_eq tmap s p
    rw [hrend] at hdrop hfuel ⊢
    obtain ⟨f, rfl⟩ : ∃ f, fuel = f + 1 := ⟨fuel - 1, by omega⟩
    obtain ⟨p2, hpp, htnP, hndP⟩ := compParam hp tmap out g kk π f htm hkf
      hdrop hg hk1 (fun c hc => (hk2 c hc).2) (by omega)
    have hdropT : out.drop (π + g.length) = rend tmap s p ++ kk := by
      rw [drop_shift out π g.length _ hdrop, List.drop_left]
    have hdropP : out.drop (π + g.length + (rend tmap s p).length) = kk := by
      rw [drop_shift out (π + g.length) (rend tmap s p).length _ hdropT,
        List.drop_left]
    have hgetP : out.get?
        (skipWs out (π + g.length + (rend tmap s p).length))
        = (kk.dropWhile isWsChar).head? := get?_skipWs_drop out _ kk hdropP
    refine ⟨.tree "params".data [p2], ?_, ?_, ?_⟩
    · simp only [parse_params, hpp]
      rcases hpeek : (kk.dropWhile isWsChar).head? with _ | c
      · simp only [hgetP, hpeek]
      · have hcm : c ≠ ',' := (hk2 c hpeek).1
        simp only [hgetP, hpeek]
        rw [if_neg hcm]
    · rw [tnFree_tree]
      simp only [List.all_cons, List.all_nil, Bool.and_true]
      exact htnP
    · simp [noDefval, noDefvalList, hndP]
  | _, _, _, _, .cons s i p j rest m hp hcm hrest =>
    fun tmap out g kk π fuel htm hkf hdrop hg hk1 hk2 hfuel => by
    have hrend := rendPs_cons_eq tmap s i p j rest m hp hrest
    rw [hrend] at hdrop hfuel ⊢
    simp only [List.append_assoc, List.cons_append, List.nil_append] at hdrop
    set G2 := natSlice s j (skipWs s j) with hG2
    set GC := natSlice s (skipWs s j + 1) (skipWs s (skipWs s j + 1)) with hGC
    have hG2ws : ∀ c ∈ G2, isWsChar c = true := by
      intro c hc1
      rw [hG2] at hc1
      exact wsGap_all s _ c hc1
    have hGCws : ∀ c ∈ GC, isWsChar c = true := by
      intro c hc1
      rw [hGC] at hc1
      exact wsGap_all s _ c hc1
    simp only [List.length_append, List.length_cons, List.length_nil] at hfuel
    obtain ⟨f, rfl⟩ : ∃ f, fuel = f + 1 := ⟨fuel - 1, by omega⟩
    obtain ⟨p2, hpp, htnP, hndP⟩ := compParam hp tmap out g
      (G2 ++ (',' :: (GC ++ (rend tmap s rest ++ kk)))) π f htm hkf hdrop hg
      (fun c hc1 => by
        revert hc1
        refine head_append_all _ G2 _
          (fun c1 hc2 => ws_not_cname c1 (hG2ws c1 hc2)) ?_ c
        intro c1 hc2
        have h5 : ',' = c1 := by simpa using hc2
        rw [← h5]
        decide)
      (fun c hc1 => by
        rw [dropWhile_all _ G2 _ hG2ws] at hc1
        rw [dropWhile_head_neg isWsChar _ (by
          intro c0 hc0
          have h5 : ',' = c0 := by simpa using hc0
          rw [← h5]
          decide)] at hc1
        have h5 : ',' = c := by simpa using hc1
        rw [← h5]
        decide)
      (by omega)
    have hdropT : out.drop (π + g.length)
        = rend tmap s p ++ (G2 ++ (',' :: (GC ++ (rend tmap s rest ++ kk))))
        := by
      rw [drop_shift out π g.length _ hdrop, List.drop_left]
    have hdropP : out.drop (π + g.length + (rend tmap s p).length)
        = G2 ++ (',' :: (GC ++ (rend tmap s rest ++ kk))) := by
      rw [drop_shift out (π + g.length) (rend tmap s p).length _ hdropT,
        List.drop_left]
    have hskipT : skipWs out (π + g.length + (rend tmap s p).length)
        = π + g.length + (rend tmap s p).length + G2.length := by
      refine skipWs_drop out _ G2 _ hdropP hG2ws ?_
      intro c0 hc0
      have h5 : ',' = c0 := by simpa using hc0
      rw [← h5]
      decide
    have hdropCm : out.drop
        (π + g.length + (rend tmap s p).length + G2.length)
        = ',' :: (GC ++ (rend tmap s rest ++ kk)) := by
      rw [drop_shift out (π + g.length + (rend tmap s p).length) G2.length
        _ hdropP, List.drop_left]
    have hgetT : out.get?
        (π + g.length + (rend tmap s p).length + G2.length) = some ',' := by
      rw [get?_of_drop out _ _ hdropCm]
      rfl
    have hdropR : out.drop
        (π + g.length + (rend tmap s p).length + G2.length + 1)
        = GC ++ (rend tmap s rest ++ kk) := by
      rw [drop_shift out (π + g.length + (rend tmap s p).length + G2.length)
        1 _ hdropCm]
      rfl
    obtain ⟨rest2, hpr, htnR, hndR⟩ := compParams hrest tmap out GC kk
      (π + g.length + (rend tmap s p).length + G2.length + 1) f htm hkf
      hdropR hGCws hk1 hk2 (by omega)
    refine ⟨.tree "params".data
      [p2, .token (mkTok "COMMA" [',']
        (π + g.length + (rend tmap s p).length + G2.length)), rest2],
      ?_, ?_, ?_⟩
    · simp only [parse_params, hpp]
      rw [hskipT]
      simp only [hgetT]
      rw [if_true]
      simp only [hpr]
      simp only [Option.some.injEq, Prod.mk.injEq]
      refine ⟨trivial, ?_⟩
      simp only [List.length_append, List.length_cons, List.length_nil]
      omega
    · rw [tnFree_tree]
      simp only [List.all_cons, List.all_nil, Bool.and_true]
      rw [htnP, htnR]
      simp [tnFree, nodeTokens, nodeTokens.nodeTokensList, mkTok]
    · simp [noDefval, noDefvalList, hndP, hndR]

/-- Reparse completeness for a fully rendered signature: the rendered text
parses, its tree has no renameable `TNAME` and no default value, and the
text has no leading or trailing whitespace. -/
theorem compStart : ∀ {s : Str} {t : Node} {E : Nat}, AccStart s t E →
    ∀ (tmap : List (Str × Str)) (out : Str),
    tmapValsOK tmap = true → tmapKeyFree tmap = true →
    out = rend tmap s t →
    ∃ t2, parse_start out = some t2 ∧ tnFree tmap t2 = true ∧
      noDefval t2 = true ∧ out.takeWhile isWsChar = [] ∧
      out.reverse.takeWhile isWsChar = []
  | _, _, _, .mk s ty i fnTok j ps m ht hn hlp hps hrp hend =>
    fun tmap out htm hkf hout => by
    cases hn with
    | mk c hc hst =>
      have hrend := rendStart_eq tmap s ty i ps m ht hps
      rw [hrend] at hout
      set RT := rend tmap s ty with hRT
      set FNV := runOf isCnameChar s (skipWs s i) with hFNV
      set GN := natSlice s i (skipWs s i) with hGN
      set GLP := natSlice s (skipWs s i + FNV.length)
        (skipWs s (skipWs s i + FNV.length)) with hGLP
      set GP := natSlice s (skipWs s (skipWs s i + FNV.length) + 1)
        (skipWs s (skipWs s (skipWs s i + FNV.length) + 1)) with hGP
      set GRP := natSlice s m (skipWs s m) with hGRP
      set RPS := rend tmap s ps with hRPS
      have hGNws : ∀ c1 ∈ GN, isWsChar c1 = true := by
        intro c1 hc1
        rw [hGN] at hc1
        exact wsGap_all s _ c1 hc1
      have hGLPws : ∀ c1 ∈ GLP, isWsChar c1 = true := by
        intro c1 hc1
        rw [hGLP] at hc1
        exact wsGap_all s _ c1 hc1
      have hGPws : ∀ c1 ∈ GP, isWsChar c1 = true := by
        intro c1 hc1
        rw [hGP] at hc1
        exact wsGap_all s _ c1 hc1
      have hGRPws : ∀ c1 ∈ GRP, isWsChar c1 = true := by
        intro c1 hc1
        rw [hGRP] at hc1
        exact wsGap_all s _ c1 hc1
      obtain ⟨tr, hfnv⟩ := runOf_cons isCnameChar s (skipWs s i) c hc
        (cname_start_cname c hst)
      rw [← hFNV] at hfnv
      have hfnvne : FNV ≠ [] := by rw [hfnv]; simp
      have hcne := cname_start_ne c hst
      have hcws : isWsChar c = false := cname_start_not_ws c hst
      have hlen := congrArg List.length hout
      simp only [List.length_append, List.length_cons, List.length_nil] at hlen
      have hdrop0 : out.drop 0
          = [] ++ (RT ++ (GN ++ (FNV ++ (GLP ++ ('(' ::
              (GP ++ (RPS ++ (GRP ++ [')'])))))))) := by
        rw [List.drop_zero, List.nil_append]
        exact hout
      obtain ⟨ty2, hpt, htnT, hndT⟩ := compT ht tmap out []
        (GN ++ (FNV ++ (GLP ++ ('(' :: (GP ++ (RPS ++ (GRP ++ [')'])))))))
        0 (out.length + 1) htm hkf hdrop0 (by simp)
        (fun hET => by
          refine boundary_not_tname s i _
            (FNV ++ (GLP ++ ('(' :: (GP ++ (RPS ++ (GRP ++ [')']))))))
            (by rw [hGN]) ?_ (accT_stop ht hET)
          intro c0 hc0
          rw [head?_append_ne _ _ hfnvne, hfnv] at hc0
          have h5 : c = c0 := by simpa using hc0
          rw [← h5]
          exact hc)
        (fun _ c0 hc0 => by
          rw [dropWhile_all _ GN _ hGNws] at hc0
          rw [dropWhile_head_neg isWsChar _ (by
            intro c1 hc1
            rw [head?_append_ne _ _ hfnvne, hfnv] at hc1
            have h5 : c = c1 := by simpa using hc1
            rw [← h5]
            exact hcws)] at hc0
          rw [head?_append_ne _ _ hfnvne, hfnv] at hc0
          have h5 : c = c0 := by simpa using hc0
          rw [← h5]
          exact ⟨hcne.1, hcne.2.1, hcne.2.2.1⟩)
        (by rw [← hRT]; omega)
      simp only [List.length_nil, Nat.add_zero, Nat.zero_add] at hpt
      rw [← hRT] at hpt
      have hdropN : out.drop RT.length
          = GN ++ (FNV ++ (GLP ++ ('(' :: (GP ++ (RPS ++ (GRP ++ [')']))))))
          := by
        have h1 := drop_shift out 0 RT.length _ hdrop0
        rw [List.nil_append, List.drop_left] at h1
        simpa using h1
      have hname := compName (AccName.mk s i c hc hst) out GN
        (GLP ++ ('(' :: (GP ++ (RPS ++ (GRP ++ [')']))))) RT.length hdropN
        hGNws
        (by
          refine head_append_all _ GLP _
            (fun c1 hc1 => ws_not_cname c1 (hGLPws c1 hc1)) ?_
          intro c1 hc1
          have h5 : '(' = c1 := by simpa using hc1
          rw [← h5]
          decide)
      simp only [mkTok] at hname
      rw [← hFNV] at hname
      have hdropGN : out.drop (RT.length + GN.length)
          = FNV ++ (GLP ++ ('(' :: (GP ++ (RPS ++ (GRP ++ [')']))))) := by
        rw [drop_shift out RT.length GN.length _ hdropN, List.drop_left]
      have hdropFNV : out.drop (RT.length + GN.length + FNV.length)
          = GLP ++ ('(' :: (GP ++ (RPS ++ (GRP ++ [')'])))) := by
        rw [drop_shift out (RT.length + GN.length) FNV.length _ hdropGN,
          List.drop_left]
      have hskipLP : skipWs out (RT.length + GN.length + FNV.length)
          = RT.length + GN.length + FNV.length + GLP.length := by
        refine skipWs_drop out _ GLP _ hdropFNV hGLPws ?_
        intro c0 hc0
        have h5 : '(' = c0 := by simpa using hc0
        rw [← h5]
        decide
      have hdropLP : out.drop
          (RT.length + GN.length + FNV.length + GLP.length)
          = '(' :: (GP ++ (RPS ++ (GRP ++ [')']))) := by
        rw [drop_shift out (RT.length + GN.length + FNV.length) GLP.length
          _ hdropFNV, List.drop_left]
      have hgetLP : out.get?
          (RT.length + GN.length + FNV.length + GLP.length) = some '(' := by
        rw [get?_of_drop out _ _ hdropLP]
        rfl
      have hdropGP : out.drop
          (RT.length + GN.length + FNV.length + GLP.length + 1)
          = GP ++ (RPS ++ (GRP ++ [')'])) := by
        rw [drop_shift out (RT.length + GN.length + FNV.length + GLP.length)
          1 _ hdropLP]
        rfl
      obtain ⟨ps2, hpp, htnPs, hndPs⟩ := compParams hps tmap out GP
        (GRP ++ [')'])
        (RT.length + GN.length + FNV.length + GLP.length + 1)
        (out.length + 1) htm hkf hdropGP hGPws
        (by
          refine head_append_all _ GRP _
            (fun c1 hc1 => ws_not_cname c1 (hGRPws c1 hc1)) ?_
          intro c1 hc1
          have h5 : ')' = c1 := by simpa using hc1
          rw [← h5]
          decide)
        (fun c0 hc0 => by
          rw [dropWhile_all _ GRP _ hGRPws] at hc0
          rw [dropWhile_head_neg isWsChar _ (by
            intro c1 hc1
            have h5 : ')' = c1 := by simpa using hc1
            rw [← h5]
            decide)] at hc0
          have h5 : ')' = c0 := by simpa using hc0
          rw [← h5]
          exact ⟨by decide, by decide⟩)
        (by rw [← hRPS]; omega)
      rw [← hRPS] at hpp
      have hdropPS : out.drop (RT.length + GN.length + FNV.length
          + GLP.length + 1 + GP.length) = RPS ++ (GRP ++ [')']) := by
        rw [drop_shift out
          (RT.length + GN.length + FNV.length + GLP.length + 1) GP.length
          _ hdropGP, List.drop_left]
      have hdropRPS : out.drop (RT.length + GN.length + FNV.length
          + GLP.length + 1 + GP.length + RPS.length) = GRP ++ [')'] := by
        rw [drop_shift out
          (RT.length + GN.length + FNV.length + GLP.length + 1 + GP.length)
          RPS.length _ hdropPS, List.drop_left]
      have hskipRP : skipWs out (RT.length + GN.length + FNV.length
          + GLP.length + 1 + GP.length + RPS.length)
          = RT.length + GN.length + FNV.length + GLP.length + 1 + GP.length
            + RPS.length + GRP.length := by
        refine skipWs_drop out _ GRP _ hdropRPS hGRPws ?_
        intro c0 hc0
        have h5 : ')' = c0 := by simpa using hc0
        rw [← h5]
        decide
      have hdropRP : out.drop (RT.length + GN.length + FNV.length
          + GLP.length + 1 + GP.length + RPS.length + GRP.length)
          = [')'] := by
        rw [drop_shift out
          (RT.length + GN.length + FNV.length + GLP.length + 1 + GP.length
            + RPS.length) GRP.length _ hdropRPS, List.drop_left]
      have hgetRP : out.get? (RT.length + GN.length + FNV.length
          + GLP.length + 1 + GP.length + RPS.length + GRP.length)
          = some ')' := by
        rw [get?_of_drop out _ _ hdropRP]
        rfl
      have hdropEnd : out.drop (RT.length + GN.length + FNV.length
          + GLP.length + 1 + GP.length + RPS.length + GRP.length + 1)
          = [] := by
        rw [drop_shift out
          (RT.length + GN.length + FNV.length + GLP.length + 1 + GP.length
            + RPS.length + GRP.length) 1 _ hdropRP]
        rfl
      have hskipEnd : skipWs out (RT.length + GN.length + FNV.length
          + GLP.length + 1 + GP.length + RPS.length + GRP.length + 1)
          = RT.length + GN.length + FNV.length + GLP.length + 1 + GP.length
            + RPS.length + GRP.length + 1 := by
        have h1 := skipWs_drop out
          (RT.length + GN.length + FNV.length + GLP.length + 1 + GP.length
            + RPS.length + GRP.length + 1) [] [] (by simpa using hdropEnd)
          (by simp) (by intro c0 hc0; cases hc0)
        simpa using h1
      have hgetEnd : out.get? (RT.length + GN.length + FNV.length
          + GLP.length + 1 + GP.length + RPS.length + GRP.length + 1)
          = none := by
        rw [get?_of_drop out _ _ hdropEnd]
        rfl
      refine ⟨.tree "start".data
        [ty2,
         .tree "fnname".data
           [.token (mkTok "CNAME" FNV (RT.length + GN.length))],
         .token (mkTok "LPAR" ['(']
           (RT.length + GN.length + FNV.length + GLP.length)),
         ps2,
         .token (mkTok "RPAR" [')']
           (RT.length + GN.length + FNV.length + GLP.length + 1 + GP.length
             + RPS.length + GRP.length))], ?_, ?_, ?_, ?_, ?_⟩
      · simp only [parse_start, hpt, hname]
        rw [hskipLP]
        simp only [hgetLP]
        rw [if_true]
        simp only [hpp]
        rw [hskipRP]
        simp only [hgetRP]
        rw [if_true]
        rw [hskipEnd]
        simp only [hgetEnd]
        simp [mkTok]
      · rw [tnFree_tree]
        simp only [List.all_cons, List.all_nil, Bool.and_true]
        rw [htnT, htnPs]
        simp [tnFree, nodeTokens, nodeTokens.nodeTokensList, mkTok]
      · simp [noDefval, noDefvalList, hndT, hndPs]
      · obtain ⟨ch0, z0, hz0, hw0⟩ := rendT_head tmap htm ht
        rw [← hRT] at hz0
        rw [hout, hz0]
        simp only [List.cons_append, List.takeWhile_cons]
        rw [if_neg (by simp [hw0])]
      · have hX : out = (RT ++ GN ++ FNV ++ GLP ++ ['('] ++ GP ++ RPS ++ GRP)
            ++ [')'] := by
          rw [hout]
          simp [List.append_assoc]
        rw [hX, List.reverse_append]
        simp only [List.reverse_cons, List.reverse_nil, List.nil_append,
          List.cons_append, List.takeWhile_cons]
        rw [if_neg (by decide)]

/-- The namespace map's replacement values are nonempty non-`const`
`TNAME` runs. -/
theorem TYPE_NSMAP_valsOK : tmapValsOK TYPE_NSMAP = true := by decide

/-- No replacement value of the namespace map is itself a key. -/
theorem TYPE_NSMAP_keyFree : tmapKeyFree TYPE_NSMAP = true := by decide

/-- C8: for every signature accepted by the grammar, applying the
namespace-rewrite transform (`rewrite_signature` with `_TYPE_NSMAP`) twice
yields the same text as applying it once: the rewritten text parses again,
its renamed `TNAME` tokens are no longer keys of the table, its default
values are gone, and rewriting it reproduces it verbatim. -/
theorem C8_idempotent (s out : Str)
    (h : rewrite_signature s TYPE_NSMAP = some out) :
    rewrite_signature out TYPE_NSMAP = some out := by
  rcases hp : parse_start s with _ | t
  · rw [rewrite_signature, hp] at h
    cases h
  · have hr := rewrite_signature_rend s t TYPE_NSMAP hp
    rw [h] at hr
    have hout : out = rend TYPE_NSMAP s t := by
      simpa using hr
    obtain ⟨E, hacc⟩ := parse_start_acc s t hp
    obtain ⟨t2, hp2, htn2, hnd2, h5, h6⟩ := compStart hacc TYPE_NSMAP out
      TYPE_NSMAP_valsOK TYPE_NSMAP_keyFree hout
    exact C8_idempotent_conditional s out t2 h hp2 htn2 hnd2 h5 h6

/-- Witness for C8 at a concrete signature. -/
theorem C8_idempotent_witness :
    rewrite_signature "at::Tensor add(at::Tensor a, at::Tensor b)".data
      TYPE_NSMAP
    = some "at::Tensor add(at::Tensor a, at::Tensor b)".data :=
  C8_idempotent "Tensor add(Tensor a, Tensor b)".data
    "at::Tensor add(at::Tensor a, at::Tensor b)".data (by rfl)
